import Mathlib

/-!
# link: sessions, the session manager and channels

A shallow embedding of the Go package `link` (`session.go`, `manager.go`,
`channel.go`, `api.go`), and proofs about it.

## The model

* Objects that the Go code reaches through pointers live in a `World`: a heap of
  `Session`s, of `Channel`s and of `Manager`s, each indexed by an address. A session
  address is allocated by `newSession`; every channel cell and manager cell starts as its
  constructor (`NewChannel`, `NewManager`) leaves it.
* The close-callback registry of a session is the singly linked list of the source:
  every session owns the `closeCallback` cells allocated by `AddCloseCallback`
  (`cbHeap`), a cell is named by its address (`0` is `nil`, address `a + 1` is
  `cbHeap[a]`), and `firstCloseCallback`, `lastCloseCallback` and `Next` hold addresses.
* Loops that follow `Next` pointers take fuel; running out of fuel, following a dangling
  address or dereferencing `nil` gives `none`. On well-formed registries (`Session.wf`)
  these loops are proved to return.
* A Go map is an association list: read through `mapGet`, `mapSet` and `mapDelete` when
  its keys are of type `uint64`, and through `keyGet`, `keySet` and `keyDelete` when they
  are of type `KEY`.
* A goroutine started with `go` is recorded in `World.tasks` and runs later as a step
  of its own (`World.runCloseTask`); every exported operation is one atomic step, which
  is what the mutexes of the source provide for the state each of them guards.
* `World.trace` is an event log: it records each call into user code (codec, callbacks)
  and each insertion into and each call of `delSession` on a manager.
* User code is opaque: a codec is a deterministic state machine, a user callback is a
  tag whose invocation is logged and which does not touch the modelled state. The
  closure that `Channel.Put` registers is the constructor `Func.channelRemove`.
* Values of type `interface{}` used as handler or key are values of comparable dynamic
  types (`Val`), the values that are not equal to themselves included (a NaN): `Val.eq`
  is the `==` of Go, and the maps of the channels (`keyGet`, `keySet`, `keyDelete`) and
  the test of `RemoveCloseCallback` use it, so a NaN key is never found and never
  deleted and every insertion under it adds an entry. A key of an uncomparable dynamic
  type (a slice, a map, a function) makes the map operation panic before it changes
  anything; such keys are not values of `Val`.
* Machine integers: the session id is a `Nat` taken modulo `2 ^ 64`; a `time.Duration` is
  an `Int` wrapped to 64 bits; the counter of the wait group is an `Int`.
* Closing a closed Go channel and sending on a closed Go channel panic. `Session.Close`
  closes the two channels only after its compare-and-swap of `closeFlag` has succeeded,
  and `Session.Send` queues only while `closeFlag` is 0. `Reach.open_chans` proves that
  in every reachable state both channels of a session with `closeFlag = 0` are open, so
  the operations have no panic case.
* `Session.Receive`, `Session.sendLoop` and `Channel.Fetch` are not modelled: the send
  loop is the only consumer of the queue and takes no step here.

## The results

* `Accept_backoff`: the backoff of the accept loop.
* `Session.Close_idempotent`, `Session.Send_blocked`: the close protocol and the
  bounded queue.
* `Session.close_runs_reference_list`: the linked list refines the reference list of
  `refList`, and the goroutine of `Close` invokes its entries in order.
* `Channel.one_callback_per_open_entry`, `Channel.closed_session_is_evicted`,
  `Channel.Put_replaces_session`: channels and close callbacks.
* `Manager.NewSession_on_disposed_shard`, `Manager.GetSession_of_registered`,
  `Manager.wait_counter_counts_sessions`: the sharded registry and its wait counter.
-/

namespace Link

/-! ## Go values -/

/-- A Go `interface{}` value of a comparable dynamic type, as it is used for handlers and
map keys: a `*Channel`, any other datum that is equal to itself, or a value that is not
equal to itself (a floating-point NaN, or a struct or array that holds one). -/
inductive Val where
  | channel (p : Nat)
  | data (n : Nat)
  | nan
deriving DecidableEq, Repr

/-- The comparison `a == b` of Go on two such values: the same value, except that a NaN
is equal to nothing, itself included. -/
def Val.eq (a b : Val) : Bool := decide (a = b ∧ a ≠ Val.nan)

/-- The map key of a channel: `type KEY interface{}`. -/
abbrev KEY := Val

/-- A message: an `interface{}` the package never inspects. -/
abbrev Msg := Nat

/-- A Go `error`. The two sentinels of `session.go`, `io.EOF`, and any other error,
given by whether it is a `net.Error` whose `Temporary()` is true and by its text. -/
inductive GoError where
  | SessionClosedError
  | SessionBlockedError
  | EOF
  | other (temporary : Bool) (text : String)
deriving DecidableEq, Repr

export GoError (SessionClosedError SessionBlockedError)

/-- The method `err.Error()`. -/
def GoError.Error : GoError → String
  | .SessionClosedError => "Session Closed"
  | .SessionBlockedError => "Session Blocked"
  | .EOF => "EOF"
  | .other _ text => text

/-- The test `ne, ok := err.(net.Error); ok && ne.Temporary()`. -/
def GoError.Temporary : GoError → Bool
  | .other t _ => t
  | _ => false

/-- The function `strings.Contains` on the characters of two strings. -/
def stringsContains (s sub : List Char) : Bool :=
  s.tails.any (fun t => sub.isPrefixOf t)

/-- Update of a heap at one address. -/
def upd {α : Type} (f : Nat → α) (a : Nat) (v : α) : Nat → α :=
  fun x => if x = a then v else f x

/-! ## api.go: the accept loop -/

/-- Wrap-around of a 64-bit signed integer (`time.Duration` is an `int64`). -/
def wrapInt64 (x : Int) : Int := (x + 2 ^ 63) % 2 ^ 64 - 2 ^ 63

/-- The constant `time.Millisecond`, in nanoseconds. -/
def Millisecond : Int := 1000000

/-- The constant `time.Second`, in nanoseconds. -/
def Second : Int := 1000000000

/-- One iteration of the backoff in `Accept`: the new value of `tempDelay`. -/
def nextDelay (tempDelay : Int) : Int :=
  let d := if tempDelay = 0 then wrapInt64 (5 * Millisecond) else wrapInt64 (tempDelay * 2)
  if d > Second then Second else d

/-- The loop of `Accept`. The listener is the list of the results its `Accept` method
gives, call after call; the result is the list of the delays slept and what `Accept`
returns (`none` when the listener has nothing more to give, so that the call blocks). -/
def acceptLoop : Int → List (Except GoError Nat) → List Int × Option (Except GoError Nat)
  | _, [] => ([], none)
  | _, .ok conn :: _ => ([], some (.ok conn))
  | tempDelay, .error err :: rest =>
    if err.Temporary then
      let d := nextDelay tempDelay
      let r := acceptLoop d rest
      (d :: r.1, r.2)
    else if stringsContains err.Error.data "use of closed network connection".data then
      ([], some (.error GoError.EOF))
    else
      ([], some (.error err))

/-- The function `Accept(listener)`: `tempDelay` starts at zero. -/
def Accept (listener : List (Except GoError Nat)) : List Int × Option (Except GoError Nat) :=
  acceptLoop 0 listener

/-! ## session.go: the data model -/

/-- A `Codec` supplied by the user, as a deterministic state machine: `Close` and `Send`
map the codec state to a new state and an error; `clearFn` is present when the codec
also implements `ClearSendChan`, and gives the new state and how many queued messages
the codec receives from the closed queue. -/
structure Codec where
  state : Nat
  closeFn : Nat → Nat × Option GoError
  sendFn : Nat → Msg → Nat × Option GoError
  clearFn : Option (Nat → List Msg → Nat × Nat)

/-- The closure stored in `closeCallback.Func`: the one `Channel.Put` builds,
`func() { channel.Remove(key) }`, or a function of the user. -/
inductive Func where
  | channelRemove (channel : Nat) (key : KEY)
  | user (f : Nat)
deriving DecidableEq, Repr

/-- The struct `closeCallback`; `Next` is an address into the owning session's cells. -/
structure closeCallback where
  Handler : Val
  Key : Val
  Func : Func
  Next : Nat
deriving DecidableEq, Repr

/-- The buffered channel `sendChan`. -/
structure SendChan where
  cap : Nat
  buf : List Msg
  closed : Bool
deriving DecidableEq, Repr

/-- The struct `Session`. The mutexes are not state of the model; `closeChan` is the
flag whether it has been closed; `cbHeap` holds the `closeCallback` cells. -/
structure Session where
  id : Nat
  codec : Codec
  manager : Option Nat
  sendChan : Option SendChan
  closeFlag : Nat
  closeChan : Bool
  cbHeap : List closeCallback
  firstCloseCallback : Nat
  lastCloseCallback : Nat

/-- The struct `Channel`: the map from key to `*Session`, as an association list. -/
structure Channel where
  sessions : List (KEY × Nat)
deriving DecidableEq, Repr

/-- The constant `sessionMapNum`. -/
def sessionMapNum : Nat := 32

/-- The struct `sessionMap`: one shard, the map from session id to `*Session`. -/
structure sessionMap where
  sessions : List (Nat × Nat)
  disposed : Bool
deriving DecidableEq, Repr

/-- The struct `Manager`: the array of shards (indexes below `sessionMapNum`), whether
`disposeOnce` has fired, and the counter of the wait group. -/
structure Manager where
  sessionMaps : Nat → sessionMap
  disposeOnce : Bool
  disposeWait : Int

/-- A goroutine that has been started and has not run yet. -/
inductive Task where
  | sendLoop (session : Nat)
  | closeTask (session : Nat)
deriving DecidableEq, Repr

/-- An entry of the event log. -/
inductive Event where
  | codecClose (session : Nat)
  | codecSend (session : Nat) (msg : Msg)
  | clearSendChan (session : Nat)
  | callback (session : Nat) (handler key : Val) (func : Func)
  | fetched (channel : Nat) (session : Nat)
  | putSession (manager : Nat) (session : Nat)
  | delSession (manager : Nat) (session : Nat)
deriving DecidableEq, Repr

/-- The state of the program. Session addresses below `nextSession` are allocated. -/
structure World where
  sessions : Nat → Session
  nextSession : Nat
  channels : Nat → Channel
  managers : Nat → Manager
  globalSessionId : Nat
  tasks : List Task
  trace : List Event

/-- A codec whose calls all succeed and which has no `ClearSendChan`. -/
def Codec.plain : Codec :=
  { state := 0, closeFn := fun s => (s, none), sendFn := fun s _ => (s, none), clearFn := none }

/-- The content of a session cell that has never been allocated. -/
def Session.blank : Session :=
  { id := 0, codec := Codec.plain, manager := none, sendChan := none, closeFlag := 0,
    closeChan := false, cbHeap := [], firstCloseCallback := 0, lastCloseCallback := 0 }

/-- The function `NewChannel`: a channel with an empty map. -/
def NewChannel : Channel := { sessions := [] }

/-- The function `NewManager`: every shard has an empty map. -/
def NewManager : Manager :=
  { sessionMaps := fun _ => { sessions := [], disposed := false },
    disposeOnce := false, disposeWait := 0 }

/-- The state at program start: no session allocated, the id counter at zero, every
channel cell and manager cell as its constructor leaves it. -/
def World.init : World :=
  { sessions := fun _ => Session.blank, nextSession := 0, channels := fun _ => NewChannel,
    managers := fun _ => NewManager, globalSessionId := 0, tasks := [], trace := [] }

/-- Replace the session at address `sp`. -/
def World.setSession (w : World) (sp : Nat) (s : Session) : World :=
  { w with sessions := upd w.sessions sp s }

/-- Append an event to the log. -/
def World.log (w : World) (e : Event) : World :=
  { w with trace := w.trace ++ [e] }

/-! ## session.go: operations -/

/-- The function `newSession`: allocates the session, takes the next id from the
64-bit counter, and with a positive `sendChanSize` makes the queue and starts the
send loop. Returns the new state and the address of the session. -/
def newSession (w : World) (manager : Option Nat) (codec : Codec) (sendChanSize : Int) :
    World × Nat :=
  let id := (w.globalSessionId + 1) % 2 ^ 64
  let sp := w.nextSession
  let session : Session :=
    { id := id, codec := codec, manager := manager, sendChan := none, closeFlag := 0,
      closeChan := false, cbHeap := [], firstCloseCallback := 0, lastCloseCallback := 0 }
  let w1 : World := { w with nextSession := sp + 1, globalSessionId := id }
  if sendChanSize > 0 then
    let ch : SendChan := { cap := sendChanSize.toNat, buf := [], closed := false }
    ({ w1 with sessions := upd w1.sessions sp { session with sendChan := some ch },
               tasks := w1.tasks ++ [Task.sendLoop sp] }, sp)
  else
    ({ w1 with sessions := upd w1.sessions sp session }, sp)

/-- The function `NewSession`: a session without manager. -/
def NewSession (w : World) (codec : Codec) (sendChanSize : Int) : World × Nat :=
  newSession w none codec sendChanSize

/-- The method `Session.ID`. -/
def Session.ID (w : World) (sp : Nat) : Nat := (w.sessions sp).id

/-- The method `Session.IsClosed`: `closeFlag == 1`. -/
def Session.IsClosed (w : World) (sp : Nat) : Bool := (w.sessions sp).closeFlag == 1

/-- The part of `Session.Close` under the send lock: close the queue and, when the codec
implements `ClearSendChan`, hand it the queue. -/
def Session.closeSendChan (s : Session) : Session :=
  match s.sendChan with
  | none => s
  | some ch =>
    match s.codec.clearFn with
    | none => { s with sendChan := some { ch with closed := true } }
    | some clear =>
      let r := clear s.codec.state ch.buf
      { s with
          sendChan := some { ch with closed := true, buf := ch.buf.drop r.2 },
          codec := { s.codec with state := r.1 } }

/-- The method `Session.Close`. When the compare-and-swap of `closeFlag` from 0 to 1
succeeds: `closeChan` is closed, the queue is closed, the codec is closed, the goroutine
that runs the callbacks is started and the error of the codec is returned. Otherwise
`SessionClosedError` is returned. -/
def Session.Close (w : World) (sp : Nat) : World × Option GoError :=
  let s := w.sessions sp
  if s.closeFlag = 0 then
    let s1 := { s with closeFlag := 1, closeChan := true }
    let s2 := Session.closeSendChan s1
    let r := s2.codec.closeFn s2.codec.state
    let s3 := { s2 with codec := { s2.codec with state := r.1 } }
    let evs := match s.sendChan, s.codec.clearFn with
      | some _, some _ => [Event.clearSendChan sp, Event.codecClose sp]
      | _, _ => [Event.codecClose sp]
    ({ w with
        sessions := upd w.sessions sp s3,
        tasks := w.tasks ++ [Task.closeTask sp],
        trace := w.trace ++ evs }, r.2)
  else
    (w, some SessionClosedError)

/-- The method `Session.Send`. Without queue: the codec sends under the send lock and an
error closes the session. With a queue: a closed session gives `SessionClosedError`;
otherwise the message is queued when the queue has room, and a full queue closes the
session and gives `SessionBlockedError`. -/
def Session.Send (w : World) (sp : Nat) (msg : Msg) : World × Option GoError :=
  let s := w.sessions sp
  match s.sendChan with
  | none =>
    if Session.IsClosed w sp then (w, some SessionClosedError)
    else
      let r := s.codec.sendFn s.codec.state msg
      let w1 := (w.setSession sp { s with codec := { s.codec with state := r.1 } }).log
        (Event.codecSend sp msg)
      match r.2 with
      | none => (w1, none)
      | some err => ((Session.Close w1 sp).1, some err)
  | some ch =>
    if Session.IsClosed w sp then (w, some SessionClosedError)
    else if ch.buf.length < ch.cap then
      (w.setSession sp { s with sendChan := some { ch with buf := ch.buf ++ [msg] } }, none)
    else
      ((Session.Close w sp).1, some SessionBlockedError)

/-- The assignment `p.Next = next` for the cell at address `p`; `none` when `p` is `nil`
or names no cell. -/
def setNext (heap : List closeCallback) (p next : Nat) : Option (List closeCallback) :=
  match p with
  | 0 => none
  | a + 1 =>
    match heap[a]? with
    | none => none
    | some cb => some (heap.set a { cb with Next := next })

/-- The cell `&closeCallback{handler, key, callback, nil}`. -/
def newItem (handler key : Val) (callback : Func) : closeCallback :=
  { Handler := handler, Key := key, Func := callback, Next := 0 }

/-- The method `Session.AddCloseCallback` on the session record (after the test of
`IsClosed`): a new cell is allocated and linked behind `lastCloseCallback`. -/
def Session.addCell (s : Session) (handler key : Val) (callback : Func) : Option Session :=
  let addr := s.cbHeap.length + 1
  if s.firstCloseCallback = 0 then
    some { s with cbHeap := s.cbHeap ++ [newItem handler key callback],
                  firstCloseCallback := addr, lastCloseCallback := addr }
  else
    match setNext s.cbHeap s.lastCloseCallback addr with
    | none => none
    | some heap =>
      some { s with cbHeap := heap ++ [newItem handler key callback], lastCloseCallback := addr }

/-- The method `Session.AddCloseCallback`: nothing on a closed session. -/
def Session.AddCloseCallback (w : World) (sp : Nat) (handler key : Val) (callback : Func) :
    Option World :=
  if Session.IsClosed w sp then some w
  else (Session.addCell (w.sessions sp) handler key callback).map (w.setSession sp)

/-- The loop of `Session.RemoveCloseCallback`: `callback` walks the list, `prev` follows
it; the first cell with equal handler and key is unlinked. -/
def Session.removeLoop (s : Session) (handler key : Val) : Nat → Nat → Nat → Option Session
  | _, _, 0 => some s
  | 0, _, _ + 1 => none
  | fuel + 1, prev, a + 1 =>
    match s.cbHeap[a]? with
    | none => none
    | some cb =>
      if Val.eq cb.Handler handler && Val.eq cb.Key key then
        let unlinked : Option Session :=
          if s.firstCloseCallback = a + 1 then
            some { s with firstCloseCallback := cb.Next }
          else
            (setNext s.cbHeap prev cb.Next).map (fun heap => { s with cbHeap := heap })
        unlinked.map (fun s1 =>
          if s1.lastCloseCallback = a + 1 then { s1 with lastCloseCallback := prev } else s1)
      else
        Session.removeLoop s handler key fuel (a + 1) cb.Next

/-- The method `Session.RemoveCloseCallback`: nothing on a closed session. -/
def Session.RemoveCloseCallback (w : World) (sp : Nat) (handler key : Val) : Option World :=
  if Session.IsClosed w sp then some w
  else
    let s := w.sessions sp
    (Session.removeLoop s handler key (s.cbHeap.length + 1) 0 s.firstCloseCallback).map
      (w.setSession sp)

/-! ## channel.go -/

/-- Map lookup `m[key]` in a map with keys of type `uint64`. -/
def mapGet {κ : Type} [DecidableEq κ] (m : List (κ × Nat)) (key : κ) : Option Nat :=
  (m.find? (fun e => e.1 = key)).map Prod.snd

/-- The statement `delete(m, key)` on a map with keys of type `uint64`. -/
def mapDelete {κ : Type} [DecidableEq κ] (m : List (κ × Nat)) (key : κ) : List (κ × Nat) :=
  m.filter (fun e => e.1 ≠ key)

/-- The statement `m[key] = v` on a map with keys of type `uint64`. -/
def mapSet {κ : Type} [DecidableEq κ] (m : List (κ × Nat)) (key : κ) (v : Nat) :
    List (κ × Nat) :=
  (key, v) :: mapDelete m key

/-- Map lookup `m[key]` in a map with keys of type `KEY`: the value of the entry whose
key is `==` to `key`. A NaN key finds nothing. -/
def keyGet (m : List (KEY × Nat)) (key : KEY) : Option Nat :=
  (m.find? (fun e => Val.eq e.1 key)).map Prod.snd

/-- The statement `delete(m, key)` on a map with keys of type `KEY`: the entry whose key
is `==` to `key` goes. A NaN key deletes nothing. -/
def keyDelete (m : List (KEY × Nat)) (key : KEY) : List (KEY × Nat) :=
  m.filter (fun e => !Val.eq e.1 key)

/-- The statement `m[key] = v` on a map with keys of type `KEY`: the entry whose key is
`==` to `key` is replaced, and without one an entry is added. A NaN key always adds. -/
def keySet (m : List (KEY × Nat)) (key : KEY) (v : Nat) : List (KEY × Nat) :=
  (key, v) :: keyDelete m key

/-- The method `Channel.Len`. -/
def Channel.Len (w : World) (c : Nat) : Nat := (w.channels c).sessions.length

/-- The method `Channel.Get`; `none` is `nil`. -/
def Channel.Get (w : World) (c : Nat) (key : KEY) : Option Nat :=
  keyGet (w.channels c).sessions key

/-- The method `Channel.remove`: deregister the callback, delete the entry. -/
def Channel.remove (w : World) (c : Nat) (key : KEY) (session : Nat) : Option World :=
  (Session.RemoveCloseCallback w session (Val.channel c) key).map (fun w1 =>
    let ch : Channel := { sessions := keyDelete (w1.channels c).sessions key }
    { w1 with channels := upd w1.channels c ch })

/-- The method `Channel.Remove`; the boolean is `exists`. -/
def Channel.Remove (w : World) (c : Nat) (key : KEY) : Option (World × Bool) :=
  match keyGet (w.channels c).sessions key with
  | some session => (Channel.remove w c key session).map (fun w1 => (w1, true))
  | none => some (w, false)

/-- The method `Channel.Put`. -/
def Channel.Put (w : World) (c : Nat) (key : KEY) (session : Nat) : Option World :=
  let removed : Option World :=
    match keyGet (w.channels c).sessions key with
    | some old => Channel.remove w c key old
    | none => some w
  removed.bind (fun w1 =>
    (Session.AddCloseCallback w1 session (Val.channel c) key (Func.channelRemove c key)).map
      (fun w2 =>
        let ch : Channel := { sessions := keySet (w2.channels c).sessions key session }
        { w2 with channels := upd w2.channels c ch }))

/-- The body of the loop of `Channel.FetchAndRemove` for one entry; the call of the
user's `callback(session)` is logged. -/
def Channel.fetchAndRemoveEntry (c : Nat) (acc : Option World) (e : KEY × Nat) : Option World :=
  acc.bind (fun w =>
    (Session.RemoveCloseCallback w e.2 (Val.channel c) e.1).map (fun w1 =>
      let ch : Channel := { sessions := keyDelete (w1.channels c).sessions e.1 }
      ({ w1 with channels := upd w1.channels c ch } : World).log (Event.fetched c e.2)))

/-- The method `Channel.FetchAndRemove`: the loop runs over the entries of the map. -/
def Channel.FetchAndRemove (w : World) (c : Nat) : Option World :=
  (w.channels c).sessions.foldl (Channel.fetchAndRemoveEntry c) (some w)

/-- The method `Channel.Close`: `remove` for every entry of the map. -/
def Channel.Close (w : World) (c : Nat) : Option World :=
  (w.channels c).sessions.foldl
    (fun acc e => acc.bind (fun w1 => Channel.remove w1 c e.1 e.2)) (some w)

/-! ## session.go: the goroutine started by Close -/

/-- The call `callback.Func()`, logged. -/
def callFunc (w : World) (sp : Nat) (cb : closeCallback) : Option World :=
  let w1 := w.log (Event.callback sp cb.Handler cb.Key cb.Func)
  match cb.Func with
  | Func.channelRemove c key => (Channel.Remove w1 c key).map Prod.fst
  | Func.user _ => some w1

/-- The loop of `Session.invokeCloseCallbacks`: call the function of the cell, then
read its `Next`. -/
def Session.invokeLoop (sp : Nat) : Nat → World → Nat → Option World
  | _, w, 0 => some w
  | 0, _, _ + 1 => none
  | fuel + 1, w, a + 1 =>
    match (w.sessions sp).cbHeap[a]? with
    | none => none
    | some cb =>
      (callFunc w sp cb).bind (fun w1 =>
        match (w1.sessions sp).cbHeap[a]? with
        | none => none
        | some cb1 => Session.invokeLoop sp fuel w1 cb1.Next)

/-- The method `Session.invokeCloseCallbacks`. -/
def Session.invokeCloseCallbacks (w : World) (sp : Nat) : Option World :=
  Session.invokeLoop sp ((w.sessions sp).cbHeap.length + 1) w (w.sessions sp).firstCloseCallback

/-! ## manager.go -/

/-- The method `Manager.GetSession`; `none` is `nil`. -/
def Manager.GetSession (w : World) (m : Nat) (sessionID : Nat) : Option Nat :=
  mapGet ((w.managers m).sessionMaps (sessionID % sessionMapNum)).sessions sessionID

/-- The method `Manager.putSession`: a disposed shard closes the session; otherwise the
session is stored and the wait group counts one more. -/
def Manager.putSession (w : World) (m : Nat) (session : Nat) : World :=
  let id := (w.sessions session).id
  let mgr := w.managers m
  let smap := mgr.sessionMaps (id % sessionMapNum)
  if smap.disposed then
    (Session.Close w session).1
  else
    let smap1 : sessionMap := { smap with sessions := mapSet smap.sessions id session }
    let mgr1 : Manager :=
      { mgr with sessionMaps := upd mgr.sessionMaps (id % sessionMapNum) smap1,
                 disposeWait := mgr.disposeWait + 1 }
    ({ w with managers := upd w.managers m mgr1 } : World).log (Event.putSession m session)

/-- The method `Manager.delSession`: a stored session is deleted and the wait group
counts one less. The call is logged. -/
def Manager.delSession (w : World) (m : Nat) (session : Nat) : World :=
  let id := (w.sessions session).id
  let mgr := w.managers m
  let smap := mgr.sessionMaps (id % sessionMapNum)
  let w1 := w.log (Event.delSession m session)
  match mapGet smap.sessions id with
  | some _ =>
    let smap1 : sessionMap := { smap with sessions := mapDelete smap.sessions id }
    let mgr1 : Manager :=
      { mgr with sessionMaps := upd mgr.sessionMaps (id % sessionMapNum) smap1,
                 disposeWait := mgr.disposeWait - 1 }
    { w1 with managers := upd w1.managers m mgr1 }
  | none => w1

/-- The method `Manager.NewSession`. -/
def Manager.NewSession (w : World) (m : Nat) (codec : Codec) (sendChanSize : Int) : World × Nat :=
  let r := newSession w (some m) codec sendChanSize
  (Manager.putSession r.1 m r.2, r.2)

/-- The statement `smap.disposed = true` for shard `i` of manager `m`. -/
def Manager.markDisposed (w : World) (m i : Nat) : World :=
  let mgr := w.managers m
  let smap := mgr.sessionMaps i
  let mgr1 : Manager :=
    { mgr with sessionMaps := upd mgr.sessionMaps i { smap with disposed := true } }
  { w with managers := upd w.managers m mgr1 }

/-- The body of the outer loop of `Manager.Dispose` for shard `i`: mark it disposed
and close every session it holds. -/
def Manager.disposeShard (m : Nat) (w : World) (i : Nat) : World :=
  ((w.managers m).sessionMaps i).sessions.foldl (fun acc e => (Session.Close acc e.2).1)
    (Manager.markDisposed w m i)

/-- The once-guard `disposeOnce` of manager `m` fires. -/
def Manager.markOnce (w : World) (m : Nat) : World :=
  let mgr1 : Manager := { (w.managers m) with disposeOnce := true }
  { w with managers := upd w.managers m mgr1 }

/-- The method `Manager.Dispose` up to its last statement: under `disposeOnce`, every
shard is marked and its sessions are closed. The last statement, `disposeWait.Wait()`,
lets the call return once `disposeWait` is zero (`Manager.disposeReturns`). -/
def Manager.Dispose (w : World) (m : Nat) : World :=
  if (w.managers m).disposeOnce then w
  else (List.range sessionMapNum).foldl (Manager.disposeShard m) (Manager.markOnce w m)

/-- What `disposeWait.Wait()` waits for. -/
def Manager.disposeReturns (w : World) (m : Nat) : Prop := (w.managers m).disposeWait = 0

/-- The goroutine started by `Session.Close`: run the callbacks, then leave the
manager if there is one. -/
def Session.closeTask (w : World) (sp : Nat) : Option World :=
  (Session.invokeCloseCallbacks w sp).map (fun w1 =>
    match (w1.sessions sp).manager with
    | some m => Manager.delSession w1 m sp
    | none => w1)

/-! ## Derived notions for the accept loop -/

/-- The value of `tempDelay` after `n` consecutive temporary errors. -/
def delayAfter (n : Nat) : Int := nextDelay^[n] 0

/-- The delays slept over `n` consecutive temporary errors, from `tempDelay = d`. -/
def delaysFrom : Int → Nat → List Int
  | _, 0 => []
  | d, n + 1 => nextDelay d :: delaysFrom (nextDelay d) n

/-! ## Derived notions for sessions -/

/-- Call `Session.Close` on `sp` `n` times in a row; the state afterwards and what each
call returned, in order. -/
def Session.closeTimes (sp : Nat) : Nat → World → World × List (Option GoError)
  | 0, w => (w, [])
  | n + 1, w =>
    let r := Session.Close w sp
    let rs := Session.closeTimes sp n r.1
    (rs.1, r.2 :: rs.2)

/-- Call `Session.Send` on `sp` for each message of the list in turn; the state afterwards
and what each call returned, in order. -/
def Session.sendAll (sp : Nat) : List Msg → World → World × List (Option GoError)
  | [], w => (w, [])
  | msg :: rest, w =>
    let r := Session.Send w sp msg
    let rs := Session.sendAll sp rest r.1
    (rs.1, r.2 :: rs.2)

/-- The content of the send queue of session `sp`; `none` without queue. -/
def Session.queue (w : World) (sp : Nat) : Option (List Msg) :=
  (w.sessions sp).sendChan.map SendChan.buf

/-- The record of a session after a successful `Close`: flag set, channels closed, codec
closed. -/
def Session.closedRecord (s : Session) : Session :=
  let s2 := Session.closeSendChan { s with closeFlag := 1, closeChan := true }
  { s2 with codec := { s2.codec with state := (s2.codec.closeFn s2.codec.state).1 } }

/-! ## The linked list of close callbacks, read as a list -/

/-- The cell at an address; the address `0` is `nil`. -/
def cellAt (heap : List closeCallback) : Nat → Option closeCallback
  | 0 => none
  | a + 1 => heap[a]?

/-- The addresses met by following `Next` from `p` until `nil`, with fuel. -/
def chainFrom (heap : List closeCallback) : Nat → Nat → Option (List Nat)
  | _, 0 => some []
  | 0, _ + 1 => none
  | fuel + 1, a + 1 =>
    match heap[a]? with
    | none => none
    | some cb => (chainFrom heap fuel cb.Next).map (fun l => (a + 1) :: l)

/-- Following `Next` from `p` meets exactly the addresses `l`, in this order, and then `nil`. -/
def IsChain (heap : List closeCallback) : Nat → List Nat → Prop
  | p, [] => p = 0
  | p, a :: l => p = a ∧ ∃ cb, cellAt heap a = some cb ∧ IsChain heap cb.Next l

/-- The addresses of the cells of the registry of a session, from `firstCloseCallback`. -/
def Session.chain (s : Session) : Option (List Nat) :=
  chainFrom s.cbHeap (s.cbHeap.length + 1) s.firstCloseCallback

/-- An entry of the registry without its link: handler, key and function. -/
abbrev Entry := Val × Val × Func

/-- The entry held by the cell at an address. -/
def entryAt (heap : List closeCallback) (a : Nat) : Option Entry :=
  (cellAt heap a).map (fun cb => (cb.Handler, cb.Key, cb.Func))

/-- The registry of a session as the list of its entries, first cell first. -/
def Session.callbacks (s : Session) : List Entry :=
  match s.chain with
  | none => []
  | some l => l.filterMap (entryAt s.cbHeap)

/-- The registry of a session is well formed: the list from `firstCloseCallback` ends in
`nil`, and if it is not empty `lastCloseCallback` is its last cell. -/
def Session.wf (s : Session) : Bool :=
  match s.chain with
  | none => false
  | some l => l.isEmpty || l.getLast? == some s.lastCloseCallback

/-- Every session of the state has a well-formed registry and a `closeFlag` that is 0
or 1. -/
def World.WF (w : World) : Prop :=
  ∀ sp, (w.sessions sp).wf = true ∧ (w.sessions sp).closeFlag ≤ 1

/-- The test `item.Handler == handler && item.Key == key` of `RemoveCloseCallback` on an
entry. -/
def Entry.tagged (handler key : Val) (e : Entry) : Bool :=
  Val.eq e.1 handler && Val.eq e.2.1 key

/-- Following `Next` from `p` meets exactly the addresses `l`, in this order, and arrives
at `q`. -/
def IsPath (heap : List closeCallback) : Nat → List Nat → Nat → Prop
  | p, [], q => p = q
  | p, a :: l, q => p = a ∧ ∃ cb, cellAt heap a = some cb ∧ IsPath heap cb.Next l q

/-- Two session records differ at most in the registry of close callbacks. -/
def Session.sameCore (s t : Session) : Prop :=
  t.id = s.id ∧ t.codec = s.codec ∧ t.manager = s.manager ∧ t.sendChan = s.sendChan ∧
    t.closeFlag = s.closeFlag ∧ t.closeChan = s.closeChan

/-! ## Runs of the registry operations and of the goroutine of Close -/

/-- A call on the registry of a session: `AddCloseCallback(handler, key, callback)` or
`RemoveCloseCallback(handler, key)`. -/
inductive RegOp where
  | add (handler key : Val) (callback : Func)
  | remove (handler key : Val)
deriving DecidableEq, Repr

/-- Perform one call on the registry of session `sp`. -/
def RegOp.run (sp : Nat) (w : World) : RegOp → Option World
  | .add handler key callback => Session.AddCloseCallback w sp handler key callback
  | .remove handler key => Session.RemoveCloseCallback w sp handler key

/-- Perform the calls of a list on the registry of session `sp`, in order. -/
def RegOp.runAll (sp : Nat) : List RegOp → World → Option World
  | [], w => some w
  | op :: ops, w => (RegOp.run sp w op).bind (RegOp.runAll sp ops)

/-- The reference list of the specification, one step: an add appends the entry, a remove
erases only the first entry with equal handler and key, equal as `==` of Go has it. -/
def refStep (l : List Entry) : RegOp → List Entry
  | .add handler key callback => l ++ [(handler, key, callback)]
  | .remove handler key => l.eraseP (fun e => Val.eq e.1 handler && Val.eq e.2.1 key)

/-- The reference list of the specification after a list of calls. -/
def refList (l : List Entry) (ops : List RegOp) : List Entry := ops.foldl refStep l

/-- The log entry of the invocation of an entry of the registry of `sp`. -/
def callbackEvent (sp : Nat) (e : Entry) : Event := Event.callback sp e.1 e.2.1 e.2.2

/-- Invoke the entries of a list in order on behalf of session `sp`. -/
def runEntries (sp : Nat) : List Entry → World → Option World
  | [], w => some w
  | e :: es, w =>
    (callFunc w sp { Handler := e.1, Key := e.2.1, Func := e.2.2, Next := 0 }).bind
      (runEntries sp es)

/-- The log entries `Session.Close` writes when it closes session record `s`. -/
def Session.closeEvents (s : Session) (sp : Nat) : List Event :=
  match s.sendChan, s.codec.clearFn with
  | some _, some _ => [Event.clearSendChan sp, Event.codecClose sp]
  | _, _ => [Event.codecClose sp]

/-- The log entry of `delSession` at the end of the goroutine of `Close`, if the session
has a manager. -/
def Session.leaveEvents (s : Session) (sp : Nat) : List Event :=
  match s.manager with
  | some m => [Event.delSession m sp]
  | none => []

/-- The scheduler runs the goroutine that `Session.Close` started for `sp`: it must be
pending, and is no longer pending afterwards. -/
def World.runCloseTask (w : World) (sp : Nat) : Option World :=
  if Task.closeTask sp ∈ w.tasks then
    Session.closeTask { w with tasks := w.tasks.erase (Task.closeTask sp) } sp
  else none

/-! ## The registries and the channel maps of a state -/

/-- What the channel operations read and write: which sessions are closed, the registry of
every session as a list of entries, and the map of every channel. -/
structure View where
  closed : Nat → Bool
  cbs : Nat → List Entry
  chans : Nat → List (KEY × Nat)

/-- The view of a state. -/
def World.view (w : World) : View :=
  { closed := fun sp => Session.IsClosed w sp,
    cbs := fun sp => (w.sessions sp).callbacks,
    chans := fun c => (w.channels c).sessions }

/-- The effect of `RemoveCloseCallback` on the view. -/
def View.removeCb (v : View) (sp : Nat) (handler key : Val) : View :=
  if v.closed sp then v
  else { v with cbs := upd v.cbs sp ((v.cbs sp).eraseP (Entry.tagged handler key)) }

/-- The effect of `AddCloseCallback` on the view. -/
def View.addCb (v : View) (sp : Nat) (handler key : Val) (callback : Func) : View :=
  if v.closed sp then v
  else { v with cbs := upd v.cbs sp (v.cbs sp ++ [(handler, key, callback)]) }

/-- The effect of `Channel.remove` on the view. -/
def View.chanRemove (v : View) (c : Nat) (key : KEY) (session : Nat) : View :=
  let v1 := v.removeCb session (Val.channel c) key
  { v1 with chans := upd v1.chans c (keyDelete (v1.chans c) key) }

/-- The effect of `Channel.Remove` on the view. -/
def View.Remove (v : View) (c : Nat) (key : KEY) : View :=
  match keyGet (v.chans c) key with
  | some session => v.chanRemove c key session
  | none => v

/-- The effect of `Channel.Put` on the view. -/
def View.Put (v : View) (c : Nat) (key : KEY) (session : Nat) : View :=
  let v1 := v.Remove c key
  let v2 := v1.addCb session (Val.channel c) key (Func.channelRemove c key)
  { v2 with chans := upd v2.chans c (keySet (v2.chans c) key session) }

/-- The effect of the loops of `Channel.Close` and `Channel.FetchAndRemove` on the view. -/
def View.removeEntries (c : Nat) (es : List (KEY × Nat)) (v : View) : View :=
  es.foldl (fun acc e => acc.chanRemove c e.1 e.2) v

/-- The effect of the invocation of one entry on the view. -/
def View.callEntry (v : View) (e : Entry) : View :=
  match e.2.2 with
  | Func.channelRemove c key => v.Remove c key
  | Func.user _ => v

/-- The effect of the invocation of a list of entries on the view. -/
def View.runEntries (v : View) (es : List Entry) : View := es.foldl View.callEntry v

/-- The effect of `Session.Close` on the view. -/
def View.sessionClose (v : View) (sp : Nat) : View :=
  if (v.closed sp) then v else { v with closed := upd v.closed sp true }

/-- Two states agree outside the registries, the channel maps and the log, and the
records of the closed sessions are the same. -/
def World.Frame (w w1 : World) : Prop :=
  w1.managers = w.managers ∧ w1.nextSession = w.nextSession ∧
    w1.globalSessionId = w.globalSessionId ∧ w1.tasks = w.tasks ∧
    (∀ sp, Session.sameCore (w.sessions sp) (w1.sessions sp)) ∧
    (∀ sp, (w.sessions sp).closeFlag = 1 → w1.sessions sp = w.sessions sp)

/-- Replace the channel at address `c`. -/
def World.setChannel (w : World) (c : Nat) (ch : Channel) : World :=
  { w with channels := upd w.channels c ch }

/-- Every session that is not closed has exactly one close callback that is `==` to
(channel, key) when the channel holds it under the key, and none otherwise. -/
def View.oneCallback (v : View) : Prop :=
  ∀ c key sp, v.closed sp = false →
    (v.cbs sp).countP (Entry.tagged (Val.channel c) key) =
      if keyGet (v.chans c) key = some sp then 1 else 0

/-- Every closure `func() { channel.Remove(key) }` in a registry carries the tag
(channel, key): it was registered by `Channel.Put`. -/
def View.closuresTagged (v : View) : Prop :=
  ∀ sp e, e ∈ v.cbs sp → ∀ c key, e.2.2 = Func.channelRemove c key →
    e.1 = Val.channel c ∧ e.2.1 = key

/-- No channel map holds two entries with keys that are `==`. -/
def View.nodupKeys (v : View) : Prop :=
  ∀ c, (v.chans c).Pairwise (fun a b => Val.eq a.1 b.1 = false)

/-- The invariant of the registries and the channel maps. -/
def View.Inv (v : View) : Prop := v.oneCallback ∧ v.closuresTagged ∧ v.nodupKeys

/-! ## States reachable through the channel operations -/

/-- The goroutine of `Close` is pending only for sessions that are closed. -/
def World.pendingClosed (w : World) : Prop :=
  ∀ sp, Task.closeTask sp ∈ w.tasks → (w.sessions sp).closeFlag = 1

/-- The states reachable through `Channel.Put`, `Remove`, `FetchAndRemove` and `Close`,
with `Session.Close` and the goroutine it starts, from a state whose channels are empty
and whose registries hold no entry with a channel as handler. -/
inductive ChannelReach : World → Prop where
  | start (w : World) : World.WF w → World.pendingClosed w →
      (∀ c, (w.channels c).sessions = []) →
      (∀ sp e, e ∈ (w.sessions sp).callbacks →
        (∀ c, e.1 ≠ Val.channel c) ∧ ∀ c key, e.2.2 ≠ Func.channelRemove c key) →
      ChannelReach w
  | put {w w1 : World} (c : Nat) (key : KEY) (session : Nat) : ChannelReach w →
      Channel.Put w c key session = some w1 → ChannelReach w1
  | remove {w w1 : World} {b : Bool} (c : Nat) (key : KEY) : ChannelReach w →
      Channel.Remove w c key = some (w1, b) → ChannelReach w1
  | fetchAndRemove {w w1 : World} (c : Nat) : ChannelReach w →
      Channel.FetchAndRemove w c = some w1 → ChannelReach w1
  | close {w w1 : World} (c : Nat) : ChannelReach w →
      Channel.Close w c = some w1 → ChannelReach w1
  | sessionClose {w : World} (sp : Nat) : ChannelReach w → ChannelReach (Session.Close w sp).1
  | closeTask {w w1 : World} (sp : Nat) : ChannelReach w →
      World.runCloseTask w sp = some w1 → ChannelReach w1

/-- The invariant of the reachable states. -/
def World.Inv (w : World) : Prop := World.WF w ∧ w.view.Inv ∧ World.pendingClosed w

/-- A state with one session, at address 0, on which `Close` has been called; the
goroutine of `Close` is pending. -/
def closedSessionWorld : World := (Session.Close (NewSession World.init Codec.plain 0).1 0).1

/-- A state with two open sessions, at addresses 0 and 1. -/
def twoSessionWorld : World :=
  (NewSession (NewSession World.init Codec.plain 0).1 Codec.plain 0).1

/-- A state in which nothing has been put into a channel, registered or closed yet. -/
def World.Clean (w : World) : Prop :=
  World.WF w ∧ (∀ sp, Task.closeTask sp ∉ w.tasks) ∧ (∀ c, (w.channels c).sessions = []) ∧
    ∀ sp, (w.sessions sp).callbacks = []

/-- The registries are well formed and every session that is not closed has one close
callback per entry of a channel that holds it: the invariant of the reachable states. -/
def World.ChannelInv (w : World) : Prop := World.WF w ∧ w.view.Inv

/-- The state after `Put` of session 0 under the key 1 into channel 7 of
`twoSessionWorld`. -/
def onePutWorld : World :=
  (Channel.Put twoSessionWorld 7 (Val.data 1) 0).getD twoSessionWorld

/-- The state after `Put` of session 0 under a NaN key into channel 7 of
`twoSessionWorld`, twice. -/
def nanPutWorld : World :=
  ((Channel.Put twoSessionWorld 7 Val.nan 0).bind (fun w => Channel.Put w 7 Val.nan 0)).getD
    twoSessionWorld

/-! ## The reachable states and the invariant of the manager -/

/-- The number of sessions stored in the shards of manager `m`. -/
def Manager.total (w : World) (m : Nat) : Nat :=
  ((List.range sessionMapNum).map
    (fun i => ((w.managers m).sessionMaps i).sessions.length)).sum

/-- Session `p` has been stored in manager `m` by `putSession` and `delSession` has not
run for it since: read off the log. -/
def Manager.registered (w : World) (m p : Nat) : Prop :=
  Event.putSession m p ∈ w.trace ∧ Event.delSession m p ∉ w.trace

/-- Two states agree on what the manager invariant reads: the allocation and id counters,
the ids, the content of the shards, the wait counters, and the puts and deletes logged. -/
def World.Quiet (w w1 : World) : Prop :=
  w1.nextSession = w.nextSession ∧ w1.globalSessionId = w.globalSessionId ∧
  (∀ p, (w1.sessions p).id = (w.sessions p).id) ∧
  (∀ m i, ((w1.managers m).sessionMaps i).sessions = ((w.managers m).sessionMaps i).sessions) ∧
  (∀ m, (w1.managers m).disposeWait = (w.managers m).disposeWait) ∧
  (∀ m p, Event.putSession m p ∈ w1.trace ↔ Event.putSession m p ∈ w.trace) ∧
  (∀ m p, Event.delSession m p ∈ w1.trace ↔ Event.delSession m p ∈ w.trace)

/-- The invariant of the manager: ids are handed out in the order of allocation without
wrap-around of the 64-bit counter, every shard entry maps the id of an allocated session
to that session and sits in the shard `id mod 32`, no shard holds an id twice, the wait
counter is the number of stored sessions, and a session is stored exactly when the log
has its put and no delete. -/
def World.ManagerInv (w : World) : Prop :=
  w.globalSessionId = w.nextSession ∧ w.nextSession < 2 ^ 64 ∧
  (∀ p, p < w.nextSession → (w.sessions p).id = p + 1) ∧
  (∀ m i e, e ∈ ((w.managers m).sessionMaps i).sessions →
    e.2 < w.nextSession ∧ e.1 = e.2 + 1 ∧ i = e.1 % sessionMapNum) ∧
  (∀ m i, (((w.managers m).sessionMaps i).sessions.map Prod.fst).Nodup) ∧
  (∀ m, (w.managers m).disposeWait = (Manager.total w m : Int)) ∧
  (∀ m p, Manager.GetSession w m (p + 1) = some p ↔ Manager.registered w m p) ∧
  (∀ m p, (Event.putSession m p ∈ w.trace ∨ Event.delSession m p ∈ w.trace) →
    p < w.nextSession)

/-- The invariant of the goroutines of `Close`: registries are well formed, and a
goroutine is pending only for an allocated session that is closed. -/
def World.TaskInv (w : World) : Prop :=
  World.WF w ∧ ∀ sp, Task.closeTask sp ∈ w.tasks →
    (w.sessions sp).closeFlag = 1 ∧ sp < w.nextSession

/-- The states reachable from the start of the program through the operations of the
package: `NewSession`, `Manager.NewSession` (with `putSession`), `Manager.delSession`,
`Manager.Dispose`, `Session.Close` and the goroutine it starts, `Session.Send`, the two
registry operations and the four channel operations, for allocated sessions and as long
as the 64-bit id counter does not wrap around. -/
inductive Reach : World → Prop where
  | start : Reach World.init
  | newSession {w : World} (codec : Codec) (sendChanSize : Int) : Reach w →
      w.globalSessionId + 1 < 2 ^ 64 → Reach (NewSession w codec sendChanSize).1
  | managerNewSession {w : World} (m : Nat) (codec : Codec) (sendChanSize : Int) :
      Reach w → w.globalSessionId + 1 < 2 ^ 64 →
      Reach (Manager.NewSession w m codec sendChanSize).1
  | delSession {w : World} (m sp : Nat) : Reach w → sp < w.nextSession →
      Reach (Manager.delSession w m sp)
  | dispose {w : World} (m : Nat) : Reach w → Reach (Manager.Dispose w m)
  | sessionClose {w : World} (sp : Nat) : Reach w → sp < w.nextSession →
      Reach (Session.Close w sp).1
  | closeTask {w w1 : World} (sp : Nat) : Reach w →
      World.runCloseTask w sp = some w1 → Reach w1
  | send {w : World} (sp : Nat) (msg : Msg) : Reach w → sp < w.nextSession →
      Reach (Session.Send w sp msg).1
  | addCloseCallback {w w1 : World} (sp : Nat) (handler key : Val) (callback : Func) :
      Reach w → Session.AddCloseCallback w sp handler key callback = some w1 → Reach w1
  | removeCloseCallback {w w1 : World} (sp : Nat) (handler key : Val) :
      Reach w → Session.RemoveCloseCallback w sp handler key = some w1 → Reach w1
  | channelPut {w w1 : World} (c : Nat) (key : KEY) (session : Nat) : Reach w →
      Channel.Put w c key session = some w1 → Reach w1
  | channelRemove {w w1 : World} {b : Bool} (c : Nat) (key : KEY) : Reach w →
      Channel.Remove w c key = some (w1, b) → Reach w1
  | channelFetchAndRemove {w w1 : World} (c : Nat) : Reach w →
      Channel.FetchAndRemove w c = some w1 → Reach w1
  | channelClose {w w1 : World} (c : Nat) : Reach w →
      Channel.Close w c = some w1 → Reach w1

/-! ## The Go channels of a session -/

/-- Neither Go channel of a session that is not closed has been closed: the states in
which `close(session.closeChan)`, `close(session.sendChan)` and the send on
`session.sendChan` do not panic where `Session.Close` and `Session.Send` reach them. -/
def Session.openChans (s : Session) : Prop :=
  s.closeFlag = 0 → s.closeChan = false ∧ ∀ ch, s.sendChan = some ch → ch.closed = false

/-- Every session of the state has `Session.openChans`. -/
def World.OpenChans (w : World) : Prop := ∀ sp, Session.openChans (w.sessions sp)

/-! # Theorems -/

/-! ## Heaps -/

@[simp] theorem upd_same {α : Type} (f : Nat → α) (a : Nat) (v : α) : upd f a v a = v := by
  simp [upd]

theorem upd_of_ne {α : Type} (f : Nat → α) {a b : Nat} (v : α) (h : b ≠ a) :
    upd f a v b = f b := by
  simp [upd, h]

@[simp] theorem upd_upd {α : Type} (f : Nat → α) (a : Nat) (v v1 : α) :
    upd (upd f a v) a v1 = upd f a v1 := by
  funext x
  by_cases h : x = a <;> simp [upd, h]

@[simp] theorem upd_self {α : Type} (f : Nat → α) (a : Nat) : upd f a (f a) = f := by
  funext x
  by_cases h : x = a <;> simp [upd, h]

/-! ## Chains of cells -/

theorem cellAt_pos {heap : List closeCallback} {a : Nat} {cb : closeCallback}
    (h : cellAt heap a = some cb) : 1 ≤ a ∧ a ≤ heap.length ∧ heap[a - 1]? = some cb := by
  cases a with
  | zero => simp [cellAt] at h
  | succ a =>
    simp only [cellAt] at h
    have := (List.getElem?_eq_some_iff.mp h).1
    exact ⟨by omega, by omega, by simpa using h⟩

theorem IsChain.unique {heap : List closeCallback} : ∀ {l1 l2 : List Nat} {p : Nat},
    IsChain heap p l1 → IsChain heap p l2 → l1 = l2 := by
  intro l1
  induction l1 with
  | nil =>
    intro l2 p h1 h2
    cases l2 with
    | nil => rfl
    | cons b l2 =>
      simp only [IsChain] at h1 h2
      obtain ⟨hb, cb, hcb, _⟩ := h2
      subst h1
      subst hb
      simp [cellAt] at hcb
  | cons a l1 ih =>
    intro l2 p h1 h2
    cases l2 with
    | nil =>
      simp only [IsChain] at h1 h2
      obtain ⟨ha, cb, hcb, _⟩ := h1
      subst h2
      subst ha
      simp [cellAt] at hcb
    | cons b l2 =>
      simp only [IsChain] at h1 h2
      obtain ⟨ha, cb, hcb, hrest⟩ := h1
      obtain ⟨hb, cb2, hcb2, hrest2⟩ := h2
      subst ha
      subst hb
      rw [hcb] at hcb2
      cases hcb2
      rw [ih hrest hrest2]

theorem IsChain.suffix {heap : List closeCallback} : ∀ {l1 : List Nat} {p a : Nat} {l2 : List Nat},
    IsChain heap p (l1 ++ a :: l2) → IsChain heap a (a :: l2) := by
  intro l1
  induction l1 with
  | nil =>
    intro p a l2 h
    simp only [List.nil_append, IsChain] at h
    exact ⟨rfl, h.2⟩
  | cons b l1 ih =>
    intro p a l2 h
    simp only [List.cons_append, IsChain] at h
    obtain ⟨_, cb, _, hrest⟩ := h
    exact ih hrest

theorem IsChain.mem_cell {heap : List closeCallback} : ∀ {l : List Nat} {p a : Nat},
    IsChain heap p l → a ∈ l → ∃ cb, cellAt heap a = some cb := by
  intro l
  induction l with
  | nil => intro p a _ ha; simp at ha
  | cons b l ih =>
    intro p a h ha
    simp only [IsChain] at h
    obtain ⟨_, cb, hcb, hrest⟩ := h
    rcases List.mem_cons.mp ha with rfl | hmem
    · exact ⟨cb, hcb⟩
    · exact ih hrest hmem

theorem IsChain.nodup {heap : List closeCallback} : ∀ {l : List Nat} {p : Nat},
    IsChain heap p l → l.Nodup := by
  intro l
  induction l with
  | nil => intro p _; exact List.nodup_nil
  | cons a l ih =>
    intro p h
    have h0 := h
    simp only [IsChain] at h
    obtain ⟨hp, cb, hcb, hrest⟩ := h
    subst hp
    refine List.nodup_cons.mpr ⟨?_, ih hrest⟩
    intro hmem
    obtain ⟨l1, l2, hl⟩ := List.append_of_mem hmem
    rw [hl] at hrest
    have hsuf := IsChain.suffix hrest
    have heq := IsChain.unique hsuf h0
    have hlen := congrArg List.length heq
    rw [hl] at hlen
    simp at hlen
    omega

theorem IsChain.length_le {heap : List closeCallback} {l : List Nat} {p : Nat}
    (h : IsChain heap p l) : l.length ≤ heap.length := by
  have hsub : l ⊆ List.range' 1 heap.length := by
    intro a ha
    obtain ⟨cb, hcb⟩ := IsChain.mem_cell h ha
    have := cellAt_pos hcb
    simp only [List.mem_range'_1]
    omega
  have := (List.subperm_of_subset (IsChain.nodup h) hsub).length_le
  simpa using this

theorem isChain_of_chainFrom {heap : List closeCallback} : ∀ (fuel p : Nat) (l : List Nat),
    chainFrom heap fuel p = some l → IsChain heap p l := by
  intro fuel
  induction fuel with
  | zero =>
    intro p l h
    cases p with
    | zero => simp only [chainFrom] at h; cases h; rfl
    | succ a => simp [chainFrom] at h
  | succ fuel ih =>
    intro p l h
    cases p with
    | zero => simp only [chainFrom] at h; cases h; rfl
    | succ a =>
      simp only [chainFrom] at h
      cases hc : heap[a]? with
      | none => simp [hc] at h
      | some cb =>
        simp only [hc, Option.map_eq_some'] at h
        obtain ⟨l1, hl1, rfl⟩ := h
        exact ⟨rfl, cb, hc, ih _ _ hl1⟩

theorem chainFrom_of_isChain {heap : List closeCallback} : ∀ (fuel : Nat) (l : List Nat) (p : Nat),
    IsChain heap p l → l.length ≤ fuel → chainFrom heap fuel p = some l := by
  intro fuel
  induction fuel with
  | zero =>
    intro l p h hlen
    cases l with
    | nil => simp only [IsChain] at h; subst h; rfl
    | cons a l => simp at hlen
  | succ fuel ih =>
    intro l p h hlen
    cases l with
    | nil => simp only [IsChain] at h; subst h; rfl
    | cons a l =>
      simp only [IsChain] at h
      obtain ⟨hp, cb, hcb, hrest⟩ := h
      subst hp
      cases p with
      | zero => simp [cellAt] at hcb
      | succ a =>
        simp only [cellAt] at hcb
        simp only [chainFrom, hcb]
        rw [ih l cb.Next hrest (by simpa using hlen)]
        rfl

theorem Session.chain_iff (s : Session) (l : List Nat) :
    s.chain = some l ↔ IsChain s.cbHeap s.firstCloseCallback l := by
  constructor
  · exact isChain_of_chainFrom _ _ _
  · intro h
    exact chainFrom_of_isChain _ _ _ h (Nat.le_succ_of_le (IsChain.length_le h))

theorem Session.wf_iff (s : Session) :
    s.wf = true ↔ ∃ l, IsChain s.cbHeap s.firstCloseCallback l ∧
      (l = [] ∨ l.getLast? = some s.lastCloseCallback) := by
  unfold Session.wf
  constructor
  · intro h
    cases hc : s.chain with
    | none => simp [hc] at h
    | some l =>
      simp only [hc, Bool.or_eq_true, List.isEmpty_iff, beq_iff_eq] at h
      exact ⟨l, (Session.chain_iff s l).mp hc, h⟩
  · rintro ⟨l, hl, hlast⟩
    rw [(Session.chain_iff s l).mpr hl]
    simpa using hlast

theorem Session.callbacks_of_isChain (s : Session) (l : List Nat)
    (h : IsChain s.cbHeap s.firstCloseCallback l) :
    s.callbacks = l.filterMap (entryAt s.cbHeap) := by
  unfold Session.callbacks
  rw [(Session.chain_iff s l).mpr h]

/-! ## Paths through the cells -/

theorem isChain_iff_isPath {heap : List closeCallback} : ∀ {l : List Nat} {p : Nat},
    IsChain heap p l ↔ IsPath heap p l 0 := by
  intro l
  induction l with
  | nil => intro p; simp [IsChain, IsPath]
  | cons a l ih =>
    intro p
    simp only [IsChain, IsPath]
    constructor
    · rintro ⟨hp, cb, hcb, h⟩
      exact ⟨hp, cb, hcb, ih.mp h⟩
    · rintro ⟨hp, cb, hcb, h⟩
      exact ⟨hp, cb, hcb, ih.mpr h⟩

theorem IsPath.append {heap : List closeCallback} : ∀ {l1 : List Nat} {p q : Nat} {l2 : List Nat},
    IsPath heap p l1 q → IsChain heap q l2 → IsChain heap p (l1 ++ l2) := by
  intro l1
  induction l1 with
  | nil =>
    intro p q l2 h1 h2
    simp only [IsPath] at h1
    subst h1
    simpa using h2
  | cons a l1 ih =>
    intro p q l2 h1 h2
    simp only [IsPath] at h1
    obtain ⟨hp, cb, hcb, h⟩ := h1
    exact ⟨hp, cb, hcb, ih h h2⟩

theorem IsChain.split_chain {heap : List closeCallback} : ∀ {l1 : List Nat} {p : Nat} {l2 : List Nat},
    IsChain heap p (l1 ++ l2) → ∃ q, IsPath heap p l1 q ∧ IsChain heap q l2 := by
  intro l1
  induction l1 with
  | nil =>
    intro p l2 h
    exact ⟨p, rfl, by simpa using h⟩
  | cons a l1 ih =>
    intro p l2 h
    simp only [List.cons_append, IsChain] at h
    obtain ⟨hp, cb, hcb, hrest⟩ := h
    obtain ⟨q, hq1, hq2⟩ := ih hrest
    exact ⟨q, ⟨hp, cb, hcb, hq1⟩, hq2⟩

theorem IsPath.snoc {heap : List closeCallback} : ∀ {l : List Nat} {p a : Nat} {cb : closeCallback},
    IsPath heap p l a → cellAt heap a = some cb → IsPath heap p (l ++ [a]) cb.Next := by
  intro l
  induction l with
  | nil =>
    intro p a cb h hcb
    simp only [IsPath] at h
    subst h
    exact ⟨rfl, cb, hcb, rfl⟩
  | cons b l ih =>
    intro p a cb h hcb
    simp only [IsPath] at h
    obtain ⟨hp, cb1, hcb1, hrest⟩ := h
    exact ⟨hp, cb1, hcb1, ih hrest hcb⟩

theorem IsPath.frame_path {heap heap1 : List closeCallback} : ∀ {l : List Nat} {p q : Nat},
    IsPath heap p l q → (∀ a ∈ l, cellAt heap1 a = cellAt heap a) → IsPath heap1 p l q := by
  intro l
  induction l with
  | nil => intro p q h _; exact h
  | cons a l ih =>
    intro p q h hagree
    simp only [IsPath] at h
    obtain ⟨hp, cb, hcb, hrest⟩ := h
    refine ⟨hp, cb, ?_, ih hrest (fun b hb => hagree b (List.mem_cons_of_mem _ hb))⟩
    rw [hagree a (List.mem_cons_self _ _)]
    exact hcb

theorem IsChain.frame_chain {heap heap1 : List closeCallback} {l : List Nat} {p : Nat}
    (h : IsChain heap p l) (hagree : ∀ a ∈ l, cellAt heap1 a = cellAt heap a) :
    IsChain heap1 p l :=
  isChain_iff_isPath.mpr (IsPath.frame_path (isChain_iff_isPath.mp h) hagree)

theorem IsChain.of_nil_start {heap : List closeCallback} {l : List Nat}
    (h : IsChain heap 0 l) : l = [] :=
  IsChain.unique h (show IsChain heap 0 [] from rfl)

theorem IsChain.ne_nil {heap : List closeCallback} {l : List Nat} {p : Nat}
    (h : IsChain heap p l) (hp : p ≠ 0) : l ≠ [] := by
  rintro rfl
  exact hp h

theorem cellAt_append_new (heap : List closeCallback) (cb : closeCallback) :
    cellAt (heap ++ [cb]) (heap.length + 1) = some cb := by
  simp [cellAt]

theorem cellAt_append_old (heap : List closeCallback) (cb : closeCallback) (a : Nat)
    (h : a ≤ heap.length) : cellAt (heap ++ [cb]) a = cellAt heap a := by
  cases a with
  | zero => rfl
  | succ a =>
    simp only [cellAt]
    exact List.getElem?_append_left (by omega)

theorem cellAt_set_same (heap : List closeCallback) (a : Nat) (cb : closeCallback)
    (h : a < heap.length) : cellAt (heap.set a cb) (a + 1) = some cb := by
  simp [cellAt, h]

theorem cellAt_set_other (heap : List closeCallback) (a b : Nat) (cb : closeCallback)
    (h : b ≠ a + 1) : cellAt (heap.set a cb) b = cellAt heap b := by
  cases b with
  | zero => rfl
  | succ b =>
    simp only [cellAt]
    exact List.getElem?_set_ne (by omega)

theorem setNext_spec (heap : List closeCallback) (p next : Nat) (cb : closeCallback)
    (h : cellAt heap p = some cb) :
    ∃ heap1, setNext heap p next = some heap1 ∧ heap1.length = heap.length ∧
      cellAt heap1 p = some { cb with Next := next } ∧
      ∀ b, b ≠ p → cellAt heap1 b = cellAt heap b := by
  cases p with
  | zero => simp [cellAt] at h
  | succ a =>
    simp only [cellAt] at h
    have hlt : a < heap.length := (List.getElem?_eq_some_iff.mp h).1
    refine ⟨heap.set a { cb with Next := next }, by simp [setNext, h], by simp,
      cellAt_set_same heap a _ hlt, fun b hb => cellAt_set_other heap a b _ hb⟩

/-! ## AddCloseCallback appends to the registry -/

theorem filterMap_entryAt_congr {heap heap1 : List closeCallback} {l : List Nat}
    (h : ∀ a ∈ l, cellAt heap1 a = cellAt heap a) :
    l.filterMap (entryAt heap1) = l.filterMap (entryAt heap) := by
  induction l with
  | nil => rfl
  | cons a l ih =>
    have ha : entryAt heap1 a = entryAt heap a := by
      unfold entryAt
      rw [h a (List.mem_cons_self _ _)]
    simp only [List.filterMap_cons, ha]
    rw [ih (fun b hb => h b (List.mem_cons_of_mem _ hb))]

theorem Session.addCell_spec (s : Session) (handler key : Val) (callback : Func)
    (hwf : s.wf = true) :
    ∃ t, Session.addCell s handler key callback = some t ∧ t.wf = true ∧
      t.callbacks = s.callbacks ++ [(handler, key, callback)] ∧ Session.sameCore s t := by
  obtain ⟨l, hl, hlast⟩ := (Session.wf_iff s).mp hwf
  have hcbs := Session.callbacks_of_isChain s l hl
  by_cases hfirst : s.firstCloseCallback = 0
  · -- the registry is empty
    rw [hfirst] at hl
    have hnil := IsChain.of_nil_start hl
    subst hnil
    refine ⟨_, by simp only [Session.addCell, hfirst, if_true]; rfl, ?_, ?_, ?_⟩
    · rw [Session.wf_iff]
      refine ⟨[s.cbHeap.length + 1], ⟨rfl, _, cellAt_append_new _ _, rfl⟩, Or.inr rfl⟩
    · have hc : IsChain (s.cbHeap ++ [newItem handler key callback]) (s.cbHeap.length + 1)
          [s.cbHeap.length + 1] :=
        ⟨rfl, _, cellAt_append_new _ _, rfl⟩
      rw [Session.callbacks_of_isChain _ _ hc, hcbs]
      simp [entryAt, cellAt, newItem]
    · exact ⟨rfl, rfl, rfl, rfl, rfl, rfl⟩
  · -- the registry has a last cell
    have hne : l ≠ [] := IsChain.ne_nil hl hfirst
    have hlast1 : l.getLast? = some s.lastCloseCallback := by
      rcases hlast with h | h
      · exact absurd h hne
      · exact h
    obtain ⟨l1, q, rfl⟩ : ∃ l1 q, l = l1 ++ [q] := by
      rcases List.eq_nil_or_concat l with h | ⟨l1, q, h⟩
      · exact absurd h hne
      · exact ⟨l1, q, by simpa using h⟩
    have hq : q = s.lastCloseCallback := by simpa using hlast1
    obtain ⟨q1, hpath, hend⟩ := IsChain.split_chain hl
    simp only [IsChain] at hend
    obtain ⟨hq1, cb, hcb, hnext⟩ := hend
    subst hq1
    have hnodup := IsChain.nodup hl
    have hqnot : q1 ∉ l1 := by
      intro hmem
      have := List.nodup_append.mp hnodup
      exact this.2.2 hmem (List.mem_singleton_self _) 
    obtain ⟨heap1, hset, hlen1, hcell1, hother1⟩ :=
      setNext_spec s.cbHeap q1 (s.cbHeap.length + 1) cb hcb
    have hbound : ∀ a ∈ l1 ++ [q1], a ≤ s.cbHeap.length := by
      intro a ha
      obtain ⟨c, hc⟩ := IsChain.mem_cell hl ha
      exact (cellAt_pos hc).2.1
    have hagree : ∀ a ∈ l1, cellAt (heap1 ++ [newItem handler key callback]) a = cellAt s.cbHeap a := by
      intro a ha
      have hle := hbound a (List.mem_append_left _ ha)
      rw [cellAt_append_old _ _ _ (by omega), hother1 a (fun h => hqnot (h ▸ ha))]
    have hcellq : cellAt (heap1 ++ [newItem handler key callback]) q1 = some { cb with Next := s.cbHeap.length + 1 } := by
      have hle := hbound q1 (List.mem_append_right _ (List.mem_singleton_self _))
      rw [cellAt_append_old _ _ _ (by omega), hcell1]
    have hcellnew : cellAt (heap1 ++ [newItem handler key callback]) (s.cbHeap.length + 1) = some (newItem handler key callback) := by
      rw [← hlen1]; exact cellAt_append_new _ _
    have hchain : IsChain (heap1 ++ [newItem handler key callback]) s.firstCloseCallback
        (l1 ++ [q1, s.cbHeap.length + 1]) :=
      IsPath.append (IsPath.frame_path hpath hagree)
        ⟨rfl, _, hcellq, ⟨rfl, _, hcellnew, rfl⟩⟩
    refine ⟨{ s with cbHeap := heap1 ++ [newItem handler key callback], lastCloseCallback := s.cbHeap.length + 1 },
      ?_, ?_, ?_, ⟨rfl, rfl, rfl, rfl, rfl, rfl⟩⟩
    · simp only [Session.addCell, hfirst, if_false, ← hq, hset]
    · rw [Session.wf_iff]
      exact ⟨_, hchain, Or.inr (by simp)⟩
    · rw [Session.callbacks_of_isChain _ _ hchain, hcbs]
      simp only [List.filterMap_append, List.filterMap_cons, List.filterMap_nil]
      rw [filterMap_entryAt_congr hagree]
      have e1 : entryAt (heap1 ++ [newItem handler key callback]) q1 =
          some (cb.Handler, cb.Key, cb.Func) := by
        unfold entryAt; rw [hcellq]; rfl
      have e2 : entryAt (heap1 ++ [newItem handler key callback]) (s.cbHeap.length + 1) =
          some (handler, key, callback) := by
        unfold entryAt; rw [hcellnew]; rfl
      have e3 : entryAt s.cbHeap q1 = some (cb.Handler, cb.Key, cb.Func) := by
        unfold entryAt; rw [hcb]; rfl
      rw [e1, e2, e3]
      simp

/-! ## RemoveCloseCallback erases the first entry with the tag -/

theorem IsPath.split_path {heap : List closeCallback} : ∀ {l1 : List Nat} {p q : Nat} {l2 : List Nat},
    IsPath heap p (l1 ++ l2) q → ∃ m, IsPath heap p l1 m ∧ IsPath heap m l2 q := by
  intro l1
  induction l1 with
  | nil =>
    intro p q l2 h
    exact ⟨p, rfl, by simpa using h⟩
  | cons a l1 ih =>
    intro p q l2 h
    simp only [List.cons_append, IsPath] at h
    obtain ⟨hp, cb, hcb, hrest⟩ := h
    obtain ⟨m, hm1, hm2⟩ := ih hrest
    exact ⟨m, ⟨hp, cb, hcb, hm1⟩, hm2⟩

theorem getLast?_after_unlink {pre suf : List Nat} {a last prev : Nat}
    (hnodup : (pre ++ a :: suf).Nodup)
    (hlast : (pre ++ a :: suf).getLast? = some last)
    (hprev : pre ≠ [] → pre.getLast? = some prev) :
    pre ++ suf = [] ∨
      (pre ++ suf).getLast? = some (if last = a then prev else last) := by
  rw [List.getLast?_append_cons] at hlast
  have hnot : a ∉ suf := by
    have h1 := (List.nodup_append.mp hnodup).2.1
    exact (List.nodup_cons.mp h1).1
  by_cases hs : suf = []
  · subst hs
    have hla : last = a := by simpa using hlast.symm
    by_cases hp : pre = []
    · left; simp [hp]
    · right; simp [hla, hprev hp]
  · right
    obtain ⟨b, suf1, rfl⟩ := List.exists_cons_of_ne_nil hs
    rw [List.getLast?_cons_cons] at hlast
    have hmem := List.mem_of_getLast?_eq_some hlast
    have hne : last ≠ a := fun h => hnot (h ▸ hmem)
    rw [List.getLast?_append_of_ne_nil _ hs, if_neg hne, hlast]

theorem Session.removeLoop_nil (s : Session) (handler key : Val) (fuel prev : Nat) :
    Session.removeLoop s handler key fuel prev 0 = some s := by
  cases fuel <;> rfl

theorem entryAt_tagged {heap : List closeCallback} {a : Nat} {cb : closeCallback}
    (hcb : cellAt heap a = some cb) (handler key : Val) :
    entryAt heap a = some (cb.Handler, cb.Key, cb.Func) ∧
    (Entry.tagged handler key (cb.Handler, cb.Key, cb.Func) = true ↔
      (Val.eq cb.Handler handler && Val.eq cb.Key key) = true) := by
  refine ⟨by unfold entryAt; rw [hcb]; rfl, ?_⟩
  exact Iff.rfl

theorem Session.removeLoop_spec_aux (s : Session) (handler key : Val) (l : List Nat)
    (hl : IsChain s.cbHeap s.firstCloseCallback l)
    (hlast : l = [] ∨ l.getLast? = some s.lastCloseCallback) :
    ∀ (suf pre : List Nat) (prev cur fuel : Nat),
      l = pre ++ suf →
      IsPath s.cbHeap s.firstCloseCallback pre cur →
      IsChain s.cbHeap cur suf →
      (pre ≠ [] → pre.getLast? = some prev) →
      (∀ e ∈ pre.filterMap (entryAt s.cbHeap), ¬ Entry.tagged handler key e = true) →
      suf.length ≤ fuel →
      ∃ t, Session.removeLoop s handler key fuel prev cur = some t ∧ t.wf = true ∧
        t.callbacks = (l.filterMap (entryAt s.cbHeap)).eraseP (Entry.tagged handler key) ∧
        Session.sameCore s t := by
  intro suf
  induction suf with
  | nil =>
    intro pre prev cur fuel hsplit _ hcur _ hnone _
    simp only [IsChain] at hcur
    subst hcur
    simp only [List.append_nil] at hsplit
    subst hsplit
    refine ⟨s, Session.removeLoop_nil s handler key fuel prev, ?_, ?_,
      ⟨rfl, rfl, rfl, rfl, rfl, rfl⟩⟩
    · exact (Session.wf_iff s).mpr ⟨l, hl, hlast⟩
    · rw [Session.callbacks_of_isChain s l hl, List.eraseP_of_forall_not hnone]
  | cons a suf ih =>
    intro pre prev cur fuel hsplit hpath hcur hprev hnone hfuel
    have hnodup : (pre ++ a :: suf).Nodup := hsplit ▸ IsChain.nodup hl
    simp only [IsChain] at hcur
    obtain ⟨hcura, cb, hcb, hrest⟩ := hcur
    subst hcura
    obtain ⟨fuel1, rfl⟩ : ∃ f, fuel = f + 1 := ⟨fuel - 1, by simp at hfuel; omega⟩
    obtain ⟨a1, rfl⟩ : ∃ x, cur = x + 1 := ⟨cur - 1, by have := (cellAt_pos hcb).1; omega⟩
    have hcb1 : s.cbHeap[a1]? = some cb := hcb
    obtain ⟨hentry, htag⟩ := entryAt_tagged hcb handler key
    by_cases hmatch : (Val.eq cb.Handler handler && Val.eq cb.Key key) = true
    · -- the cell is unlinked
      have hlast1 : l.getLast? = some s.lastCloseCallback := by
        rcases hlast with h | h
        · rw [hsplit] at h; simp at h
        · exact h
      have hnewlast := getLast?_after_unlink hnodup (hsplit ▸ hlast1) hprev
      have herase : (l.filterMap (entryAt s.cbHeap)).eraseP (Entry.tagged handler key) =
          (pre ++ suf).filterMap (entryAt s.cbHeap) := by
        rw [hsplit, List.filterMap_append, List.filterMap_cons, hentry,
          List.eraseP_append_right _ hnone, List.eraseP_cons_of_pos (htag.mpr hmatch),
          List.filterMap_append]
      by_cases hfirst : s.firstCloseCallback = a1 + 1
      · -- it is the first cell
        have hpre : pre = [] := by
          cases pre with
          | nil => rfl
          | cons b pre1 =>
            exfalso
            simp only [IsPath] at hpath
            have hb : b = a1 + 1 := by rw [← hpath.1, hfirst]
            exact (List.nodup_append.mp hnodup).2.2 (List.mem_cons_self b pre1)
              (hb ▸ List.mem_cons_self _ _)
        subst hpre
        refine ⟨{ s with firstCloseCallback := cb.Next,
                         lastCloseCallback :=
                           if s.lastCloseCallback = a1 + 1 then prev else s.lastCloseCallback },
          ?_, ?_, ?_, ⟨rfl, rfl, rfl, rfl, rfl, rfl⟩⟩
        · simp only [Session.removeLoop, hcb1, hmatch, and_self, if_true, hfirst, Option.map_some']
          split <;> rfl
        · exact (Session.wf_iff _).mpr ⟨suf, hrest, by simpa using hnewlast⟩
        · rw [Session.callbacks_of_isChain _ suf hrest, herase]
          rfl
      · -- it has a predecessor
        have hpre : pre ≠ [] := by
          rintro rfl
          exact hfirst hpath
        obtain ⟨pre1, q, rfl⟩ : ∃ l1 q, pre = l1 ++ [q] := by
          rcases List.eq_nil_or_concat pre with h | ⟨l1, q, h⟩
          · exact absurd h hpre
          · exact ⟨l1, q, by simpa using h⟩
        have hq : q = prev := by simpa using hprev hpre
        subst hq
        obtain ⟨m, hp1, hp2⟩ := IsPath.split_path hpath
        simp only [IsPath] at hp2
        obtain ⟨hm, cbq, hcbq, _⟩ := hp2
        subst hm
        obtain ⟨heap1, hset, _, hcell1, hother1⟩ := setNext_spec s.cbHeap m cb.Next cbq hcbq
        have hnd := List.nodup_append.mp hnodup
        have hnd1 := List.nodup_append.mp hnd.1
        have hm1 : m ∉ pre1 := fun h => hnd1.2.2 h (List.mem_singleton_self _)
        have hm2 : m ∉ suf := fun h =>
          hnd.2.2 (List.mem_append_right _ (List.mem_singleton_self _))
            (List.mem_cons_of_mem _ h)
        have hchain : IsChain heap1 s.firstCloseCallback (pre1 ++ [m] ++ suf) := by
          rw [List.append_assoc]
          refine IsPath.append (IsPath.frame_path hp1 (fun x hx => hother1 x (fun h => hm1 (h ▸ hx)))) ?_
          exact ⟨rfl, _, hcell1, IsChain.frame_chain hrest (fun x hx => hother1 x (fun h => hm2 (h ▸ hx)))⟩
        have hentries : (pre1 ++ [m] ++ suf).filterMap (entryAt heap1) =
            (pre1 ++ [m] ++ suf).filterMap (entryAt s.cbHeap) := by
          apply List.filterMap_congr
          intro x _
          by_cases hx : x = m
          · subst hx
            unfold entryAt
            rw [hcell1, hcbq]
            rfl
          · unfold entryAt
            rw [hother1 x hx]
        refine ⟨{ s with cbHeap := heap1,
                         lastCloseCallback :=
                           if s.lastCloseCallback = a1 + 1 then m else s.lastCloseCallback },
          ?_, ?_, ?_, ⟨rfl, rfl, rfl, rfl, rfl, rfl⟩⟩
        · simp only [Session.removeLoop, hcb1, hmatch, and_self, if_true, hfirst, if_false, hset,
            Option.map_some']
          split <;> rfl
        · exact (Session.wf_iff _).mpr ⟨_, hchain, hnewlast⟩
        · rw [Session.callbacks_of_isChain _ _ hchain, herase]
          exact hentries
    · -- the loop goes on
      have hstep : Session.removeLoop s handler key (fuel1 + 1) prev (a1 + 1) =
          Session.removeLoop s handler key fuel1 (a1 + 1) cb.Next := by
        simp only [Session.removeLoop, hcb1, hmatch, Bool.false_eq_true, if_false]
      rw [hstep]
      apply ih (pre ++ [a1 + 1]) (a1 + 1) cb.Next fuel1
      · rw [hsplit]; simp
      · exact IsPath.snoc hpath hcb
      · exact hrest
      · intro _; simp
      · intro e he
        rw [List.filterMap_append] at he
        rcases List.mem_append.mp he with h | h
        · exact hnone e h
        · simp only [List.filterMap_cons, hentry, List.filterMap_nil, List.mem_singleton] at h
          subst h
          exact fun ht => hmatch (htag.mp ht)
      · simpa using hfuel

theorem Session.removeLoop_spec (s : Session) (handler key : Val) (hwf : s.wf = true) :
    ∃ t, Session.removeLoop s handler key (s.cbHeap.length + 1) 0 s.firstCloseCallback = some t ∧
      t.wf = true ∧ t.callbacks = s.callbacks.eraseP (Entry.tagged handler key) ∧
      Session.sameCore s t := by
  obtain ⟨l, hl, hlast⟩ := (Session.wf_iff s).mp hwf
  rw [Session.callbacks_of_isChain s l hl]
  exact Session.removeLoop_spec_aux s handler key l hl hlast l [] 0 s.firstCloseCallback
    (s.cbHeap.length + 1) rfl rfl hl (fun h => absurd rfl h) (by simp)
    (Nat.le_succ_of_le (IsChain.length_le hl))

/-! ## The registry operations on the state -/

theorem Session.callbacks_congr {s t : Session} (h1 : t.cbHeap = s.cbHeap)
    (h2 : t.firstCloseCallback = s.firstCloseCallback) : t.callbacks = s.callbacks := by
  unfold Session.callbacks Session.chain
  rw [h1, h2]

theorem Session.wf_congr {s t : Session} (h1 : t.cbHeap = s.cbHeap)
    (h2 : t.firstCloseCallback = s.firstCloseCallback)
    (h3 : t.lastCloseCallback = s.lastCloseCallback) : t.wf = s.wf := by
  unfold Session.wf Session.chain
  rw [h1, h2, h3]

theorem Session.sameCore_refl (s : Session) : Session.sameCore s s :=
  ⟨rfl, rfl, rfl, rfl, rfl, rfl⟩

theorem Session.sameCore_trans {s t u : Session} (h1 : Session.sameCore s t)
    (h2 : Session.sameCore t u) : Session.sameCore s u := by
  unfold Session.sameCore at *
  refine ⟨h2.1.trans h1.1, h2.2.1.trans h1.2.1, h2.2.2.1.trans h1.2.2.1,
    h2.2.2.2.1.trans h1.2.2.2.1, ?_, ?_⟩
  · exact h2.2.2.2.2.1.trans h1.2.2.2.2.1
  · exact h2.2.2.2.2.2.trans h1.2.2.2.2.2

theorem World.setSession_self (w : World) (sp : Nat) : w.setSession sp (w.sessions sp) = w := by
  simp [World.setSession]

theorem World.WF_setSession {w : World} (hwf : World.WF w) (sp : Nat) {t : Session}
    (ht : t.wf = true) (hcore : Session.sameCore (w.sessions sp) t) :
    World.WF (w.setSession sp t) := by
  intro x
  by_cases hx : x = sp
  · subst hx
    have := (hwf x).2
    simp only [World.setSession, upd_same]
    exact ⟨ht, by rw [hcore.2.2.2.2.1]; exact this⟩
  · simpa [World.setSession, upd_of_ne _ _ hx] using hwf x

/-- What `AddCloseCallback` does to the state: the session record is replaced by one that
differs only in the registry, which gains the entry at its end unless the session is
closed. -/
theorem Session.AddCloseCallback_spec (w : World) (sp : Nat) (handler key : Val)
    (callback : Func) (hwf : (w.sessions sp).wf = true) :
    ∃ t, Session.AddCloseCallback w sp handler key callback = some (w.setSession sp t) ∧
      t.wf = true ∧ Session.sameCore (w.sessions sp) t ∧
      t.callbacks = (if (w.sessions sp).closeFlag = 1 then (w.sessions sp).callbacks
        else (w.sessions sp).callbacks ++ [(handler, key, callback)]) ∧
      ((w.sessions sp).closeFlag = 1 → t = w.sessions sp) := by
  by_cases hc : (w.sessions sp).closeFlag = 1
  · refine ⟨w.sessions sp, ?_, hwf, Session.sameCore_refl _, by simp [hc], fun _ => rfl⟩
    simp [Session.AddCloseCallback, Session.IsClosed, hc, World.setSession_self]
  · obtain ⟨t, ht, htwf, hcbs, hcore⟩ := Session.addCell_spec (w.sessions sp) handler key callback hwf
    refine ⟨t, ?_, htwf, hcore, by simp [hc, hcbs], fun h => absurd h hc⟩
    simp [Session.AddCloseCallback, Session.IsClosed, hc, ht]

/-- What `RemoveCloseCallback` does to the state: the session record is replaced by one
that differs only in the registry, which loses the first entry with the handler and the
key unless the session is closed. -/
theorem Session.RemoveCloseCallback_spec (w : World) (sp : Nat) (handler key : Val)
    (hwf : (w.sessions sp).wf = true) :
    ∃ t, Session.RemoveCloseCallback w sp handler key = some (w.setSession sp t) ∧
      t.wf = true ∧ Session.sameCore (w.sessions sp) t ∧
      t.callbacks = (if (w.sessions sp).closeFlag = 1 then (w.sessions sp).callbacks
        else (w.sessions sp).callbacks.eraseP (Entry.tagged handler key)) ∧
      ((w.sessions sp).closeFlag = 1 → t = w.sessions sp) := by
  by_cases hc : (w.sessions sp).closeFlag = 1
  · refine ⟨w.sessions sp, ?_, hwf, Session.sameCore_refl _, by simp [hc], fun _ => rfl⟩
    simp [Session.RemoveCloseCallback, Session.IsClosed, hc, World.setSession_self]
  · obtain ⟨t, ht, htwf, hcbs, hcore⟩ := Session.removeLoop_spec (w.sessions sp) handler key hwf
    refine ⟨t, ?_, htwf, hcore, by simp [hc, hcbs], fun h => absurd h hc⟩
    simp [Session.RemoveCloseCallback, Session.IsClosed, hc, ht]

/-! ## The operations on the view -/

theorem World.Frame_refl (w : World) : World.Frame w w :=
  ⟨rfl, rfl, rfl, rfl, fun _ => Session.sameCore_refl _, fun _ _ => rfl⟩

theorem World.Frame_trans {w w1 w2 : World} (h1 : World.Frame w w1) (h2 : World.Frame w1 w2) :
    World.Frame w w2 := by
  obtain ⟨m1, n1, g1, t1, core1, frozen1⟩ := h1
  obtain ⟨m2, n2, g2, t2, core2, frozen2⟩ := h2
  refine ⟨m2.trans m1, n2.trans n1, g2.trans g1, t2.trans t1,
    fun sp => Session.sameCore_trans (core1 sp) (core2 sp), fun sp hc => ?_⟩
  have h := frozen1 sp hc
  rw [frozen2 sp (by rw [h]; exact hc), h]

theorem World.Frame_setSession (w : World) (sp : Nat) {t : Session}
    (hcore : Session.sameCore (w.sessions sp) t)
    (hfrozen : (w.sessions sp).closeFlag = 1 → t = w.sessions sp) :
    World.Frame w (w.setSession sp t) := by
  refine ⟨rfl, rfl, rfl, rfl, fun x => ?_, fun x hc => ?_⟩
  · by_cases hx : x = sp
    · subst hx; simpa [World.setSession] using hcore
    · simp only [World.setSession, upd_of_ne _ _ hx]; exact Session.sameCore_refl _
  · by_cases hx : x = sp
    · subst hx; simpa [World.setSession] using hfrozen hc
    · simp only [World.setSession, upd_of_ne _ _ hx]

theorem World.view_setSession (w : World) (sp : Nat) {t : Session}
    (hcore : Session.sameCore (w.sessions sp) t) :
    (w.setSession sp t).view = { w.view with cbs := upd w.view.cbs sp t.callbacks } := by
  have hflag : t.closeFlag = (w.sessions sp).closeFlag := hcore.2.2.2.2.1
  simp only [World.view, World.setSession, Session.IsClosed, View.mk.injEq, and_true]
  constructor
  · funext x
    by_cases hx : x = sp
    · subst hx; simp [hflag]
    · simp [upd_of_ne _ _ hx]
  · funext x
    by_cases hx : x = sp
    · subst hx; simp
    · simp [upd_of_ne _ _ hx]

theorem View.upd_cbs_self (v : View) (sp : Nat) : { v with cbs := upd v.cbs sp (v.cbs sp) } = v := by
  simp

theorem Session.RemoveCloseCallback_view (w : World) (sp : Nat) (handler key : Val)
    (hwf : World.WF w) :
    ∃ w1, Session.RemoveCloseCallback w sp handler key = some w1 ∧ World.WF w1 ∧
      w1.view = w.view.removeCb sp handler key ∧ World.Frame w w1 ∧ w1.trace = w.trace ∧
      w1.channels = w.channels := by
  obtain ⟨t, ht, htwf, hcore, hcbs, hfrozen⟩ :=
    Session.RemoveCloseCallback_spec w sp handler key (hwf sp).1
  refine ⟨_, ht, World.WF_setSession hwf sp htwf hcore, ?_,
    World.Frame_setSession w sp hcore hfrozen, rfl, rfl⟩
  rw [World.view_setSession w sp hcore, hcbs]
  unfold View.removeCb
  by_cases hc : (w.sessions sp).closeFlag = 1
  · have : w.view.closed sp = true := by simp [World.view, Session.IsClosed, hc]
    simp only [hc, if_true, this]
    exact View.upd_cbs_self _ _
  · have : w.view.closed sp = false := by simp [World.view, Session.IsClosed, hc]
    simp only [hc, if_false, this]
    rfl

theorem Session.AddCloseCallback_view (w : World) (sp : Nat) (handler key : Val)
    (callback : Func) (hwf : World.WF w) :
    ∃ w1, Session.AddCloseCallback w sp handler key callback = some w1 ∧ World.WF w1 ∧
      w1.view = w.view.addCb sp handler key callback ∧ World.Frame w w1 ∧
      w1.trace = w.trace ∧ w1.channels = w.channels := by
  obtain ⟨t, ht, htwf, hcore, hcbs, hfrozen⟩ :=
    Session.AddCloseCallback_spec w sp handler key callback (hwf sp).1
  refine ⟨_, ht, World.WF_setSession hwf sp htwf hcore, ?_,
    World.Frame_setSession w sp hcore hfrozen, rfl, rfl⟩
  rw [World.view_setSession w sp hcore, hcbs]
  unfold View.addCb
  by_cases hc : (w.sessions sp).closeFlag = 1
  · have : w.view.closed sp = true := by simp [World.view, Session.IsClosed, hc]
    simp only [hc, if_true, this]
    exact View.upd_cbs_self _ _
  · have : w.view.closed sp = false := by simp [World.view, Session.IsClosed, hc]
    simp only [hc, if_false, this]
    rfl

theorem World.setChannel_facts (w0 w : World) (c : Nat) (ch : Channel) (hwf : World.WF w)
    (hframe : World.Frame w0 w) :
    World.WF (w.setChannel c ch) ∧ World.Frame w0 (w.setChannel c ch) ∧
      (w.setChannel c ch).view = { w.view with chans := upd w.view.chans c ch.sessions } ∧
      (w.setChannel c ch).trace = w.trace := by
  refine ⟨hwf, hframe, ?_, rfl⟩
  simp only [World.view, World.setChannel, Session.IsClosed, View.mk.injEq, true_and]
  funext x
  by_cases hx : x = c
  · subst hx; simp
  · simp [upd_of_ne _ _ hx]

theorem Channel.remove_view (w : World) (c : Nat) (key : KEY) (session : Nat)
    (hwf : World.WF w) :
    ∃ w1, Channel.remove w c key session = some w1 ∧ World.WF w1 ∧
      w1.view = w.view.chanRemove c key session ∧ World.Frame w w1 ∧ w1.trace = w.trace := by
  obtain ⟨w1, h1, hwf1, hview1, hframe1, htrace1, hch1⟩ :=
    Session.RemoveCloseCallback_view w session (Val.channel c) key hwf
  obtain ⟨a1, a2, a3, a4⟩ := World.setChannel_facts w w1 c
    { sessions := keyDelete (w1.channels c).sessions key } hwf1 hframe1
  refine ⟨_, by simp only [Channel.remove, h1, Option.map_some']; rfl, a1, ?_, a2,
    a4.trans htrace1⟩
  have e : (w1.channels c).sessions = (w.view.removeCb session (Val.channel c) key).chans c := by
    rw [← hview1]; rfl
  rw [a3, hview1, e]
  rfl

theorem Channel.Remove_view (w : World) (c : Nat) (key : KEY) (hwf : World.WF w) :
    ∃ w1 b, Channel.Remove w c key = some (w1, b) ∧ World.WF w1 ∧
      w1.view = w.view.Remove c key ∧ World.Frame w w1 ∧ w1.trace = w.trace ∧
      b = (keyGet (w.channels c).sessions key).isSome := by
  unfold Channel.Remove View.Remove
  cases hget : keyGet (w.channels c).sessions key with
  | none =>
    refine ⟨w, false, rfl, hwf, ?_, World.Frame_refl w, rfl, rfl⟩
    have : keyGet (w.view.chans c) key = none := hget
    simp only [this]
  | some session =>
    obtain ⟨w1, h1, hwf1, hview1, hframe1, htrace1⟩ := Channel.remove_view w c key session hwf
    refine ⟨w1, true, by simp [h1], hwf1, ?_, hframe1, htrace1, rfl⟩
    have : keyGet (w.view.chans c) key = some session := hget
    simp only [this, hview1]

theorem Channel.Put_view (w : World) (c : Nat) (key : KEY) (session : Nat) (hwf : World.WF w) :
    ∃ w1, Channel.Put w c key session = some w1 ∧ World.WF w1 ∧
      w1.view = w.view.Put c key session ∧ World.Frame w w1 ∧ w1.trace = w.trace := by
  -- the removal of the previous entry is `Channel.Remove` without its result
  have hrem : (match keyGet (w.channels c).sessions key with
      | some old => Channel.remove w c key old
      | none => some w) = (Channel.Remove w c key).map Prod.fst := by
    unfold Channel.Remove
    cases keyGet (w.channels c).sessions key with
    | none => rfl
    | some old => cases hr : Channel.remove w c key old <;> simp [hr]
  obtain ⟨w1, b, h1, hwf1, hview1, hframe1, htrace1, _⟩ := Channel.Remove_view w c key hwf
  obtain ⟨w2, h2, hwf2, hview2, hframe2, htrace2, _⟩ :=
    Session.AddCloseCallback_view w1 session (Val.channel c) key (Func.channelRemove c key) hwf1
  obtain ⟨a1, a2, a3, a4⟩ := World.setChannel_facts w w2 c
    { sessions := keySet (w2.channels c).sessions key session } hwf2
    (World.Frame_trans hframe1 hframe2)
  refine ⟨_, ?_, a1, ?_, a2, a4.trans (htrace2.trans htrace1)⟩
  · unfold Channel.Put
    simp only [hrem, h1, Option.map_some', Option.some_bind, h2]
    rfl
  · have e : (w2.channels c).sessions =
        ((w.view.Remove c key).addCb session (Val.channel c) key
          (Func.channelRemove c key)).chans c := by
      rw [← hview1, ← hview2]; rfl
    rw [a3, hview2, hview1, e]
    rfl

theorem Channel.removeAll_view (c : Nat) (es : List (KEY × Nat)) : ∀ (w : World), World.WF w →
    ∃ w1, es.foldl (fun acc e => acc.bind (fun w1 => Channel.remove w1 c e.1 e.2)) (some w) =
        some w1 ∧ World.WF w1 ∧ w1.view = View.removeEntries c es w.view ∧ World.Frame w w1 ∧
      w1.trace = w.trace := by
  induction es with
  | nil => intro w hwf; exact ⟨w, rfl, hwf, rfl, World.Frame_refl w, rfl⟩
  | cons e es ih =>
    intro w hwf
    obtain ⟨w1, h1, hwf1, hview1, hframe1, htrace1⟩ := Channel.remove_view w c e.1 e.2 hwf
    obtain ⟨w2, h2, hwf2, hview2, hframe2, htrace2⟩ := ih w1 hwf1
    refine ⟨w2, ?_, hwf2, ?_, World.Frame_trans hframe1 hframe2, htrace2.trans htrace1⟩
    · simp only [List.foldl_cons, Option.some_bind, h1]
      exact h2
    · rw [hview2, hview1]
      rfl

theorem Channel.Close_chan_view (w : World) (c : Nat) (hwf : World.WF w) :
    ∃ w1, Channel.Close w c = some w1 ∧ World.WF w1 ∧
      w1.view = View.removeEntries c (w.view.chans c) w.view ∧ World.Frame w w1 ∧
      w1.trace = w.trace :=
  Channel.removeAll_view c (w.channels c).sessions w hwf

theorem World.log_facts (w0 w : World) (e : Event) (hwf : World.WF w)
    (hframe : World.Frame w0 w) :
    World.WF (w.log e) ∧ World.Frame w0 (w.log e) ∧ (w.log e).view = w.view ∧
      (w.log e).trace = w.trace ++ [e] :=
  ⟨hwf, hframe, rfl, rfl⟩

theorem Channel.fetchAll_view (c : Nat) (es : List (KEY × Nat)) : ∀ (w : World), World.WF w →
    ∃ w1, es.foldl (Channel.fetchAndRemoveEntry c) (some w) = some w1 ∧ World.WF w1 ∧
      w1.view = View.removeEntries c es w.view ∧ World.Frame w w1 ∧
      w1.trace = w.trace ++ es.map (fun e => Event.fetched c e.2) := by
  induction es with
  | nil => intro w hwf; exact ⟨w, rfl, hwf, rfl, World.Frame_refl w, by simp⟩
  | cons e es ih =>
    intro w hwf
    obtain ⟨w1, h1, hwf1, hview1, hframe1, htrace1, hch1⟩ :=
      Session.RemoveCloseCallback_view w e.2 (Val.channel c) e.1 hwf
    obtain ⟨a1, a2, a3, a4⟩ := World.setChannel_facts w w1 c
      { sessions := keyDelete (w1.channels c).sessions e.1 } hwf1 hframe1
    obtain ⟨b1, b2, b3, b4⟩ := World.log_facts w _ (Event.fetched c e.2) a1 a2
    obtain ⟨w2, h2, hwf2, hview2, hframe2, htrace2⟩ := ih _ b1
    refine ⟨w2, ?_, hwf2, ?_, World.Frame_trans b2 hframe2, ?_⟩
    · simp only [List.foldl_cons, Channel.fetchAndRemoveEntry, Option.some_bind, h1,
        Option.map_some']
      exact h2
    · have e1 : (w1.channels c).sessions =
          (w.view.removeCb e.2 (Val.channel c) e.1).chans c := by
        rw [← hview1]; rfl
      rw [hview2, b3, a3, hview1, e1]
      rfl
    · rw [htrace2, b4, a4, htrace1]
      simp

theorem Channel.FetchAndRemove_view (w : World) (c : Nat) (hwf : World.WF w) :
    ∃ w1, Channel.FetchAndRemove w c = some w1 ∧ World.WF w1 ∧
      w1.view = View.removeEntries c (w.view.chans c) w.view ∧ World.Frame w w1 ∧
      w1.trace = w.trace ++ (w.view.chans c).map (fun e => Event.fetched c e.2) :=
  Channel.fetchAll_view c (w.channels c).sessions w hwf

theorem callFunc_view (w : World) (sp : Nat) (cb : closeCallback) (hwf : World.WF w) :
    ∃ w1, callFunc w sp cb = some w1 ∧ World.WF w1 ∧
      w1.view = w.view.callEntry (cb.Handler, cb.Key, cb.Func) ∧ World.Frame w w1 ∧
      w1.trace = w.trace ++ [callbackEvent sp (cb.Handler, cb.Key, cb.Func)] := by
  obtain ⟨hd, ky, fn, nx⟩ := cb
  obtain ⟨b1, b2, b3, b4⟩ := World.log_facts w w (Event.callback sp hd ky fn)
    hwf (World.Frame_refl w)
  unfold callFunc View.callEntry
  cases fn with
  | user f => exact ⟨_, rfl, b1, b3, b2, b4⟩
  | channelRemove c key =>
    obtain ⟨w1, b, h1, hwf1, hview1, hframe1, htrace1, _⟩ := Channel.Remove_view _ c key b1
    refine ⟨w1, ?_, hwf1, ?_, World.Frame_trans b2 hframe1, ?_⟩
    · simp only [h1, Option.map_some']
    · rw [hview1, b3]
    · rw [htrace1, b4]; rfl

theorem runEntries_view (sp : Nat) (es : List Entry) : ∀ (w : World), World.WF w →
    ∃ w1, runEntries sp es w = some w1 ∧ World.WF w1 ∧ w1.view = w.view.runEntries es ∧
      World.Frame w w1 ∧ w1.trace = w.trace ++ es.map (callbackEvent sp) := by
  induction es with
  | nil => intro w hwf; exact ⟨w, rfl, hwf, rfl, World.Frame_refl w, by simp⟩
  | cons e es ih =>
    intro w hwf
    obtain ⟨w1, h1, hwf1, hview1, hframe1, htrace1⟩ :=
      callFunc_view w sp { Handler := e.1, Key := e.2.1, Func := e.2.2, Next := 0 } hwf
    obtain ⟨w2, h2, hwf2, hview2, hframe2, htrace2⟩ := ih w1 hwf1
    refine ⟨w2, ?_, hwf2, ?_, World.Frame_trans hframe1 hframe2, ?_⟩
    · simp only [runEntries, h1, Option.some_bind]
      exact h2
    · rw [hview2, hview1]; rfl
    · rw [htrace2, htrace1]; simp

/-! ## The goroutine of Close invokes the registry in order -/

theorem callFunc_entry (w : World) (sp : Nat) (cb : closeCallback) :
    callFunc w sp { Handler := cb.Handler, Key := cb.Key, Func := cb.Func, Next := 0 } =
      callFunc w sp cb := rfl

theorem Session.invokeLoop_nil (sp fuel : Nat) (w : World) :
    Session.invokeLoop sp fuel w 0 = some w := by
  cases fuel <;> rfl

theorem Session.invokeLoop_eq (sp : Nat) : ∀ (suf : List Nat) (cur fuel : Nat) (w : World),
    World.WF w → (w.sessions sp).closeFlag = 1 →
    IsChain (w.sessions sp).cbHeap cur suf → suf.length ≤ fuel →
    Session.invokeLoop sp fuel w cur =
      runEntries sp (suf.filterMap (entryAt (w.sessions sp).cbHeap)) w := by
  intro suf
  induction suf with
  | nil =>
    intro cur fuel w _ _ hchain _
    simp only [IsChain] at hchain
    subst hchain
    rw [Session.invokeLoop_nil]
    rfl
  | cons a suf ih =>
    intro cur fuel w hwf hclosed hchain hfuel
    simp only [IsChain] at hchain
    obtain ⟨hcur, cb, hcb, hrest⟩ := hchain
    subst hcur
    obtain ⟨fuel1, rfl⟩ : ∃ f, fuel = f + 1 := ⟨fuel - 1, by simp at hfuel; omega⟩
    obtain ⟨a1, rfl⟩ : ∃ x, cur = x + 1 := ⟨cur - 1, by have := (cellAt_pos hcb).1; omega⟩
    have hcb1 : (w.sessions sp).cbHeap[a1]? = some cb := hcb
    obtain ⟨w1, h1, hwf1, _, hframe1, _⟩ := callFunc_view w sp cb hwf
    have hsame : w1.sessions sp = w.sessions sp := hframe1.2.2.2.2.2 sp hclosed
    have hentry : entryAt (w.sessions sp).cbHeap (a1 + 1) = some (cb.Handler, cb.Key, cb.Func) := by
      unfold entryAt; rw [hcb]; rfl
    have hih := ih cb.Next fuel1 w1 hwf1 (by rw [hsame]; exact hclosed)
      (by rw [hsame]; exact hrest) (by simpa using hfuel)
    simp only [Session.invokeLoop, hcb1, h1, Option.some_bind, hsame, List.filterMap_cons,
      hentry, runEntries, callFunc_entry]
    rw [hih, hsame]

theorem Session.invokeCloseCallbacks_eq (w : World) (sp : Nat) (hwf : World.WF w)
    (hclosed : (w.sessions sp).closeFlag = 1) :
    Session.invokeCloseCallbacks w sp = runEntries sp (w.sessions sp).callbacks w := by
  obtain ⟨l, hl, _⟩ := (Session.wf_iff _).mp (hwf sp).1
  rw [Session.callbacks_of_isChain _ l hl]
  exact Session.invokeLoop_eq sp l _ _ w hwf hclosed hl (Nat.le_succ_of_le (IsChain.length_le hl))

/-! ## Close on the state -/

theorem Session.Close_of_closed (w : World) (sp : Nat) (h : (w.sessions sp).closeFlag ≠ 0) :
    Session.Close w sp = (w, some SessionClosedError) := by
  simp [Session.Close, h]

theorem Session.closeSendChan_closeFlag (s : Session) :
    (Session.closeSendChan s).closeFlag = s.closeFlag := by
  unfold Session.closeSendChan
  split
  · rfl
  · split <;> rfl

theorem Session.closeSendChan_codec (s : Session) (a : Nat) (b : Bool) :
    (Session.closeSendChan { s with closeFlag := a, closeChan := b }).codec =
      (Session.closeSendChan s).codec := by
  unfold Session.closeSendChan
  cases h1 : s.sendChan with
  | none => simp
  | some ch =>
    cases h2 : s.codec.clearFn with
    | none => simp [h2]
    | some clear => simp [h2]

theorem Session.Close_result (w : World) (sp : Nat) (h : (w.sessions sp).closeFlag = 0) :
    (Session.Close w sp).2 =
        ((Session.closeSendChan (w.sessions sp)).codec.closeFn
          (Session.closeSendChan (w.sessions sp)).codec.state).2 ∧
    ((Session.Close w sp).1.sessions sp).codec.state =
        ((Session.closeSendChan (w.sessions sp)).codec.closeFn
          (Session.closeSendChan (w.sessions sp)).codec.state).1 := by
  simp only [Session.Close, h, if_true, upd_same, Session.closeSendChan_codec]
  exact ⟨trivial, trivial⟩

theorem Session.Close_closeFlag (w : World) (sp : Nat) (h : (w.sessions sp).closeFlag = 0) :
    ((Session.Close w sp).1.sessions sp).closeFlag = 1 := by
  simp [Session.Close, h, Session.closeSendChan_closeFlag]

theorem Session.closeTimes_of_closed (sp : Nat) (n : Nat) (w : World)
    (h : (w.sessions sp).closeFlag ≠ 0) :
    Session.closeTimes sp n w = (w, List.replicate n (some SessionClosedError)) := by
  induction n with
  | zero => rfl
  | succ n ih =>
    simp only [Session.closeTimes, Session.Close_of_closed w sp h, ih, List.replicate_succ]

theorem Session.Close_trace (w : World) (sp : Nat) (h : (w.sessions sp).closeFlag = 0) :
    (Session.Close w sp).1.trace.count (Event.codecClose sp) =
      w.trace.count (Event.codecClose sp) + 1 := by
  simp only [Session.Close, h, if_true]
  split <;> simp [List.count_cons]


theorem Session.closeSendChan_fields (s : Session) :
    (Session.closeSendChan s).cbHeap = s.cbHeap ∧
    (Session.closeSendChan s).firstCloseCallback = s.firstCloseCallback ∧
    (Session.closeSendChan s).lastCloseCallback = s.lastCloseCallback ∧
    (Session.closeSendChan s).id = s.id ∧
    (Session.closeSendChan s).manager = s.manager ∧
    (Session.closeSendChan s).closeFlag = s.closeFlag := by
  unfold Session.closeSendChan
  split
  · exact ⟨rfl, rfl, rfl, rfl, rfl, rfl⟩
  · split <;> exact ⟨rfl, rfl, rfl, rfl, rfl, rfl⟩

theorem Session.closedRecord_fields (s : Session) :
    (Session.closedRecord s).cbHeap = s.cbHeap ∧
    (Session.closedRecord s).firstCloseCallback = s.firstCloseCallback ∧
    (Session.closedRecord s).lastCloseCallback = s.lastCloseCallback ∧
    (Session.closedRecord s).id = s.id ∧
    (Session.closedRecord s).manager = s.manager ∧
    (Session.closedRecord s).closeFlag = 1 := by
  obtain ⟨h1, h2, h3, h4, h5, h6⟩ :=
    Session.closeSendChan_fields { s with closeFlag := 1, closeChan := true }
  exact ⟨h1, h2, h3, h4, h5, h6⟩

theorem Session.Close_open (w : World) (sp : Nat) (hopen : (w.sessions sp).closeFlag = 0) :
    (Session.Close w sp).1 =
      { w with sessions := upd w.sessions sp (Session.closedRecord (w.sessions sp)),
               tasks := w.tasks ++ [Task.closeTask sp],
               trace := w.trace ++ Session.closeEvents (w.sessions sp) sp } := by
  simp only [Session.Close, hopen, if_true]
  rfl

theorem Session.closedRecord_callbacks (s : Session) :
    (Session.closedRecord s).callbacks = s.callbacks ∧ (Session.closedRecord s).wf = s.wf := by
  obtain ⟨h1, h2, h3, _⟩ := Session.closedRecord_fields s
  exact ⟨Session.callbacks_congr h1 h2, Session.wf_congr h1 h2 h3⟩

/-- What `Close` does to the state, for well-formed states. -/
theorem Session.Close_view (w : World) (sp : Nat) (hwf : World.WF w) :
    World.WF (Session.Close w sp).1 ∧
    (Session.Close w sp).1.view = w.view.sessionClose sp ∧
    (Session.Close w sp).1.channels = w.channels ∧
    (Session.Close w sp).1.managers = w.managers ∧
    (∀ x, ((Session.Close w sp).1.sessions x).callbacks = (w.sessions x).callbacks) ∧
    (∀ x, x ≠ sp → (Session.Close w sp).1.sessions x = w.sessions x) := by
  by_cases hopen : (w.sessions sp).closeFlag = 0
  · rw [Session.Close_open w sp hopen]
    obtain ⟨f1, f2, f3, f4, f5, f6⟩ := Session.closedRecord_fields (w.sessions sp)
    obtain ⟨c1, c2⟩ := Session.closedRecord_callbacks (w.sessions sp)
    have hcbs : ∀ x, ((upd w.sessions sp (Session.closedRecord (w.sessions sp))) x).callbacks =
        (w.sessions x).callbacks := by
      intro x
      by_cases hx : x = sp
      · subst hx; simpa using c1
      · rw [upd_of_ne _ _ hx]
    refine ⟨?_, ?_, rfl, rfl, hcbs, fun x hx => upd_of_ne _ _ hx⟩
    · intro x
      by_cases hx : x = sp
      · subst hx
        simp only [upd_same]
        exact ⟨c2.trans (hwf x).1, by rw [f6]⟩
      · simp only [upd_of_ne _ _ hx]
        exact hwf x
    · have hv : w.view.closed sp = false := by simp [World.view, Session.IsClosed, hopen]
      unfold View.sessionClose
      simp only [hv, Bool.false_eq_true, if_false]
      simp only [World.view, Session.IsClosed, View.mk.injEq, and_true]
      refine ⟨?_, funext hcbs⟩
      funext x
      by_cases hx : x = sp
      · subst hx; simp [f6]
      · simp [upd_of_ne _ _ hx]
  · rw [Session.Close_of_closed w sp hopen]
    have h1 : (w.sessions sp).closeFlag = 1 := by have := (hwf sp).2; omega
    have hv : w.view.closed sp = true := by simp [World.view, Session.IsClosed, h1]
    refine ⟨hwf, ?_, rfl, rfl, fun _ => rfl, fun _ _ => rfl⟩
    unfold View.sessionClose
    simp only [hv, if_true]

/-! ## Send on the state -/

theorem Session.Send_of_closed (w : World) (sp : Nat) (msg : Msg)
    (h : (w.sessions sp).closeFlag = 1) :
    Session.Send w sp msg = (w, some SessionClosedError) := by
  unfold Session.Send
  cases hch : (w.sessions sp).sendChan <;> simp [Session.IsClosed, h, hch]

theorem Session.sendAll_of_closed (sp : Nat) (msgs : List Msg) (w : World)
    (h : (w.sessions sp).closeFlag = 1) :
    Session.sendAll sp msgs w = (w, List.replicate msgs.length (some SessionClosedError)) := by
  induction msgs with
  | nil => rfl
  | cons m rest ih =>
    simp only [Session.sendAll, Session.Send_of_closed w sp m h, ih, List.length_cons,
      List.replicate_succ]

theorem Session.Send_room (w : World) (sp : Nat) (msg : Msg) (ch : SendChan)
    (hch : (w.sessions sp).sendChan = some ch) (hflag : (w.sessions sp).closeFlag = 0)
    (hroom : ch.buf.length < ch.cap) :
    Session.Send w sp msg =
      (w.setSession sp { (w.sessions sp) with sendChan := some { ch with buf := ch.buf ++ [msg] } },
        none) := by
  unfold Session.Send
  simp [hch, Session.IsClosed, hflag, hroom]

theorem Session.Send_full (w : World) (sp : Nat) (msg : Msg) (ch : SendChan)
    (hch : (w.sessions sp).sendChan = some ch) (hflag : (w.sessions sp).closeFlag = 0)
    (hfull : ¬ ch.buf.length < ch.cap) :
    Session.Send w sp msg = ((Session.Close w sp).1, some SessionBlockedError) := by
  unfold Session.Send
  simp [hch, Session.IsClosed, hflag, hfull]

theorem Session.sendAll_room (sp : Nat) (msgs : List Msg) : ∀ (w : World) (ch : SendChan),
    (w.sessions sp).sendChan = some ch → (w.sessions sp).closeFlag = 0 →
    ch.buf.length + msgs.length ≤ ch.cap →
    Session.sendAll sp msgs w =
      (w.setSession sp { (w.sessions sp) with sendChan := some { ch with buf := ch.buf ++ msgs } },
        List.replicate msgs.length none) := by
  induction msgs with
  | nil =>
    intro w ch hch _ _
    simp only [Session.sendAll, List.append_nil, List.length_nil, List.replicate_zero,
      World.setSession]
    rw [← hch]
    simp
  | cons m rest ih =>
    intro w ch hch hflag hroom
    simp only [List.length_cons] at hroom
    have h1 := Session.Send_room w sp m ch hch hflag (by omega)
    simp only [Session.sendAll, h1]
    rw [ih _ { ch with buf := ch.buf ++ [m] } (by simp [World.setSession])
      (by simp [World.setSession, hflag]) (by simp; omega)]
    simp [World.setSession, List.replicate_succ]


/-! ## Runs of registry calls -/

theorem Session.AddCloseCallback_of_closed (w : World) (sp : Nat) (handler key : Val)
    (callback : Func) (h : (w.sessions sp).closeFlag = 1) :
    Session.AddCloseCallback w sp handler key callback = some w := by
  simp [Session.AddCloseCallback, Session.IsClosed, h]

theorem Session.RemoveCloseCallback_of_closed (w : World) (sp : Nat) (handler key : Val)
    (h : (w.sessions sp).closeFlag = 1) :
    Session.RemoveCloseCallback w sp handler key = some w := by
  simp [Session.RemoveCloseCallback, Session.IsClosed, h]

theorem World.view_closed_false {w : World} {sp : Nat} (h : (w.sessions sp).closeFlag = 0) :
    w.view.closed sp = false := by
  simp [World.view, Session.IsClosed, h]

theorem RegOp.run_spec (sp : Nat) (w : World) (op : RegOp) (hwf : World.WF w)
    (hopen : (w.sessions sp).closeFlag = 0) :
    ∃ w1, RegOp.run sp w op = some w1 ∧ World.WF w1 ∧ World.Frame w w1 ∧ w1.trace = w.trace ∧
      (w1.sessions sp).callbacks = refStep (w.sessions sp).callbacks op := by
  have hv := World.view_closed_false hopen
  cases op with
  | add handler key callback =>
    obtain ⟨w1, h1, hwf1, hview1, hframe1, htrace1, _⟩ :=
      Session.AddCloseCallback_view w sp handler key callback hwf
    refine ⟨w1, h1, hwf1, hframe1, htrace1, ?_⟩
    have hres : (w.view.addCb sp handler key callback).cbs sp =
        w.view.cbs sp ++ [(handler, key, callback)] := by
      unfold View.addCb; rw [hv]; simp
    exact (congrArg (fun v => v.cbs sp) hview1).trans hres
  | remove handler key =>
    obtain ⟨w1, h1, hwf1, hview1, hframe1, htrace1, _⟩ :=
      Session.RemoveCloseCallback_view w sp handler key hwf
    refine ⟨w1, h1, hwf1, hframe1, htrace1, ?_⟩
    have hres : (w.view.removeCb sp handler key).cbs sp =
        (w.view.cbs sp).eraseP (Entry.tagged handler key) := by
      unfold View.removeCb; rw [hv]; simp
    exact (congrArg (fun v => v.cbs sp) hview1).trans hres

theorem RegOp.runAll_spec (sp : Nat) (ops : List RegOp) : ∀ (w : World), World.WF w →
    (w.sessions sp).closeFlag = 0 →
    ∃ w1, RegOp.runAll sp ops w = some w1 ∧ World.WF w1 ∧ World.Frame w w1 ∧
      w1.trace = w.trace ∧
      (w1.sessions sp).callbacks = refList (w.sessions sp).callbacks ops := by
  induction ops with
  | nil => intro w hwf _; exact ⟨w, rfl, hwf, World.Frame_refl w, rfl, rfl⟩
  | cons op ops ih =>
    intro w hwf hopen
    obtain ⟨w1, h1, hwf1, hframe1, htrace1, hcbs1⟩ := RegOp.run_spec sp w op hwf hopen
    have hopen1 : (w1.sessions sp).closeFlag = 0 := by
      rw [(hframe1.2.2.2.2.1 sp).2.2.2.2.1]; exact hopen
    obtain ⟨w2, h2, hwf2, hframe2, htrace2, hcbs2⟩ := ih w1 hwf1 hopen1
    refine ⟨w2, ?_, hwf2, World.Frame_trans hframe1 hframe2, htrace2.trans htrace1, ?_⟩
    · simp only [RegOp.runAll, h1, Option.some_bind]
      exact h2
    · rw [hcbs2, hcbs1]
      rfl

theorem Manager.delSession_trace (w : World) (m sp : Nat) :
    (Manager.delSession w m sp).trace = w.trace ++ [Event.delSession m sp] := by
  simp only [Manager.delSession]
  split <;> rfl

/-- The goroutine of `Close` on a closed session of a well-formed state: it invokes the
entries of the registry in order and then leaves the manager. -/
theorem Session.closeTask_spec (w : World) (sp : Nat) (hwf : World.WF w)
    (hclosed : (w.sessions sp).closeFlag = 1) :
    ∃ w1 w2, runEntries sp (w.sessions sp).callbacks w = some w1 ∧
      Session.closeTask w sp = some w2 ∧ World.WF w1 ∧
      w1.view = w.view.runEntries (w.sessions sp).callbacks ∧ World.Frame w w1 ∧
      w1.trace = w.trace ++ (w.sessions sp).callbacks.map (callbackEvent sp) ∧
      w2 = (match (w.sessions sp).manager with
        | some m => Manager.delSession w1 m sp
        | none => w1) := by
  obtain ⟨w1, h1, hwf1, hview1, hframe1, htrace1⟩ :=
    runEntries_view sp (w.sessions sp).callbacks w hwf
  have hsame : w1.sessions sp = w.sessions sp := hframe1.2.2.2.2.2 sp hclosed
  refine ⟨w1, _, h1, ?_, hwf1, hview1, hframe1, htrace1, rfl⟩
  unfold Session.closeTask
  rw [Session.invokeCloseCallbacks_eq w sp hwf hclosed, h1, Option.map_some', hsame]

/-! ## Well-formed states -/

theorem World.WF_init : World.WF World.init := by
  intro sp
  exact ⟨rfl, Nat.zero_le _⟩

theorem newSession_sessions (w : World) (manager : Option Nat) (codec : Codec)
    (sendChanSize : Int) :
    (newSession w manager codec sendChanSize).2 = w.nextSession ∧
    (∀ x, x ≠ w.nextSession →
      (newSession w manager codec sendChanSize).1.sessions x = w.sessions x) ∧
    ((newSession w manager codec sendChanSize).1.sessions w.nextSession).closeFlag = 0 ∧
    ((newSession w manager codec sendChanSize).1.sessions w.nextSession).cbHeap = [] ∧
    ((newSession w manager codec sendChanSize).1.sessions w.nextSession).firstCloseCallback = 0 ∧
    ((newSession w manager codec sendChanSize).1.sessions w.nextSession).lastCloseCallback = 0 ∧
    ((newSession w manager codec sendChanSize).1.sessions w.nextSession).id =
      (w.globalSessionId + 1) % 2 ^ 64 ∧
    ((newSession w manager codec sendChanSize).1.sessions w.nextSession).manager = manager := by
  by_cases h : sendChanSize > 0
  · simp only [newSession, h, if_true, upd_same, true_and, and_true]
    exact fun x hx => upd_of_ne _ _ hx
  · simp only [newSession, h, if_false, upd_same, true_and, and_true]
    exact fun x hx => upd_of_ne _ _ hx

theorem Session.wf_of_empty {s : Session} (_h1 : s.cbHeap = []) (h2 : s.firstCloseCallback = 0) :
    s.wf = true ∧ s.callbacks = [] := by
  have hc : s.chain = some [] := by
    unfold Session.chain
    rw [h2]
    rfl
  unfold Session.wf Session.callbacks
  rw [hc]
  exact ⟨rfl, rfl⟩

theorem newSession_WF (w : World) (manager : Option Nat) (codec : Codec) (sendChanSize : Int)
    (hwf : World.WF w) : World.WF (newSession w manager codec sendChanSize).1 := by
  obtain ⟨_, h2, h3, h4, h5, _⟩ := newSession_sessions w manager codec sendChanSize
  intro x
  by_cases hx : x = w.nextSession
  · subst hx
    exact ⟨(Session.wf_of_empty h4 h5).1, by rw [h3]; exact Nat.zero_le _⟩
  · rw [h2 x hx]
    exact hwf x

/-! ## Maps and counting -/

theorem mapGet_mapDelete_same {κ : Type} [DecidableEq κ] (m : List (κ × Nat)) (key : κ) :
    mapGet (mapDelete m key) key = none := by
  unfold mapGet mapDelete
  rw [Option.map_eq_none', List.find?_eq_none]
  intro e he
  have := (List.mem_filter.mp he).2
  simpa using this

theorem mapGet_mapDelete_other {κ : Type} [DecidableEq κ] (m : List (κ × Nat)) {key k1 : κ}
    (h : k1 ≠ key) : mapGet (mapDelete m key) k1 = mapGet m k1 := by
  unfold mapGet mapDelete
  induction m with
  | nil => rfl
  | cons e m ih =>
    have ih1 : Option.map Prod.snd (List.find? (fun e => decide (e.1 = k1))
        (List.filter (fun e => decide (e.1 ≠ key)) m)) =
        Option.map Prod.snd (List.find? (fun e => decide (e.1 = k1)) m) := ih
    by_cases he : e.1 = key
    · have hne : ¬ e.1 = k1 := fun h1 => h (h1.symm.trans he)
      rw [List.filter_cons_of_neg (by simpa using he), List.find?_cons_of_neg _ (by simpa using hne)]
      exact ih1
    · rw [List.filter_cons_of_pos (by simpa using he)]
      by_cases hk : e.1 = k1
      · rw [List.find?_cons_of_pos _ (by simpa using hk), List.find?_cons_of_pos _ (by simpa using hk)]
      · rw [List.find?_cons_of_neg _ (by simpa using hk), List.find?_cons_of_neg _ (by simpa using hk)]
        exact ih1

theorem mapGet_mapSet_same {κ : Type} [DecidableEq κ] (m : List (κ × Nat)) (key : κ) (v : Nat) :
    mapGet (mapSet m key v) key = some v := by
  simp [mapGet, mapSet]

theorem mapGet_mapSet_other {κ : Type} [DecidableEq κ] (m : List (κ × Nat)) {key k1 : κ}
    (v : Nat) (h : k1 ≠ key) : mapGet (mapSet m key v) k1 = mapGet m k1 := by
  have hne : ¬ key = k1 := fun h1 => h h1.symm
  have : mapGet (mapSet m key v) k1 = mapGet (mapDelete m key) k1 := by
    simp [mapGet, mapSet, hne]
  rw [this, mapGet_mapDelete_other m h]

theorem mapDelete_keys_nodup {κ : Type} [DecidableEq κ] (m : List (κ × Nat)) (key : κ)
    (h : (m.map Prod.fst).Nodup) : ((mapDelete m key).map Prod.fst).Nodup := by
  unfold mapDelete
  exact (List.Sublist.map Prod.fst (List.filter_sublist m)).nodup h

theorem mapSet_keys_nodup {κ : Type} [DecidableEq κ] (m : List (κ × Nat)) (key : κ) (v : Nat)
    (h : (m.map Prod.fst).Nodup) : ((mapSet m key v).map Prod.fst).Nodup := by
  unfold mapSet
  rw [List.map_cons, List.nodup_cons]
  refine ⟨?_, mapDelete_keys_nodup m key h⟩
  intro hmem
  obtain ⟨e, he, hk⟩ := List.mem_map.mp hmem
  have := (List.mem_filter.mp he).2
  simp at this
  exact this hk

theorem mapGet_of_mem_nodup {κ : Type} [DecidableEq κ] (m : List (κ × Nat)) (e : κ × Nat)
    (hmem : e ∈ m) (h : (m.map Prod.fst).Nodup) : mapGet m e.1 = some e.2 := by
  induction m with
  | nil => simp at hmem
  | cons x m ih =>
    rw [List.map_cons, List.nodup_cons] at h
    rcases List.mem_cons.mp hmem with rfl | hm
    · simp [mapGet]
    · have hne : ¬ x.1 = e.1 := by
        intro hx
        exact h.1 (hx ▸ List.mem_map_of_mem Prod.fst hm)
      have := ih hm h.2
      unfold mapGet at this ⊢
      simp only [List.find?_cons, hne, decide_False]
      exact this

theorem countP_eraseP_same {α : Type} (p : α → Bool) (l : List α) :
    (l.eraseP p).countP p = l.countP p - 1 := by
  induction l with
  | nil => rfl
  | cons a l ih =>
    by_cases ha : p a = true
    · simp [List.eraseP_cons_of_pos, ha]
    · simp only [List.eraseP_cons, ha, Bool.false_eq_true, if_false, cond_false]
      rw [List.countP_cons_of_neg _ _ ha, List.countP_cons_of_neg _ _ ha]
      exact ih

theorem countP_eraseP_other {α : Type} (p q : α → Bool) (l : List α)
    (h : ∀ x, q x = true → p x = false) : (l.eraseP q).countP p = l.countP p := by
  induction l with
  | nil => rfl
  | cons a l ih =>
    by_cases ha : q a = true
    · rw [List.eraseP_cons_of_pos ha, List.countP_cons_of_neg _ _ (by simp [h a ha])]
    · simp only [List.eraseP_cons, ha, Bool.false_eq_true, if_false, cond_false]
      by_cases hp : p a = true
      · rw [List.countP_cons_of_pos _ _ hp, List.countP_cons_of_pos _ _ hp, ih]
      · rw [List.countP_cons_of_neg _ _ hp, List.countP_cons_of_neg _ _ hp, ih]

theorem Val.eq_iff (a b : Val) : Val.eq a b = true ↔ a = b ∧ a ≠ Val.nan := by
  simp [Val.eq]

theorem Val.eq_false_iff (a b : Val) : Val.eq a b = false ↔ (a = b → a = Val.nan) := by
  simp [Val.eq]

theorem Val.eq_comm (a b : Val) : Val.eq a b = Val.eq b a := by
  by_cases h : a = b
  · subst h; rfl
  · have h1 : Val.eq a b = false := (Val.eq_false_iff a b).mpr (fun hab => absurd hab h)
    have h2 : Val.eq b a = false := (Val.eq_false_iff b a).mpr (fun hab => absurd hab.symm h)
    rw [h1, h2]

theorem Val.eq_self (a : Val) : Val.eq a a = true ↔ a ≠ Val.nan := by
  simp [Val.eq]

theorem Val.eq_nan (a : Val) : Val.eq a Val.nan = false ∧ Val.eq Val.nan a = false := by
  constructor
  · rw [Val.eq_false_iff]; exact id
  · rw [Val.eq_false_iff]; exact fun _ => rfl

theorem Val.eq_of_self {a b : Val} (ha : Val.eq a a = true) : Val.eq b a = decide (b = a) := by
  have hn := (Val.eq_self a).mp ha
  by_cases h : b = a
  · subst h
    rw [ha]; simp
  · rw [(Val.eq_false_iff b a).mpr (fun hab => absurd hab h)]
    simp [h]

theorem keyGet_nan (m : List (KEY × Nat)) : keyGet m Val.nan = none := by
  unfold keyGet
  rw [Option.map_eq_none', List.find?_eq_none]
  intro e _
  simp [(Val.eq_nan e.1).1]

theorem keyDelete_nan (m : List (KEY × Nat)) : keyDelete m Val.nan = m := by
  unfold keyDelete
  rw [List.filter_eq_self]
  intro e _
  simp [(Val.eq_nan e.1).1]

theorem keyGet_eq_none_iff (m : List (KEY × Nat)) (key : KEY) :
    keyGet m key = none ↔ ∀ e ∈ m, Val.eq e.1 key = false := by
  unfold keyGet
  rw [Option.map_eq_none', List.find?_eq_none]
  simp

theorem keyGet_keyDelete_same (m : List (KEY × Nat)) (key : KEY) :
    keyGet (keyDelete m key) key = none := by
  rw [keyGet_eq_none_iff]
  intro e he
  have := (List.mem_filter.mp he).2
  simpa using this

theorem keyGet_keyDelete_other (m : List (KEY × Nat)) {key k1 : KEY} (h : k1 ≠ key) :
    keyGet (keyDelete m key) k1 = keyGet m k1 := by
  unfold keyGet keyDelete
  induction m with
  | nil => rfl
  | cons e m ih =>
    by_cases he : Val.eq e.1 key = true
    · have hne : Val.eq e.1 k1 = false := by
        rw [Val.eq_false_iff]
        intro h1
        exact absurd (h1.symm.trans ((Val.eq_iff _ _).mp he).1) h
      rw [List.filter_cons_of_neg (by simp [he]), List.find?_cons_of_neg _ (by simp [hne])]
      exact ih
    · rw [List.filter_cons_of_pos (by simpa using he)]
      cases hk : Val.eq e.1 k1 with
      | true => simp only [List.find?_cons, hk]
      | false =>
        simp only [List.find?_cons, hk]
        exact ih

theorem keyGet_keySet_same (m : List (KEY × Nat)) (key : KEY) (v : Nat)
    (hk : Val.eq key key = true) : keyGet (keySet m key v) key = some v := by
  simp [keyGet, keySet, hk]

theorem keyGet_keySet_other (m : List (KEY × Nat)) {key k1 : KEY} (v : Nat) (h : k1 ≠ key) :
    keyGet (keySet m key v) k1 = keyGet m k1 := by
  have hne : Val.eq key k1 = false := (Val.eq_false_iff _ _).mpr (fun h1 => absurd h1.symm h)
  have : keyGet (keySet m key v) k1 = keyGet (keyDelete m key) k1 := by
    simp [keyGet, keySet, hne]
  rw [this, keyGet_keyDelete_other m h]

theorem keyDelete_pairwise (m : List (KEY × Nat)) (key : KEY)
    (h : m.Pairwise (fun a b => Val.eq a.1 b.1 = false)) :
    (keyDelete m key).Pairwise (fun a b => Val.eq a.1 b.1 = false) :=
  List.Pairwise.sublist (List.filter_sublist m) h

theorem keySet_pairwise (m : List (KEY × Nat)) (key : KEY) (v : Nat)
    (h : m.Pairwise (fun a b => Val.eq a.1 b.1 = false)) :
    (keySet m key v).Pairwise (fun a b => Val.eq a.1 b.1 = false) := by
  unfold keySet
  rw [List.pairwise_cons]
  refine ⟨?_, keyDelete_pairwise m key h⟩
  intro e he
  have := (List.mem_filter.mp he).2
  rw [Val.eq_comm]
  simpa using this

theorem keyGet_of_mem_pairwise (m : List (KEY × Nat)) (e : KEY × Nat) (hmem : e ∈ m)
    (hk : Val.eq e.1 e.1 = true) (h : m.Pairwise (fun a b => Val.eq a.1 b.1 = false)) :
    keyGet m e.1 = some e.2 := by
  induction m with
  | nil => simp at hmem
  | cons x m ih =>
    rw [List.pairwise_cons] at h
    rcases List.mem_cons.mp hmem with rfl | hm
    · simp [keyGet, hk]
    · have hne : Val.eq x.1 e.1 = false := h.1 e hm
      have := ih hm h.2
      unfold keyGet at this ⊢
      rw [List.find?_cons_of_neg _ (by simp [hne])]
      exact this

theorem mem_of_keyGet {m : List (KEY × Nat)} {key : KEY} {v : Nat}
    (h : keyGet m key = some v) : (key, v) ∈ m ∧ Val.eq key key = true := by
  unfold keyGet at h
  rw [Option.map_eq_some'] at h
  obtain ⟨e, he, hv⟩ := h
  have hmem := List.mem_of_find?_eq_some he
  have hk := List.find?_some he
  obtain ⟨h1, h2⟩ := (Val.eq_iff _ _).mp hk
  rw [← h1, ← hv]
  exact ⟨hmem, (Val.eq_self _).mpr h2⟩

theorem keyDelete_of_absent (m : List (KEY × Nat)) (key : KEY)
    (h : keyGet m key = none) : keyDelete m key = m := by
  unfold keyDelete
  rw [List.filter_eq_self]
  intro e he
  simp [(keyGet_eq_none_iff m key).mp h e he]

theorem keyDelete_sublist {m1 m2 : List (KEY × Nat)} (key : KEY)
    (h : m1.Sublist m2) : (keyDelete m1 key).Sublist (keyDelete m2 key) :=
  List.Sublist.filter _ h

theorem keyDelete_keySet (m : List (KEY × Nat)) (key : KEY) (v : Nat)
    (hk : Val.eq key key = true) :
    keyDelete (keySet (keyDelete m key) key v) key = keyDelete m key := by
  unfold keySet keyDelete
  rw [List.filter_cons_of_neg (by simp [hk]), List.filter_filter, List.filter_filter]
  simp

theorem Entry.tagged_iff (handler key : Val) (e : Entry) :
    Entry.tagged handler key e = true ↔
      e.1 = handler ∧ e.2.1 = key ∧ handler ≠ Val.nan ∧ key ≠ Val.nan := by
  unfold Entry.tagged
  rw [Bool.and_eq_true, Val.eq_iff, Val.eq_iff]
  constructor
  · rintro ⟨⟨h1, h2⟩, h3, h4⟩
    exact ⟨h1, h3, h1 ▸ h2, h3 ▸ h4⟩
  · rintro ⟨h1, h2, h3, h4⟩
    exact ⟨⟨h1, h1 ▸ h3⟩, h2, h2 ▸ h4⟩

theorem Entry.tagged_nan (handler : Val) (e : Entry) : Entry.tagged handler Val.nan e = false := by
  rw [Bool.eq_false_iff]
  intro h
  exact ((Entry.tagged_iff _ _ _).mp h).2.2.2 rfl

theorem Entry.tagged_other {handler key h1 k1 : Val} (hne : ¬ (h1 = handler ∧ k1 = key))
    (e : Entry) (h : Entry.tagged handler key e = true) : Entry.tagged h1 k1 e = false := by
  rw [Entry.tagged_iff] at h
  rw [Bool.eq_false_iff]
  intro h2
  rw [Entry.tagged_iff] at h2
  exact hne ⟨h2.1.symm.trans h.1, h2.2.1.symm.trans h.2.1⟩

theorem Channel.eq_of_sessions {a b : Channel} (h : a.sessions = b.sessions) : a = b := by
  cases a
  cases b
  simp_all

theorem mem_of_mapGet {κ : Type} [DecidableEq κ] {m : List (κ × Nat)} {key : κ} {v : Nat}
    (h : mapGet m key = some v) : (key, v) ∈ m := by
  unfold mapGet at h
  rw [Option.map_eq_some'] at h
  obtain ⟨e, he, hv⟩ := h
  have hmem := List.mem_of_find?_eq_some he
  have hk := List.find?_some he
  simp only [decide_eq_true_eq] at hk
  rw [← hk, ← hv]
  exact hmem

theorem mapGet_eq_none_iff {κ : Type} [DecidableEq κ] (m : List (κ × Nat)) (key : κ) :
    mapGet m key = none ↔ ∀ e ∈ m, e.1 ≠ key := by
  unfold mapGet
  rw [Option.map_eq_none', List.find?_eq_none]
  simp

theorem mapDelete_of_absent {κ : Type} [DecidableEq κ] (m : List (κ × Nat)) (key : κ)
    (h : mapGet m key = none) : mapDelete m key = m := by
  unfold mapDelete
  rw [List.filter_eq_self]
  intro e he
  simpa using (mapGet_eq_none_iff m key).mp h e he

theorem mapDelete_length {κ : Type} [DecidableEq κ] (m : List (κ × Nat)) (key : κ) (v : Nat)
    (hnd : (m.map Prod.fst).Nodup) (h : mapGet m key = some v) :
    (mapDelete m key).length + 1 = m.length := by
  induction m with
  | nil => simp [mapGet] at h
  | cons e m ih =>
    rw [List.map_cons, List.nodup_cons] at hnd
    by_cases he : e.1 = key
    · have habs : mapGet m key = none := by
        rw [mapGet_eq_none_iff]
        intro x hx hk
        exact hnd.1 (he ▸ hk ▸ List.mem_map_of_mem Prod.fst hx)
      have : mapDelete (e :: m) key = mapDelete m key := by
        unfold mapDelete
        rw [List.filter_cons_of_neg (by simpa using he)]
      rw [this, mapDelete_of_absent m key habs]
      rfl
    · have hget : mapGet m key = some v := by
        unfold mapGet at h ⊢
        rw [List.find?_cons_of_neg _ (by simpa using he)] at h
        exact h
      have : mapDelete (e :: m) key = e :: mapDelete m key := by
        unfold mapDelete
        rw [List.filter_cons_of_pos (by simpa using he)]
      rw [this, List.length_cons, List.length_cons, ih hnd.2 hget]

theorem sum_range_update (n : Nat) (f g : Nat → Nat) (j : Nat) (hj : j < n)
    (h : ∀ i, i ≠ j → g i = f i) :
    ((List.range n).map g).sum + f j = ((List.range n).map f).sum + g j := by
  induction n with
  | zero => omega
  | succ n ih =>
    rw [List.range_succ, List.map_append, List.map_append, List.sum_append, List.sum_append]
    simp only [List.map_cons, List.map_nil, List.sum_cons, List.sum_nil, add_zero]
    by_cases hjn : j = n
    · subst hjn
      have hsame : (List.range j).map g = (List.range j).map f := by
        apply List.map_congr_left
        intro i hi
        exact h i (by have := List.mem_range.mp hi; omega)
      rw [hsame]
      omega
    · have := ih (by omega)
      rw [h n (fun hn => hjn hn.symm)]
      omega

theorem sum_range_eq_zero (n : Nat) (f : Nat → Nat) :
    ((List.range n).map f).sum = 0 ↔ ∀ i, i < n → f i = 0 := by
  induction n with
  | zero => simp
  | succ n ih =>
    rw [List.range_succ, List.map_append, List.sum_append]
    simp only [List.map_cons, List.map_nil, List.sum_cons, List.sum_nil, add_zero,
      Nat.add_eq_zero_iff, ih]
    constructor
    · rintro ⟨h1, h2⟩ i hi
      by_cases hin : i = n
      · subst hin; exact h2
      · exact h1 i (by omega)
    · intro h
      exact ⟨fun i hi => h i (by omega), h n (by omega)⟩

/-! ## The invariant of registries and channel maps -/

theorem View.removeCb_fields (v : View) (sp : Nat) (handler key : Val) :
    (v.removeCb sp handler key).closed = v.closed ∧
    (v.removeCb sp handler key).chans = v.chans ∧
    (v.removeCb sp handler key).cbs sp =
      (if v.closed sp then v.cbs sp else (v.cbs sp).eraseP (Entry.tagged handler key)) ∧
    (∀ x, x ≠ sp → (v.removeCb sp handler key).cbs x = v.cbs x) := by
  unfold View.removeCb
  by_cases h : v.closed sp = true
  · simp [h]
  · simp only [h, Bool.false_eq_true, if_false, upd_same, true_and]
    exact fun x hx => upd_of_ne _ _ hx

theorem View.addCb_fields (v : View) (sp : Nat) (handler key : Val) (callback : Func) :
    (v.addCb sp handler key callback).closed = v.closed ∧
    (v.addCb sp handler key callback).chans = v.chans ∧
    (v.addCb sp handler key callback).cbs sp =
      (if v.closed sp then v.cbs sp else v.cbs sp ++ [(handler, key, callback)]) ∧
    (∀ x, x ≠ sp → (v.addCb sp handler key callback).cbs x = v.cbs x) := by
  unfold View.addCb
  by_cases h : v.closed sp = true
  · simp [h]
  · simp only [h, Bool.false_eq_true, if_false, upd_same, true_and]
    exact fun x hx => upd_of_ne _ _ hx

theorem View.chanRemove_fields (v : View) (c : Nat) (key : KEY) (session : Nat) :
    (v.chanRemove c key session).closed = v.closed ∧
    (v.chanRemove c key session).cbs = (v.removeCb session (Val.channel c) key).cbs ∧
    (v.chanRemove c key session).chans c = keyDelete (v.chans c) key ∧
    (∀ x, x ≠ c → (v.chanRemove c key session).chans x = v.chans x) := by
  obtain ⟨h1, h2, _, _⟩ := View.removeCb_fields v session (Val.channel c) key
  unfold View.chanRemove
  simp only [h1, h2, upd_same, true_and]
  exact fun x hx => upd_of_ne _ _ hx

theorem View.chanRemove_nan (v : View) (c : Nat) (session : Nat) :
    v.chanRemove c Val.nan session = v := by
  have h1 : v.removeCb session (Val.channel c) Val.nan = v := by
    unfold View.removeCb
    split
    · rfl
    · rw [List.eraseP_of_forall_not (fun e _ => by simp [Entry.tagged_nan])]
      simp
  unfold View.chanRemove
  simp only [h1, keyDelete_nan, upd_self]

theorem View.chanRemove_inv_of_get (v : View) (c : Nat) (key : KEY) (session : Nat)
    (hinv : v.Inv) (hmem : keyGet (v.chans c) key = some session) :
    (v.chanRemove c key session).Inv := by
  obtain ⟨hone, htag, hnodup⟩ := hinv
  obtain ⟨f1, f2, f3, f4⟩ := View.chanRemove_fields v c key session
  obtain ⟨_, _, g3, g4⟩ := View.removeCb_fields v session (Val.channel c) key
  refine ⟨?_, ?_, ?_⟩
  · intro c1 k1 sp hopen
    rw [f1] at hopen
    have hbase := hone c1 k1 sp hopen
    rw [f2]
    by_cases hck : c1 = c ∧ k1 = key
    · obtain ⟨rfl, rfl⟩ := hck
      rw [f3, keyGet_keyDelete_same]
      simp only [reduceCtorEq, if_false]
      by_cases hsp : sp = session
      · subst hsp
        rw [g3, hopen]
        simp only [Bool.false_eq_true, if_false]
        rw [countP_eraseP_same, hbase, hmem]
        simp
      · rw [g4 sp hsp, hbase, hmem]
        simp only [Option.some.injEq]
        rw [if_neg (fun h => hsp h.symm)]
    · have hget : keyGet ((v.chanRemove c key session).chans c1) k1 = keyGet (v.chans c1) k1 := by
        by_cases hc : c1 = c
        · subst hc
          rw [f3, keyGet_keyDelete_other]
          exact fun hk => hck ⟨rfl, hk⟩
        · rw [f4 c1 hc]
      rw [hget, ← hbase]
      by_cases hsp : sp = session
      · subst hsp
        rw [g3, hopen]
        simp only [Bool.false_eq_true, if_false]
        apply countP_eraseP_other
        intro x hx
        apply Entry.tagged_other _ x hx
        rintro ⟨h1, h2⟩
        exact hck ⟨by injection h1, h2⟩
      · rw [g4 sp hsp]
  · intro sp e he c1 k1 hf
    rw [f2] at he
    by_cases hsp : sp = session
    · subst hsp
      rw [g3] at he
      split at he
      · exact htag sp e he c1 k1 hf
      · exact htag sp e (List.mem_of_mem_eraseP he) c1 k1 hf
    · rw [g4 sp hsp] at he
      exact htag sp e he c1 k1 hf
  · intro c1
    by_cases hc : c1 = c
    · subst hc
      rw [f3]
      exact keyDelete_pairwise _ _ (hnodup c1)
    · rw [f4 c1 hc]
      exact hnodup c1

theorem View.chanRemove_inv (v : View) (c : Nat) (key : KEY) (session : Nat) (hinv : v.Inv)
    (hmem : (key, session) ∈ v.chans c) : (v.chanRemove c key session).Inv := by
  by_cases hnan : key = Val.nan
  · subst hnan
    rw [View.chanRemove_nan]
    exact hinv
  · exact View.chanRemove_inv_of_get v c key session hinv
      (keyGet_of_mem_pairwise _ (key, session) hmem ((Val.eq_self key).mpr hnan) (hinv.2.2 c))

theorem View.Remove_inv (v : View) (c : Nat) (key : KEY) (hinv : v.Inv) : (v.Remove c key).Inv := by
  unfold View.Remove
  cases h : keyGet (v.chans c) key with
  | none => exact hinv
  | some session => exact View.chanRemove_inv_of_get v c key session hinv h

theorem View.Remove_fields (v : View) (c : Nat) (key : KEY) :
    (v.Remove c key).closed = v.closed ∧
    (v.Remove c key).chans c = keyDelete (v.chans c) key ∧
    (∀ x, x ≠ c → (v.Remove c key).chans x = v.chans x) ∧
    keyGet ((v.Remove c key).chans c) key = none := by
  unfold View.Remove
  cases h : keyGet (v.chans c) key with
  | none =>
    have hdel : keyDelete (v.chans c) key = v.chans c := by
      unfold keyDelete
      rw [List.filter_eq_self]
      intro e he
      unfold keyGet at h
      rw [Option.map_eq_none', List.find?_eq_none] at h
      simpa using h e he
    exact ⟨rfl, hdel.symm, fun _ _ => rfl, h⟩
  | some session =>
    obtain ⟨f1, _, f3, f4⟩ := View.chanRemove_fields v c key session
    refine ⟨f1, f3, f4, ?_⟩
    simp only [f3, keyGet_keyDelete_same]

theorem View.Put_fields (v : View) (c : Nat) (key : KEY) (session : Nat) :
    (v.Put c key session).closed = v.closed ∧
    (v.Put c key session).cbs =
      ((v.Remove c key).addCb session (Val.channel c) key (Func.channelRemove c key)).cbs ∧
    (v.Put c key session).chans c = keySet (keyDelete (v.chans c) key) key session ∧
    (∀ x, x ≠ c → (v.Put c key session).chans x = v.chans x) := by
  obtain ⟨r1, r2, r3, _⟩ := View.Remove_fields v c key
  obtain ⟨a1, a2, _, _⟩ := View.addCb_fields (v.Remove c key) session (Val.channel c) key
    (Func.channelRemove c key)
  unfold View.Put
  simp only [a1, a2, r1, r2, upd_same, true_and]
  exact fun x hx => (upd_of_ne _ _ hx).trans (r3 x hx)

theorem View.Put_inv (v : View) (c : Nat) (key : KEY) (session : Nat) (hinv : v.Inv) :
    (v.Put c key session).Inv := by
  obtain ⟨hone, htag, hnodup⟩ := View.Remove_inv v c key hinv
  obtain ⟨r1, r2, r3, r4⟩ := View.Remove_fields v c key
  obtain ⟨a1, a2, a3, a4⟩ := View.addCb_fields (v.Remove c key) session (Val.channel c) key
    (Func.channelRemove c key)
  obtain ⟨p1, p2, p3, p4⟩ := View.Put_fields v c key session
  refine ⟨?_, ?_, ?_⟩
  · intro c1 k1 sp hopen
    rw [p1] at hopen
    have hopen1 : (v.Remove c key).closed sp = false := by rw [r1]; exact hopen
    have hbase := hone c1 k1 sp hopen1
    rw [p2]
    by_cases hck : c1 = c ∧ k1 = key
    · obtain ⟨rfl, rfl⟩ := hck
      rw [r4] at hbase
      simp only [reduceCtorEq, if_false] at hbase
      by_cases hnan : k1 = Val.nan
      · subst hnan
        rw [keyGet_nan]
        simp only [reduceCtorEq, if_false, List.countP_eq_zero]
        intro e _
        rw [Entry.tagged_nan]
        decide
      · have hk : Val.eq k1 k1 = true := (Val.eq_self k1).mpr hnan
        rw [p3, keyGet_keySet_same _ _ _ hk]
        by_cases hsp : sp = session
        · subst hsp
          rw [a3, hopen1]
          simp only [Bool.false_eq_true, if_false, List.countP_append, hbase, zero_add, if_true]
          have ht : Entry.tagged (Val.channel c1) k1
              (Val.channel c1, k1, Func.channelRemove c1 k1) = true :=
            (Entry.tagged_iff _ _ _).mpr ⟨rfl, rfl, by simp, hnan⟩
          simp [ht]
        · rw [a4 sp hsp, hbase, if_neg (fun h => hsp (by injection h with h; exact h.symm))]
    · have hget : keyGet ((v.Put c key session).chans c1) k1 =
          keyGet ((v.Remove c key).chans c1) k1 := by
        by_cases hc : c1 = c
        · subst hc
          rw [p3, r2, keyGet_keySet_other]
          exact fun hk => hck ⟨rfl, hk⟩
        · rw [p4 c1 hc, r3 c1 hc]
      rw [hget, ← hbase]
      by_cases hsp : sp = session
      · subst hsp
        rw [a3, hopen1]
        simp only [Bool.false_eq_true, if_false, List.countP_append]
        have : List.countP (Entry.tagged (Val.channel c1) k1)
            [(Val.channel c, key, Func.channelRemove c key)] = 0 := by
          rw [List.countP_eq_zero]
          intro e he
          rw [List.mem_singleton] at he
          subst he
          rw [Entry.tagged_iff]
          rintro ⟨h1, h2, _⟩
          exact hck ⟨by injection h1 with h1; exact h1.symm, h2.symm⟩
        rw [this, add_zero]
      · rw [a4 sp hsp]
  · intro sp e he c1 k1 hf
    rw [p2] at he
    by_cases hsp : sp = session
    · subst hsp
      rw [a3] at he
      split at he
      · exact htag sp e he c1 k1 hf
      · rcases List.mem_append.mp he with h | h
        · exact htag sp e h c1 k1 hf
        · rw [List.mem_singleton] at h
          subst h
          simp only [Func.channelRemove.injEq] at hf
          exact ⟨by rw [hf.1], hf.2⟩
    · rw [a4 sp hsp] at he
      exact htag sp e he c1 k1 hf
  · intro c1
    by_cases hc : c1 = c
    · subst hc
      rw [p3]
      exact keySet_pairwise _ _ _ (keyDelete_pairwise _ _ (hinv.2.2 c1))
    · rw [p4 c1 hc]
      exact hinv.2.2 c1

theorem View.removeEntries_inv (c : Nat) (es : List (KEY × Nat)) : ∀ (v : View), v.Inv →
    es.Sublist (v.chans c) → (View.removeEntries c es v).Inv ∧
      (View.removeEntries c es v).closed = v.closed := by
  induction es with
  | nil => intro v hinv _; exact ⟨hinv, rfl⟩
  | cons e es ih =>
    intro v hinv hes
    have hpw : (e :: es).Pairwise (fun a b => Val.eq a.1 b.1 = false) :=
      List.Pairwise.sublist hes (hinv.2.2 c)
    have hmem : (e.1, e.2) ∈ v.chans c := hes.subset (List.mem_cons_self _ _)
    obtain ⟨f1, _, f3, _⟩ := View.chanRemove_fields v c e.1 e.2
    have hrest : es.Sublist ((v.chanRemove c e.1 e.2).chans c) := by
      rw [f3]
      have hsub : (keyDelete es e.1).Sublist (keyDelete (v.chans c) e.1) :=
        keyDelete_sublist e.1 ((List.sublist_cons_self e es).trans hes)
      have hself : keyDelete es e.1 = es := by
        unfold keyDelete
        rw [List.filter_eq_self]
        intro x hx
        have := (List.pairwise_cons.mp hpw).1 x hx
        rw [Val.eq_comm] at this
        simp [this]
      rw [hself] at hsub
      exact hsub
    obtain ⟨i1, i3⟩ := ih (v.chanRemove c e.1 e.2)
      (View.chanRemove_inv v c e.1 e.2 hinv hmem) hrest
    exact ⟨i1, i3.trans f1⟩

theorem View.callEntry_inv (v : View) (e : Entry) (hinv : v.Inv) :
    (v.callEntry e).Inv ∧ (v.callEntry e).closed = v.closed := by
  unfold View.callEntry
  split
  · exact ⟨View.Remove_inv v _ _ hinv, (View.Remove_fields v _ _).1⟩
  · exact ⟨hinv, rfl⟩

theorem View.runEntries_inv (es : List Entry) : ∀ (v : View), v.Inv →
    (v.runEntries es).Inv ∧ (v.runEntries es).closed = v.closed := by
  induction es with
  | nil => intro v hinv; exact ⟨hinv, rfl⟩
  | cons e es ih =>
    intro v hinv
    obtain ⟨h1, h2⟩ := View.callEntry_inv v e hinv
    obtain ⟨h3, h4⟩ := ih (v.callEntry e) h1
    exact ⟨h3, h4.trans h2⟩

theorem View.sessionClose_inv (v : View) (sp : Nat) (hinv : v.Inv) : (v.sessionClose sp).Inv := by
  unfold View.sessionClose
  split
  · exact hinv
  · rename_i hsp
    obtain ⟨hone, htag, hnodup⟩ := hinv
    refine ⟨?_, htag, hnodup⟩
    intro c key x hopen
    have hx : x ≠ sp := by
      rintro rfl
      simp at hopen
    simp only [upd_of_ne _ _ hx] at hopen
    exact hone c key x hopen

theorem View.callEntry_chans (v : View) (e : Entry) (c : Nat) :
    ((v.callEntry e).chans c).Sublist (v.chans c) := by
  unfold View.callEntry
  split
  · rename_i c1 k1 _
    obtain ⟨_, r2, r3, _⟩ := View.Remove_fields v c1 k1
    by_cases hc : c = c1
    · subst hc
      rw [r2]
      exact List.filter_sublist _
    · rw [r3 c hc]
  · exact List.Sublist.refl _

theorem View.runEntries_chans (es : List Entry) : ∀ (v : View) (c : Nat),
    ((v.runEntries es).chans c).Sublist (v.chans c) := by
  induction es with
  | nil => intro v c; exact List.Sublist.refl _
  | cons e es ih =>
    intro v c
    exact (ih (v.callEntry e) c).trans (View.callEntry_chans v e c)

theorem View.runEntries_append (v : View) (es : List Entry) (e : Entry) :
    v.runEntries (es ++ [e]) = (v.runEntries es).callEntry e := by
  simp [View.runEntries, List.foldl_append]

theorem View.callEntry_keyGet (v : View) (e : Entry) (c : Nat) (key : KEY)
    (h : e.2.2 ≠ Func.channelRemove c key) :
    keyGet ((v.callEntry e).chans c) key = keyGet (v.chans c) key := by
  unfold View.callEntry
  split
  · rename_i c1 k1 hf
    obtain ⟨_, r2, r3, _⟩ := View.Remove_fields v c1 k1
    by_cases hc : c = c1
    · subst hc
      rw [r2, keyGet_keyDelete_other]
      rintro rfl
      exact h hf
    · rw [r3 c hc]
  · rfl

theorem View.runEntries_keyGet (es : List Entry) : ∀ (v : View) (c : Nat) (key : KEY),
    (∀ e ∈ es, e.2.2 ≠ Func.channelRemove c key) →
    keyGet ((v.runEntries es).chans c) key = keyGet (v.chans c) key := by
  induction es with
  | nil => intro v c key _; rfl
  | cons e es ih =>
    intro v c key h
    have h1 := ih (v.callEntry e) c key (fun x hx => h x (List.mem_cons_of_mem _ hx))
    exact h1.trans (View.callEntry_keyGet v e c key (h e (List.mem_cons_self _ _)))

theorem View.callEntry_chans_same (v : View) (e : Entry) (c : Nat)
    (h : ∀ k1, k1 ≠ Val.nan → e.2.2 ≠ Func.channelRemove c k1) :
    (v.callEntry e).chans c = v.chans c := by
  unfold View.callEntry
  split
  · rename_i c1 k1 hf
    obtain ⟨_, _, r3, _⟩ := View.Remove_fields v c1 k1
    by_cases hc : c = c1
    · subst hc
      by_cases hk : k1 = Val.nan
      · subst hk
        unfold View.Remove
        rw [keyGet_nan]
      · exact absurd hf (h k1 hk)
    · exact r3 c hc
  · rfl

theorem View.runEntries_chans_same (es : List Entry) : ∀ (v : View) (c : Nat),
    (∀ e ∈ es, ∀ k1, k1 ≠ Val.nan → e.2.2 ≠ Func.channelRemove c k1) →
    (v.runEntries es).chans c = v.chans c := by
  induction es with
  | nil => intro v c _; rfl
  | cons e es ih =>
    intro v c h
    have h1 := ih (v.callEntry e) c (fun x hx => h x (List.mem_cons_of_mem _ hx))
    exact h1.trans (View.callEntry_chans_same v e c (h e (List.mem_cons_self _ _)))

/-- In a view with the invariant, an open session that a channel does not hold under a
key has no closure that removes this key from the channel. -/
theorem View.no_closure_of_not_member (v : View) (hinv : v.Inv) (c : Nat) (key : KEY)
    (hkey : key ≠ Val.nan) (sp : Nat) (hopen : v.closed sp = false)
    (hnot : keyGet (v.chans c) key ≠ some sp) :
    ∀ e ∈ v.cbs sp, e.2.2 ≠ Func.channelRemove c key := by
  intro e he hf
  obtain ⟨h1, h2⟩ := hinv.2.1 sp e he c key hf
  have hcount := hinv.1 c key sp hopen
  rw [if_neg hnot, List.countP_eq_zero] at hcount
  exact hcount e he ((Entry.tagged_iff _ _ _).mpr ⟨h1, h2, by simp, hkey⟩)

/-- The closure `func() { channel.Remove(key) }` of a NaN key changes nothing. -/
theorem View.Remove_nan (v : View) (c : Nat) : v.Remove c Val.nan = v := by
  unfold View.Remove
  rw [keyGet_nan]

/-! ## The invariant holds in the reachable states -/

theorem World.pendingClosed_of_frame {w w1 : World} (hframe : World.Frame w w1)
    (h : World.pendingClosed w) : World.pendingClosed w1 := by
  intro sp hsp
  rw [hframe.2.2.2.1] at hsp
  rw [(hframe.2.2.2.2.1 sp).2.2.2.2.1]
  exact h sp hsp

theorem World.Inv_of_view {w w1 : World} (hinv : World.Inv w) (hwf1 : World.WF w1)
    (hview : w1.view.Inv) (hframe : World.Frame w w1) : World.Inv w1 :=
  ⟨hwf1, hview, World.pendingClosed_of_frame hframe hinv.2.2⟩

theorem Channel.Put_keeps_inv {w w1 : World} (c : Nat) (key : KEY) (session : Nat)
    (hinv : World.Inv w) (h : Channel.Put w c key session = some w1) : World.Inv w1 := by
  obtain ⟨w2, h2, hwf2, hview2, hframe2, _⟩ := Channel.Put_view w c key session hinv.1
  rw [h] at h2
  cases h2
  exact World.Inv_of_view hinv hwf2 (hview2 ▸ View.Put_inv _ c key session hinv.2.1) hframe2

theorem Channel.Remove_keeps_inv {w w1 : World} {b : Bool} (c : Nat) (key : KEY)
    (hinv : World.Inv w) (h : Channel.Remove w c key = some (w1, b)) : World.Inv w1 := by
  obtain ⟨w2, b2, h2, hwf2, hview2, hframe2, _⟩ := Channel.Remove_view w c key hinv.1
  rw [h] at h2
  cases h2
  exact World.Inv_of_view hinv hwf2 (hview2 ▸ View.Remove_inv _ c key hinv.2.1) hframe2

theorem Channel.FetchAndRemove_keeps_inv {w w1 : World} (c : Nat)
    (hinv : World.Inv w) (h : Channel.FetchAndRemove w c = some w1) : World.Inv w1 := by
  obtain ⟨w2, h2, hwf2, hview2, hframe2, _⟩ := Channel.FetchAndRemove_view w c hinv.1
  rw [h] at h2
  cases h2
  exact World.Inv_of_view hinv hwf2
    (hview2 ▸ (View.removeEntries_inv c _ _ hinv.2.1 (List.Sublist.refl _)).1) hframe2

theorem Channel.Close_keeps_inv {w w1 : World} (c : Nat)
    (hinv : World.Inv w) (h : Channel.Close w c = some w1) : World.Inv w1 := by
  obtain ⟨w2, h2, hwf2, hview2, hframe2, _⟩ := Channel.Close_chan_view w c hinv.1
  rw [h] at h2
  cases h2
  exact World.Inv_of_view hinv hwf2
    (hview2 ▸ (View.removeEntries_inv c _ _ hinv.2.1 (List.Sublist.refl _)).1) hframe2

theorem Session.Close_session_keeps_inv (w : World) (sp : Nat) (hinv : World.Inv w) :
    World.Inv (Session.Close w sp).1 := by
  obtain ⟨hwf1, hview1, _, _, _, hother⟩ := Session.Close_view w sp hinv.1
  refine ⟨hwf1, hview1 ▸ View.sessionClose_inv _ sp hinv.2.1, ?_⟩
  by_cases hopen : (w.sessions sp).closeFlag = 0
  · intro x hx
    rw [Session.Close_open w sp hopen] at hx ⊢
    by_cases hxs : x = sp
    · subst hxs
      simp only [upd_same]
      exact (Session.closedRecord_fields _).2.2.2.2.2
    · simp only [upd_of_ne _ _ hxs]
      simp only [List.mem_append, List.mem_singleton, Task.closeTask.injEq, hxs, or_false] at hx
      exact hinv.2.2 x hx
  · rw [Session.Close_of_closed w sp hopen]
    exact hinv.2.2

theorem Manager.delSession_frame (w : World) (m sp : Nat) :
    (Manager.delSession w m sp).sessions = w.sessions ∧
    (Manager.delSession w m sp).channels = w.channels ∧
    (Manager.delSession w m sp).tasks = w.tasks ∧
    (Manager.delSession w m sp).nextSession = w.nextSession ∧
    (Manager.delSession w m sp).globalSessionId = w.globalSessionId := by
  simp only [Manager.delSession]
  split <;> exact ⟨rfl, rfl, rfl, rfl, rfl⟩

theorem World.Inv_of_same {w w1 : World} (hinv : World.Inv w) (h1 : w1.sessions = w.sessions)
    (h2 : w1.channels = w.channels) (h3 : ∀ t, t ∈ w1.tasks → t ∈ w.tasks) : World.Inv w1 := by
  obtain ⟨hwf, hview, hpend⟩ := hinv
  have hv : w1.view = w.view := by
    simp only [World.view, Session.IsClosed, h1, h2]
  refine ⟨?_, hv ▸ hview, ?_⟩
  · intro sp; rw [h1]; exact hwf sp
  · intro sp hsp; rw [h1]; exact hpend sp (h3 _ hsp)

theorem World.runCloseTask_keeps_inv {w w1 : World} (sp : Nat) (hinv : World.Inv w)
    (h : World.runCloseTask w sp = some w1) : World.Inv w1 := by
  unfold World.runCloseTask at h
  by_cases hmem : Task.closeTask sp ∈ w.tasks
  · rw [if_pos hmem] at h
    have hclosed := hinv.2.2 sp hmem
    have hinv0 : World.Inv { w with tasks := w.tasks.erase (Task.closeTask sp) } :=
      World.Inv_of_same hinv rfl rfl (fun t ht => List.mem_of_mem_erase ht)
    obtain ⟨w2, w3, _, h3, hwf2, hview2, hframe2, _, hw3⟩ :=
      Session.closeTask_spec _ sp hinv0.1 hclosed
    rw [h] at h3
    cases h3
    have hinv2 : World.Inv w2 := World.Inv_of_view hinv0 hwf2
      (hview2 ▸ (View.runEntries_inv _ _ hinv0.2.1).1) hframe2
    rw [hw3]
    split
    · rename_i m _
      obtain ⟨d1, d2, d3, _⟩ := Manager.delSession_frame w2 m sp
      exact World.Inv_of_same hinv2 d1 d2 (fun t ht => d3 ▸ ht)
    · exact hinv2
  · rw [if_neg hmem] at h
    cases h

theorem ChannelReach.channel_inv {w : World} (h : ChannelReach w) : World.Inv w := by
  induction h with
  | start w hwf hpend hempty hcbs =>
    refine ⟨hwf, ⟨?_, ?_, ?_⟩, hpend⟩
    · intro c key sp _
      have hget : keyGet (w.view.chans c) key = none := by
        show keyGet (w.channels c).sessions key = none
        rw [hempty c]; rfl
      rw [hget]
      simp only [reduceCtorEq, if_false, List.countP_eq_zero]
      intro e he ht
      exact (hcbs sp e he).1 c ((Entry.tagged_iff _ _ _).mp ht).1
    · intro sp e he c key hf
      exact absurd hf ((hcbs sp e he).2 c key)
    · intro c
      show (w.channels c).sessions.Pairwise (fun a b => Val.eq a.1 b.1 = false)
      rw [hempty c]
      exact List.Pairwise.nil
  | put c key session _ hput ih => exact Channel.Put_keeps_inv c key session ih hput
  | remove c key _ hrem ih => exact Channel.Remove_keeps_inv c key ih hrem
  | fetchAndRemove c _ hf ih => exact Channel.FetchAndRemove_keeps_inv c ih hf
  | close c _ hc ih => exact Channel.Close_keeps_inv c ih hc
  | sessionClose sp _ ih => exact Session.Close_session_keeps_inv _ sp ih
  | closeTask sp _ ht ih => exact World.runCloseTask_keeps_inv sp ih ht

theorem World.Clean_init : World.Clean World.init :=
  ⟨World.WF_init, fun _ h => by simp [World.init] at h, fun _ => rfl, fun _ => rfl⟩

theorem newSession_frame (w : World) (manager : Option Nat) (codec : Codec)
    (sendChanSize : Int) :
    (newSession w manager codec sendChanSize).1.channels = w.channels ∧
    (newSession w manager codec sendChanSize).1.managers = w.managers ∧
    (newSession w manager codec sendChanSize).1.trace = w.trace ∧
    (newSession w manager codec sendChanSize).1.nextSession = w.nextSession + 1 ∧
    (newSession w manager codec sendChanSize).1.globalSessionId =
      (w.globalSessionId + 1) % 2 ^ 64 ∧
    (∀ sp, Task.closeTask sp ∈ (newSession w manager codec sendChanSize).1.tasks ↔
      Task.closeTask sp ∈ w.tasks) := by
  by_cases h : sendChanSize > 0
  · simp [newSession, h]
  · simp [newSession, h]

theorem newSession_Clean (w : World) (manager : Option Nat) (codec : Codec)
    (sendChanSize : Int) (h : World.Clean w) :
    World.Clean (newSession w manager codec sendChanSize).1 := by
  obtain ⟨hwf, htasks, hch, hcbs⟩ := h
  obtain ⟨f1, _, _, _, _, f6⟩ := newSession_frame w manager codec sendChanSize
  obtain ⟨_, s2, _, s4, s5, _⟩ := newSession_sessions w manager codec sendChanSize
  refine ⟨newSession_WF w manager codec sendChanSize hwf, fun sp hsp => htasks sp ((f6 sp).mp hsp),
    fun c => by rw [f1]; exact hch c, fun sp => ?_⟩
  by_cases hsp : sp = w.nextSession
  · subst hsp
    exact (Session.wf_of_empty s4 s5).2
  · rw [s2 sp hsp]
    exact hcbs sp

theorem ChannelReach.of_clean {w : World} (h : World.Clean w) : ChannelReach w := by
  obtain ⟨hwf, htasks, hch, hcbs⟩ := h
  refine ChannelReach.start w hwf (fun sp hsp => absurd hsp (htasks sp)) hch (fun sp e he => ?_)
  rw [hcbs sp] at he
  simp at he

theorem ChannelReach.oneSession : ChannelReach (NewSession World.init Codec.plain 0).1 :=
  ChannelReach.of_clean (newSession_Clean _ _ _ _ World.Clean_init)

theorem ChannelReach.twoSessions : ChannelReach twoSessionWorld :=
  ChannelReach.of_clean (newSession_Clean _ _ _ _ (newSession_Clean _ _ _ _ World.Clean_init))

theorem ChannelReach.closedSession : ChannelReach closedSessionWorld :=
  ChannelReach.sessionClose 0 ChannelReach.oneSession

theorem ChannelReach.onePut : ChannelReach onePutWorld :=
  ChannelReach.put 7 (Val.data 1) 0 ChannelReach.twoSessions
    (rfl : Channel.Put twoSessionWorld 7 (Val.data 1) 0 = some onePutWorld)

theorem ChannelReach.nanPut : ChannelReach nanPutWorld :=
  ChannelReach.put 7 Val.nan 0
    (ChannelReach.put 7 Val.nan 0 ChannelReach.twoSessions
      (rfl : Channel.Put twoSessionWorld 7 Val.nan 0 =
        some ((Channel.Put twoSessionWorld 7 Val.nan 0).getD twoSessionWorld)))
    (rfl : Channel.Put ((Channel.Put twoSessionWorld 7 Val.nan 0).getD twoSessionWorld) 7
      Val.nan 0 = some nanPutWorld)

theorem keyFilter_length_le (key : KEY) (hkey : key ≠ Val.nan) (l : List (KEY × Nat))
    (h : l.Pairwise (fun a b => Val.eq a.1 b.1 = false)) :
    (l.filter (fun e => e.1 = key)).length ≤ 1 := by
  induction l with
  | nil => simp
  | cons x l ih =>
    rw [List.pairwise_cons] at h
    by_cases hx : x.1 = key
    · rw [List.filter_cons_of_pos (by simpa using hx)]
      have hnil : l.filter (fun e => e.1 = key) = [] := by
        rw [List.filter_eq_nil_iff]
        intro e he
        have h1 := h.1 e he
        rw [Val.eq_false_iff] at h1
        simp only [decide_eq_true_eq]
        intro hek
        exact hkey (hx ▸ h1 (hx.trans hek.symm))
      rw [hnil]
      rfl
    · rw [List.filter_cons_of_neg (by simpa using hx)]
      exact ih h.2

/-! ## Close followed by its goroutine -/

/-- On a well-formed state, `Close` of an open session followed by the goroutine it
started: the goroutine runs, and the view afterwards is the view before with the session
closed and the entries of its registry invoked in order. -/
theorem Session.close_then_task (w : World) (sp : Nat) (hwf : World.WF w)
    (hopen : (w.sessions sp).closeFlag = 0) :
    ∃ w2, World.runCloseTask (Session.Close w sp).1 sp = some w2 ∧ World.WF w2 ∧
      w2.view = (w.view.sessionClose sp).runEntries (w.sessions sp).callbacks ∧
      Session.IsClosed w2 sp = true := by
  obtain ⟨hwf1, hview1, _, _, hcbs1, _⟩ := Session.Close_view w sp hwf
  have hmem : Task.closeTask sp ∈ (Session.Close w sp).1.tasks := by
    rw [Session.Close_open w sp hopen]; simp
  obtain ⟨w1, hw1⟩ : ∃ x : World, x = { (Session.Close w sp).1 with
      tasks := (Session.Close w sp).1.tasks.erase (Task.closeTask sp) } := ⟨_, rfl⟩
  have hs1 : w1.sessions = (Session.Close w sp).1.sessions := by rw [hw1]
  have hwfa : World.WF w1 := by intro x; rw [hs1]; exact hwf1 x
  have hviewa : w1.view = w.view.sessionClose sp := by rw [← hview1, hw1]; rfl
  have hclosed : (w1.sessions sp).closeFlag = 1 := by
    rw [hs1]; exact Session.Close_closeFlag w sp hopen
  have hcbsa : (w1.sessions sp).callbacks = (w.sessions sp).callbacks := by
    rw [hs1]; exact hcbs1 sp
  obtain ⟨w2, w3, _, h3, hwf2, hview2, hframe2, _, hw3⟩ :=
    Session.closeTask_spec w1 sp hwfa hclosed
  have hsame : w3.sessions = w2.sessions ∧ w3.channels = w2.channels := by
    rw [hw3]
    split
    · rename_i m _
      exact ⟨(Manager.delSession_frame w2 m sp).1, (Manager.delSession_frame w2 m sp).2.1⟩
    · exact ⟨rfl, rfl⟩
  have hv3 : w3.view = w2.view := by
    simp only [World.view, Session.IsClosed, hsame.1, hsame.2]
  refine ⟨w3, ?_, ?_, ?_, ?_⟩
  · unfold World.runCloseTask
    rw [if_pos hmem, ← hw1]
    exact h3
  · intro x; rw [hsame.1]; exact hwf2 x
  · rw [hv3, hview2, hviewa, hcbsa]
  · have h2 : w2.sessions sp = w1.sessions sp := hframe2.2.2.2.2.2 sp hclosed
    simp [Session.IsClosed, hsame.1, h2, hclosed]

/-! ## The invariant of the manager -/

theorem World.Quiet_refl (w : World) : World.Quiet w w :=
  ⟨rfl, rfl, fun _ => rfl, fun _ _ => rfl, fun _ => rfl, fun _ _ => Iff.rfl, fun _ _ => Iff.rfl⟩

theorem World.Quiet_trans {w w1 w2 : World} (h1 : World.Quiet w w1) (h2 : World.Quiet w1 w2) :
    World.Quiet w w2 := by
  obtain ⟨n1, g1, i1, s1, d1, p1, e1⟩ := h1
  obtain ⟨n2, g2, i2, s2, d2, p2, e2⟩ := h2
  exact ⟨n2.trans n1, g2.trans g1, fun p => (i2 p).trans (i1 p),
    fun m i => (s2 m i).trans (s1 m i), fun m => (d2 m).trans (d1 m),
    fun m p => (p2 m p).trans (p1 m p), fun m p => (e2 m p).trans (e1 m p)⟩

theorem Manager.total_congr {w w1 : World} (m : Nat)
    (h : ∀ i, ((w1.managers m).sessionMaps i).sessions = ((w.managers m).sessionMaps i).sessions) :
    Manager.total w1 m = Manager.total w m := by
  unfold Manager.total
  congr 1
  apply List.map_congr_left
  intro i _
  rw [h i]

theorem Manager.GetSession_congr {w w1 : World} (m id : Nat)
    (h : ∀ i, ((w1.managers m).sessionMaps i).sessions = ((w.managers m).sessionMaps i).sessions) :
    Manager.GetSession w1 m id = Manager.GetSession w m id := by
  unfold Manager.GetSession
  rw [h]

theorem World.ManagerInv_of_quiet {w w1 : World} (hinv : World.ManagerInv w)
    (hq : World.Quiet w w1) : World.ManagerInv w1 := by
  obtain ⟨a1, a2, a3, a4, a5, a6, a7, a8⟩ := hinv
  obtain ⟨qn, qg, qi, qs, qd, qp, qe⟩ := hq
  refine ⟨by rw [qn, qg]; exact a1, by rw [qn]; exact a2, ?_, ?_, ?_, ?_, ?_, ?_⟩
  · intro p hp
    rw [qn] at hp
    rw [qi p]
    exact a3 p hp
  · intro m i e he
    rw [qs m i] at he
    rw [qn]
    exact a4 m i e he
  · intro m i
    rw [qs m i]
    exact a5 m i
  · intro m
    rw [qd m, Manager.total_congr m (qs m)]
    exact a6 m
  · intro m p
    rw [Manager.GetSession_congr m _ (qs m), a7 m p]
    unfold Manager.registered
    rw [qp m p, qe m p]
  · intro m p h
    rw [qn]
    rw [qp m p, qe m p] at h
    exact a8 m p h

theorem Session.closeEvents_mem (s : Session) (sp : Nat) (e : Event)
    (h : e ∈ Session.closeEvents s sp) : e = Event.clearSendChan sp ∨ e = Event.codecClose sp := by
  unfold Session.closeEvents at h
  split at h <;> simp at h <;> tauto

theorem Session.Close_quiet (w : World) (sp : Nat) : World.Quiet w (Session.Close w sp).1 := by
  by_cases hopen : (w.sessions sp).closeFlag = 0
  · rw [Session.Close_open w sp hopen]
    have hev : ∀ e, (∀ x, e ≠ Event.clearSendChan x) → (∀ x, e ≠ Event.codecClose x) →
        (e ∈ w.trace ++ Session.closeEvents (w.sessions sp) sp ↔ e ∈ w.trace) := by
      intro e h1 h2
      rw [List.mem_append]
      constructor
      · rintro (h | h)
        · exact h
        · rcases Session.closeEvents_mem _ _ _ h with h | h
          · exact absurd h (h1 sp)
          · exact absurd h (h2 sp)
      · exact Or.inl
    refine ⟨rfl, rfl, fun p => ?_, fun _ _ => rfl, fun _ => rfl,
      fun m p => hev _ (fun _ => by simp) (fun _ => by simp),
      fun m p => hev _ (fun _ => by simp) (fun _ => by simp)⟩
    by_cases hp : p = sp
    · subst hp
      simp only [upd_same]
      exact (Session.closedRecord_fields _).2.2.2.1
    · simp only [upd_of_ne _ _ hp]
  · rw [Session.Close_of_closed w sp hopen]
    exact World.Quiet_refl w

theorem World.Quiet_of_frame {w w1 : World} (hframe : World.Frame w w1) (l : List Event)
    (htrace : w1.trace = w.trace ++ l)
    (hl : ∀ e ∈ l, ∀ m p, e ≠ Event.putSession m p ∧ e ≠ Event.delSession m p) :
    World.Quiet w w1 := by
  obtain ⟨f1, f2, f3, _, f5, _⟩ := hframe
  have hev : ∀ e, (∀ x ∈ l, x ≠ e) → (e ∈ w1.trace ↔ e ∈ w.trace) := by
    intro e he
    rw [htrace, List.mem_append]
    constructor
    · rintro (h | h)
      · exact h
      · exact absurd rfl (he e h)
    · exact Or.inl
  refine ⟨f2, f3, fun p => (f5 p).1, fun m i => by rw [f1], fun m => by rw [f1],
    fun m p => hev _ (fun x hx => (hl x hx m p).1), fun m p => hev _ (fun x hx => (hl x hx m p).2)⟩

theorem Session.Close_taskInv (w : World) (sp : Nat) (h : World.TaskInv w)
    (hsp : sp < w.nextSession) : World.TaskInv (Session.Close w sp).1 := by
  obtain ⟨hwf, hpend⟩ := h
  refine ⟨(Session.Close_view w sp hwf).1, ?_⟩
  by_cases hopen : (w.sessions sp).closeFlag = 0
  · intro x hx
    rw [Session.Close_open w sp hopen] at hx ⊢
    by_cases hxs : x = sp
    · subst hxs
      simp only [upd_same]
      exact ⟨(Session.closedRecord_fields _).2.2.2.2.2, hsp⟩
    · simp only [upd_of_ne _ _ hxs]
      simp only [List.mem_append, List.mem_singleton, Task.closeTask.injEq, hxs, or_false] at hx
      exact hpend x hx
  · rw [Session.Close_of_closed w sp hopen]
    exact hpend

theorem Session.closeAll_facts (es : List (Nat × Nat)) : ∀ (w : World), World.TaskInv w →
    (∀ e ∈ es, e.2 < w.nextSession) →
    World.Quiet w (es.foldl (fun acc e => (Session.Close acc e.2).1) w) ∧
    World.TaskInv (es.foldl (fun acc e => (Session.Close acc e.2).1) w) ∧
    (es.foldl (fun acc e => (Session.Close acc e.2).1) w).managers = w.managers := by
  induction es with
  | nil => intro w ht _; exact ⟨World.Quiet_refl w, ht, rfl⟩
  | cons e es ih =>
    intro w ht hes
    have hq := Session.Close_quiet w e.2
    have ht1 := Session.Close_taskInv w e.2 ht (hes e (List.mem_cons_self _ _))
    obtain ⟨q2, t2, m2⟩ := ih (Session.Close w e.2).1 ht1
      (fun x hx => by rw [hq.1]; exact hes x (List.mem_cons_of_mem _ hx))
    refine ⟨World.Quiet_trans hq q2, t2, ?_⟩
    rw [List.foldl_cons, m2]
    exact (Session.Close_view w e.2 ht.1).2.2.2.1

theorem Manager.disposeShard_facts (m : Nat) (w : World) (i : Nat) (hinv : World.ManagerInv w)
    (ht : World.TaskInv w) :
    World.Quiet w (Manager.disposeShard m w i) ∧ World.TaskInv (Manager.disposeShard m w i) ∧
    (∀ m1, m1 ≠ m → (Manager.disposeShard m w i).managers m1 = w.managers m1) ∧
    (∀ j, (((Manager.disposeShard m w i).managers m).sessionMaps j).disposed =
      (if j = i then true else ((w.managers m).sessionMaps j).disposed)) ∧
    ((Manager.disposeShard m w i).managers m).disposeOnce = (w.managers m).disposeOnce := by
  obtain ⟨w1, hw1⟩ : ∃ x : World, x = Manager.markDisposed w m i := ⟨_, rfl⟩
  have hstep : Manager.disposeShard m w i =
      (((w.managers m).sessionMaps i).sessions.foldl (fun acc e => (Session.Close acc e.2).1) w1) := by
    rw [hw1]; rfl
  unfold Manager.markDisposed at hw1
  have hmaps : ∀ j, ((w1.managers m).sessionMaps j).sessions =
      ((w.managers m).sessionMaps j).sessions := by
    intro j
    rw [hw1]
    simp only [upd_same]
    by_cases hj : j = i
    · subst hj; simp
    · simp [upd_of_ne _ _ hj]
  have hq1 : World.Quiet w w1 := by
    refine ⟨by rw [hw1], by rw [hw1], fun p => by rw [hw1], fun m1 j => ?_, fun m1 => ?_,
      fun m1 p => by rw [hw1], fun m1 p => by rw [hw1]⟩
    · by_cases hm : m1 = m
      · subst hm; exact hmaps j
      · rw [hw1]; simp [upd_of_ne _ _ hm]
    · by_cases hm : m1 = m
      · subst hm; rw [hw1]; simp
      · rw [hw1]; simp [upd_of_ne _ _ hm]
  have ht1 : World.TaskInv w1 := by
    obtain ⟨hwf, hpend⟩ := ht
    rw [hw1]
    exact ⟨hwf, hpend⟩
  have halloc : ∀ e ∈ ((w.managers m).sessionMaps i).sessions, e.2 < w1.nextSession := by
    intro e he
    rw [hq1.1]
    exact (hinv.2.2.2.1 m i e he).1
  obtain ⟨q2, t2, m2⟩ := Session.closeAll_facts _ w1 ht1 halloc
  rw [hstep]
  refine ⟨World.Quiet_trans hq1 q2, t2, ?_, ?_, ?_⟩
  · intro m1 hm
    rw [m2, hw1]
    simp [upd_of_ne _ _ hm]
  · intro j
    rw [m2, hw1]
    simp only [upd_same]
    by_cases hj : j = i
    · subst hj; simp
    · simp [upd_of_ne _ _ hj, hj]
  · rw [m2, hw1]
    simp

theorem Manager.disposeShards_facts (m : Nat) (l : List Nat) : ∀ (w : World),
    World.ManagerInv w → World.TaskInv w →
    World.Quiet w (l.foldl (Manager.disposeShard m) w) ∧
    World.TaskInv (l.foldl (Manager.disposeShard m) w) ∧
    (∀ m1, m1 ≠ m → (l.foldl (Manager.disposeShard m) w).managers m1 = w.managers m1) ∧
    (∀ j, (((l.foldl (Manager.disposeShard m) w).managers m).sessionMaps j).disposed =
      (if j ∈ l then true else ((w.managers m).sessionMaps j).disposed)) ∧
    ((l.foldl (Manager.disposeShard m) w).managers m).disposeOnce =
      (w.managers m).disposeOnce := by
  induction l with
  | nil => intro w _ ht; exact ⟨World.Quiet_refl w, ht, fun _ _ => rfl, fun _ => by simp, rfl⟩
  | cons i l ih =>
    intro w hinv ht
    obtain ⟨q1, t1, o1, d1, e1⟩ := Manager.disposeShard_facts m w i hinv ht
    obtain ⟨q2, t2, o2, d2, e2⟩ := ih _ (World.ManagerInv_of_quiet hinv q1) t1
    refine ⟨World.Quiet_trans q1 q2, t2, fun m1 hm => (o2 m1 hm).trans (o1 m1 hm), ?_,
      e2.trans e1⟩
    intro j
    rw [List.foldl_cons, d2 j, d1 j]
    by_cases hj : j = i
    · subst hj; simp
    · by_cases hjl : j ∈ l
      · simp [hjl]
      · simp [hj, hjl]

theorem Manager.Dispose_facts (w : World) (m : Nat) (hinv : World.ManagerInv w)
    (ht : World.TaskInv w) :
    World.Quiet w (Manager.Dispose w m) ∧ World.TaskInv (Manager.Dispose w m) ∧
    ((w.managers m).disposeOnce = false →
      ∀ j, j < sessionMapNum → (((Manager.Dispose w m).managers m).sessionMaps j).disposed = true) := by
  unfold Manager.Dispose
  by_cases honce : (w.managers m).disposeOnce = true
  · simp only [honce, if_true]
    exact ⟨World.Quiet_refl w, ht, fun h => by simp [honce] at h⟩
  · simp only [honce, Bool.false_eq_true, if_false]
    obtain ⟨w1, hw1⟩ : ∃ x : World, x = Manager.markOnce w m := ⟨_, rfl⟩
    rw [← hw1]
    unfold Manager.markOnce at hw1
    have hq1 : World.Quiet w w1 := by
      refine ⟨by rw [hw1], by rw [hw1], fun p => by rw [hw1], fun m1 j => ?_, fun m1 => ?_,
        fun m1 p => by rw [hw1], fun m1 p => by rw [hw1]⟩
      · by_cases hm : m1 = m
        · subst hm; rw [hw1]; simp
        · rw [hw1]; simp [upd_of_ne _ _ hm]
      · by_cases hm : m1 = m
        · subst hm; rw [hw1]; simp
        · rw [hw1]; simp [upd_of_ne _ _ hm]
    have ht1 : World.TaskInv w1 := by
      obtain ⟨hwf, hpend⟩ := ht
      rw [hw1]
      exact ⟨hwf, hpend⟩
    obtain ⟨q2, t2, _, d2, _⟩ := Manager.disposeShards_facts m (List.range sessionMapNum) w1
      (World.ManagerInv_of_quiet hinv hq1) ht1
    refine ⟨World.Quiet_trans hq1 q2, t2, fun _ j hj => ?_⟩
    rw [d2 j, if_pos (List.mem_range.mpr hj)]

/-! ## The manager operations keep the invariant -/

theorem Manager.putSession_open (w : World) (m sp : Nat)
    (h : ((w.managers m).sessionMaps ((w.sessions sp).id % sessionMapNum)).disposed = false) :
    (Manager.putSession w m sp).sessions = w.sessions ∧
    (Manager.putSession w m sp).nextSession = w.nextSession ∧
    (Manager.putSession w m sp).globalSessionId = w.globalSessionId ∧
    (Manager.putSession w m sp).tasks = w.tasks ∧
    (Manager.putSession w m sp).trace = w.trace ++ [Event.putSession m sp] ∧
    (∀ m1, m1 ≠ m → (Manager.putSession w m sp).managers m1 = w.managers m1) ∧
    (((Manager.putSession w m sp).managers m).sessionMaps
        ((w.sessions sp).id % sessionMapNum)).sessions =
      mapSet ((w.managers m).sessionMaps ((w.sessions sp).id % sessionMapNum)).sessions
        (w.sessions sp).id sp ∧
    (∀ j, j ≠ (w.sessions sp).id % sessionMapNum →
      ((Manager.putSession w m sp).managers m).sessionMaps j = (w.managers m).sessionMaps j) ∧
    ((Manager.putSession w m sp).managers m).disposeWait = (w.managers m).disposeWait + 1 := by
  simp only [Manager.putSession, h, Bool.false_eq_true, if_false, World.log, upd_same, true_and,
    and_true]
  exact ⟨fun m1 hm => upd_of_ne _ _ hm, fun j hj => upd_of_ne _ _ hj⟩

theorem Manager.putSession_disposed (w : World) (m sp : Nat)
    (h : ((w.managers m).sessionMaps ((w.sessions sp).id % sessionMapNum)).disposed = true) :
    Manager.putSession w m sp = (Session.Close w sp).1 := by
  simp only [Manager.putSession, h, if_true]

theorem Manager.delSession_found (w : World) (m sp q : Nat)
    (h : mapGet ((w.managers m).sessionMaps ((w.sessions sp).id % sessionMapNum)).sessions
      (w.sessions sp).id = some q) :
    (∀ m1, m1 ≠ m → (Manager.delSession w m sp).managers m1 = w.managers m1) ∧
    (((Manager.delSession w m sp).managers m).sessionMaps
        ((w.sessions sp).id % sessionMapNum)).sessions =
      mapDelete ((w.managers m).sessionMaps ((w.sessions sp).id % sessionMapNum)).sessions
        (w.sessions sp).id ∧
    (∀ j, j ≠ (w.sessions sp).id % sessionMapNum →
      ((Manager.delSession w m sp).managers m).sessionMaps j = (w.managers m).sessionMaps j) ∧
    ((Manager.delSession w m sp).managers m).disposeWait = (w.managers m).disposeWait - 1 := by
  simp only [Manager.delSession, h, World.log, upd_same, true_and, and_true]
  exact ⟨fun m1 hm => upd_of_ne _ _ hm, fun j hj => upd_of_ne _ _ hj⟩

theorem Manager.delSession_absent (w : World) (m sp : Nat)
    (h : mapGet ((w.managers m).sessionMaps ((w.sessions sp).id % sessionMapNum)).sessions
      (w.sessions sp).id = none) :
    (Manager.delSession w m sp).managers = w.managers := by
  simp only [Manager.delSession, h, World.log]

theorem Manager.total_update (w w1 : World) (m j : Nat) (hj : j < sessionMapNum)
    (h : ∀ i, i ≠ j → (w1.managers m).sessionMaps i = (w.managers m).sessionMaps i) :
    Manager.total w1 m + ((w.managers m).sessionMaps j).sessions.length =
      Manager.total w m + ((w1.managers m).sessionMaps j).sessions.length := by
  unfold Manager.total
  exact sum_range_update sessionMapNum
    (fun i => ((w.managers m).sessionMaps i).sessions.length)
    (fun i => ((w1.managers m).sessionMaps i).sessions.length) j hj
    (fun i hi => by simp only [h i hi])

theorem newSession_managerInv (w : World) (manager : Option Nat) (codec : Codec)
    (sendChanSize : Int) (hinv : World.ManagerInv w) (hwrap : w.globalSessionId + 1 < 2 ^ 64) :
    World.ManagerInv (newSession w manager codec sendChanSize).1 := by
  obtain ⟨a1, a2, a3, a4, a5, a6, a7, a8⟩ := hinv
  obtain ⟨f1, f2, f3, f4, f5, _⟩ := newSession_frame w manager codec sendChanSize
  obtain ⟨_, s2, _, _, _, _, s7, _⟩ := newSession_sessions w manager codec sendChanSize
  generalize (newSession w manager codec sendChanSize).1 = w1 at f1 f2 f3 f4 f5 s2 s7 ⊢
  have hmod : (w.globalSessionId + 1) % 2 ^ 64 = w.nextSession + 1 := by
    rw [Nat.mod_eq_of_lt hwrap, a1]
  refine ⟨by rw [f4, f5, hmod], by rw [f4, ← a1]; exact hwrap, ?_, ?_, ?_, ?_, ?_, ?_⟩
  · intro p hp
    rw [f4] at hp
    by_cases hpn : p = w.nextSession
    · subst hpn
      rw [s7, hmod]
    · rw [s2 p hpn]
      exact a3 p (by omega)
  · intro m i e he
    rw [f2] at he
    obtain ⟨h1, h2, h3⟩ := a4 m i e he
    exact ⟨by rw [f4]; omega, h2, h3⟩
  · intro m i
    rw [f2]
    exact a5 m i
  · intro m
    have ht : Manager.total w1 m = Manager.total w m :=
      Manager.total_congr m (fun i => by rw [f2])
    rw [f2, ht]
    exact a6 m
  · intro m p
    have hg : Manager.GetSession w1 m (p + 1) = Manager.GetSession w m (p + 1) :=
      Manager.GetSession_congr m _ (fun i => by rw [f2])
    rw [hg, a7 m p]
    unfold Manager.registered
    rw [f3]
  · intro m p h
    rw [f3] at h
    rw [f4]
    have := a8 m p h
    omega

theorem newSession_taskInv (w : World) (manager : Option Nat) (codec : Codec)
    (sendChanSize : Int) (ht : World.TaskInv w) :
    World.TaskInv (newSession w manager codec sendChanSize).1 := by
  obtain ⟨hwf, hpend⟩ := ht
  obtain ⟨_, _, _, f4, _, f6⟩ := newSession_frame w manager codec sendChanSize
  obtain ⟨_, s2, _⟩ := newSession_sessions w manager codec sendChanSize
  have hwf1 := newSession_WF w manager codec sendChanSize hwf
  generalize (newSession w manager codec sendChanSize).1 = w1 at f4 f6 s2 hwf1 ⊢
  refine ⟨hwf1, fun sp hsp => ?_⟩
  obtain ⟨h1, h2⟩ := hpend sp ((f6 sp).mp hsp)
  rw [s2 sp (by omega), f4]
  exact ⟨h1, by omega⟩

theorem Manager.GetSession_of_shard (w : World) (m id : Nat) :
    Manager.GetSession w m id =
      mapGet ((w.managers m).sessionMaps (id % sessionMapNum)).sessions id := rfl

theorem sessionMapNum_mod_lt (id : Nat) : id % sessionMapNum < sessionMapNum :=
  Nat.mod_lt _ (by decide)

/-- In a state with the manager invariant, the id of an allocated session that has no put
in the log is the key of no shard entry. -/
theorem Manager.absent_of_not_registered (w : World) (m sp : Nat) (hinv : World.ManagerInv w)
    (hput : Event.putSession m sp ∉ w.trace) (i : Nat) :
    mapGet ((w.managers m).sessionMaps i).sessions (sp + 1) = none := by
  obtain ⟨_, _, _, a4, a5, _, a7, _⟩ := hinv
  cases hget : mapGet ((w.managers m).sessionMaps i).sessions (sp + 1) with
  | none => rfl
  | some q =>
    exfalso
    obtain ⟨_, h2, h3⟩ := a4 m i _ (mem_of_mapGet hget)
    have hq : q = sp := by simp only at h2; omega
    subst hq
    simp only at h3
    have hreg := (a7 m q).mp (by rw [Manager.GetSession_of_shard, ← h3]; exact hget)
    exact hput hreg.1

theorem Manager.putSession_inv (w : World) (m sp : Nat) (hinv : World.ManagerInv w)
    (ht : World.TaskInv w) (hsp : sp < w.nextSession)
    (hnew : ∀ m1, Event.putSession m1 sp ∉ w.trace ∧ Event.delSession m1 sp ∉ w.trace) :
    World.ManagerInv (Manager.putSession w m sp) ∧ World.TaskInv (Manager.putSession w m sp) := by
  by_cases hdisp : ((w.managers m).sessionMaps ((w.sessions sp).id % sessionMapNum)).disposed = true
  · rw [Manager.putSession_disposed w m sp hdisp]
    exact ⟨World.ManagerInv_of_quiet hinv (Session.Close_quiet w sp),
      Session.Close_taskInv w sp ht hsp⟩
  · have habsent := Manager.absent_of_not_registered w m sp hinv (hnew m).1
    obtain ⟨a1, a2, a3, a4, a5, a6, a7, a8⟩ := hinv
    have hid : (w.sessions sp).id = sp + 1 := a3 sp hsp
    obtain ⟨p1, p2, p3, p4, p5, p6, p7, p8, p9⟩ :=
      Manager.putSession_open w m sp (by simpa using hdisp)
    rw [hid] at p7 p8
    generalize Manager.putSession w m sp = w1 at p1 p2 p3 p4 p5 p6 p7 p8 p9 ⊢
    have hset : ((w1.managers m).sessionMaps ((sp + 1) % sessionMapNum)).sessions =
        (sp + 1, sp) :: ((w.managers m).sessionMaps ((sp + 1) % sessionMapNum)).sessions := by
      rw [p7]
      unfold mapSet
      rw [mapDelete_of_absent _ _ (habsent _)]
    have hget : ∀ m1 p, ¬ (m1 = m ∧ p = sp) →
        Manager.GetSession w1 m1 (p + 1) = Manager.GetSession w m1 (p + 1) := by
      intro m1 p hne
      rw [Manager.GetSession_of_shard, Manager.GetSession_of_shard]
      by_cases hm : m1 = m
      · subst hm
        have hp : p ≠ sp := fun h => hne ⟨rfl, h⟩
        by_cases hj : (p + 1) % sessionMapNum = (sp + 1) % sessionMapNum
        · rw [hj, p7, mapGet_mapSet_other _ _ (by omega)]
        · rw [p8 _ hj]
      · rw [p6 m1 hm]
    refine ⟨⟨by rw [p2, p3]; exact a1, by rw [p2]; exact a2, ?_, ?_, ?_, ?_, ?_, ?_⟩, ?_⟩
    · intro p hp
      rw [p1]
      exact a3 p (by rw [p2] at hp; exact hp)
    · intro m1 i e he
      rw [p2]
      by_cases hm : m1 = m
      · subst hm
        by_cases hi : i = (sp + 1) % sessionMapNum
        · subst hi
          rw [hset] at he
          rcases List.mem_cons.mp he with rfl | he1
          · exact ⟨hsp, rfl, rfl⟩
          · exact a4 m1 _ e he1
        · rw [p8 i hi] at he
          exact a4 m1 i e he
      · rw [p6 m1 hm] at he
        exact a4 m1 i e he
    · intro m1 i
      by_cases hm : m1 = m
      · subst hm
        by_cases hi : i = (sp + 1) % sessionMapNum
        · subst hi
          rw [p7]
          exact mapSet_keys_nodup _ _ _ (a5 m1 _)
        · rw [p8 i hi]
          exact a5 m1 i
      · rw [p6 m1 hm]
        exact a5 m1 i
    · intro m1
      by_cases hm : m1 = m
      · subst hm
        have hsum := Manager.total_update w w1 m1 ((sp + 1) % sessionMapNum)
          (sessionMapNum_mod_lt _) p8
        rw [hset, List.length_cons] at hsum
        rw [p9, a6 m1]
        have : Manager.total w1 m1 = Manager.total w m1 + 1 := by omega
        rw [this]
        push_cast
        ring
      · have htot : Manager.total w1 m1 = Manager.total w m1 :=
          Manager.total_congr m1 (fun i => by rw [p6 m1 hm])
        rw [p6 m1 hm, htot]
        exact a6 m1
    · intro m1 p
      unfold Manager.registered
      rw [p5]
      by_cases hmp : m1 = m ∧ p = sp
      · obtain ⟨rfl, rfl⟩ := hmp
        have : Manager.GetSession w1 m1 (p + 1) = some p := by
          rw [Manager.GetSession_of_shard, p7]
          exact mapGet_mapSet_same _ _ _
        simp only [this, List.mem_append, List.mem_singleton, or_true, true_and, true_iff,
          reduceCtorEq, or_false]
        exact (hnew m1).2
      · rw [hget m1 p hmp, a7 m1 p]
        unfold Manager.registered
        have hne : Event.putSession m1 p ≠ Event.putSession m sp := by
          intro h
          injection h with h1 h2
          exact hmp ⟨h1, h2⟩
        simp [hne]
    · intro m1 p h
      rw [p2]
      rw [p5] at h
      simp only [List.mem_append, List.mem_singleton, Event.putSession.injEq, reduceCtorEq,
        or_false] at h
      rcases h with (h | ⟨_, rfl⟩) | h
      · exact a8 m1 p (Or.inl h)
      · exact hsp
      · exact a8 m1 p (Or.inr h)
    · obtain ⟨hwf, hpend⟩ := ht
      refine ⟨fun x => by rw [p1]; exact hwf x, fun x hx => ?_⟩
      rw [p1, p2]
      exact hpend x (by rw [p4] at hx; exact hx)

theorem Manager.delSession_inv (w : World) (m sp : Nat) (hinv : World.ManagerInv w)
    (ht : World.TaskInv w) (hsp : sp < w.nextSession) :
    World.ManagerInv (Manager.delSession w m sp) ∧ World.TaskInv (Manager.delSession w m sp) := by
  obtain ⟨a1, a2, a3, a4, a5, a6, a7, a8⟩ := hinv
  have hid : (w.sessions sp).id = sp + 1 := a3 sp hsp
  obtain ⟨d1, _, d3, d4, d5⟩ := Manager.delSession_frame w m sp
  have dtrace := Manager.delSession_trace w m sp
  have hfound := Manager.delSession_found w m sp
  have habsent := Manager.delSession_absent w m sp
  rw [hid] at hfound habsent
  generalize Manager.delSession w m sp = w1 at d1 d3 d4 d5 dtrace hfound habsent ⊢
  have htask : World.TaskInv w1 := by
    obtain ⟨hwf, hpend⟩ := ht
    refine ⟨fun x => by rw [d1]; exact hwf x, fun x hx => ?_⟩
    rw [d1, d4]
    exact hpend x (by rw [d3] at hx; exact hx)
  have hreg : ∀ m1 p, Manager.registered w1 m1 p ↔
      (Manager.registered w m1 p ∧ ¬ (m1 = m ∧ p = sp)) := by
    intro m1 p
    unfold Manager.registered
    rw [dtrace]
    simp only [List.mem_append, List.mem_singleton, reduceCtorEq, or_false,
      Event.delSession.injEq, not_or]
    tauto
  have hev : ∀ m1 p, (Event.putSession m1 p ∈ w1.trace ∨ Event.delSession m1 p ∈ w1.trace) →
      p < w1.nextSession := by
    intro m1 p h
    rw [d4]
    rw [dtrace] at h
    simp only [List.mem_append, List.mem_singleton, reduceCtorEq, or_false,
      Event.delSession.injEq] at h
    rcases h with h | h | ⟨_, rfl⟩
    · exact a8 m1 p (Or.inl h)
    · exact a8 m1 p (Or.inr h)
    · exact hsp
  cases hget : mapGet ((w.managers m).sessionMaps ((sp + 1) % sessionMapNum)).sessions (sp + 1) with
  | none =>
    have hm := habsent hget
    have hself : Manager.GetSession w m (sp + 1) ≠ some sp := by
      rw [Manager.GetSession_of_shard, hget]; simp
    refine ⟨⟨by rw [d4, d5]; exact a1, by rw [d4]; exact a2, ?_, ?_, ?_, ?_, ?_, hev⟩, htask⟩
    · intro p hp
      rw [d1]
      exact a3 p (by rw [d4] at hp; exact hp)
    · intro m1 i e he
      rw [hm] at he
      rw [d4]
      exact a4 m1 i e he
    · intro m1 i
      rw [hm]
      exact a5 m1 i
    · intro m1
      have htot : Manager.total w1 m1 = Manager.total w m1 :=
        Manager.total_congr m1 (fun i => by rw [hm])
      rw [hm, htot]
      exact a6 m1
    · intro m1 p
      have hg : Manager.GetSession w1 m1 (p + 1) = Manager.GetSession w m1 (p + 1) :=
        Manager.GetSession_congr m1 _ (fun i => by rw [hm])
      rw [hg, hreg m1 p, a7 m1 p]
      constructor
      · intro h
        refine ⟨h, ?_⟩
        rintro ⟨rfl, rfl⟩
        exact hself ((a7 m1 p).mpr h)
      · exact fun h => h.1
  | some q =>
    obtain ⟨f1, f2, f3, f4⟩ := hfound q hget
    have hgetw : ∀ m1 p, ¬ (m1 = m ∧ p = sp) →
        Manager.GetSession w1 m1 (p + 1) = Manager.GetSession w m1 (p + 1) := by
      intro m1 p hne
      rw [Manager.GetSession_of_shard, Manager.GetSession_of_shard]
      by_cases hm : m1 = m
      · subst hm
        have hp : p ≠ sp := fun h => hne ⟨rfl, h⟩
        by_cases hj : (p + 1) % sessionMapNum = (sp + 1) % sessionMapNum
        · rw [hj, f2, mapGet_mapDelete_other _ (by omega)]
        · rw [f3 _ hj]
      · rw [f1 m1 hm]
    refine ⟨⟨by rw [d4, d5]; exact a1, by rw [d4]; exact a2, ?_, ?_, ?_, ?_, ?_, hev⟩, htask⟩
    · intro p hp
      rw [d1]
      exact a3 p (by rw [d4] at hp; exact hp)
    · intro m1 i e he
      rw [d4]
      by_cases hm : m1 = m
      · subst hm
        by_cases hi : i = (sp + 1) % sessionMapNum
        · subst hi
          rw [f2] at he
          exact a4 m1 _ e (List.mem_of_mem_filter he)
        · rw [f3 i hi] at he
          exact a4 m1 i e he
      · rw [f1 m1 hm] at he
        exact a4 m1 i e he
    · intro m1 i
      by_cases hm : m1 = m
      · subst hm
        by_cases hi : i = (sp + 1) % sessionMapNum
        · subst hi
          rw [f2]
          exact mapDelete_keys_nodup _ _ (a5 m1 _)
        · rw [f3 i hi]
          exact a5 m1 i
      · rw [f1 m1 hm]
        exact a5 m1 i
    · intro m1
      by_cases hm : m1 = m
      · subst hm
        have hsum := Manager.total_update w w1 m1 ((sp + 1) % sessionMapNum)
          (sessionMapNum_mod_lt _) f3
        have hlen := mapDelete_length _ (sp + 1) q (a5 m1 _) hget
        rw [f2] at hsum
        rw [f4, a6 m1]
        have : Manager.total w m1 = Manager.total w1 m1 + 1 := by omega
        rw [this]
        push_cast
        ring
      · have htot : Manager.total w1 m1 = Manager.total w m1 :=
          Manager.total_congr m1 (fun i => by rw [f1 m1 hm])
        rw [f1 m1 hm, htot]
        exact a6 m1
    · intro m1 p
      rw [hreg m1 p]
      by_cases hmp : m1 = m ∧ p = sp
      · obtain ⟨rfl, rfl⟩ := hmp
        have : Manager.GetSession w1 m1 (p + 1) = none := by
          rw [Manager.GetSession_of_shard, f2]
          exact mapGet_mapDelete_same _ _
        simp [this]
      · rw [hgetw m1 p hmp, a7 m1 p]
        simp [hmp]

theorem World.TaskInv_of_frame {w w1 : World} (ht : World.TaskInv w) (hwf1 : World.WF w1)
    (hframe : World.Frame w w1) : World.TaskInv w1 := by
  refine ⟨hwf1, fun sp hsp => ?_⟩
  rw [hframe.2.2.2.1] at hsp
  rw [(hframe.2.2.2.2.1 sp).2.2.2.2.1, hframe.2.1]
  exact ht.2 sp hsp

theorem World.runCloseTask_manager {w w1 : World} (sp : Nat) (hinv : World.ManagerInv w)
    (ht : World.TaskInv w) (h : World.runCloseTask w sp = some w1) :
    World.ManagerInv w1 ∧ World.TaskInv w1 := by
  unfold World.runCloseTask at h
  by_cases hmem : Task.closeTask sp ∈ w.tasks
  · rw [if_pos hmem] at h
    obtain ⟨hclosed, halloc⟩ := ht.2 sp hmem
    obtain ⟨w0, hw0⟩ : ∃ x : World, x =
        { w with tasks := w.tasks.erase (Task.closeTask sp) } := ⟨_, rfl⟩
    rw [← hw0] at h
    have hq0 : World.Quiet w w0 := by rw [hw0]; exact World.Quiet_refl w
    have ht0 : World.TaskInv w0 := by
      rw [hw0]
      exact ⟨ht.1, fun x hx => ht.2 x (List.mem_of_mem_erase hx)⟩
    have hclosed0 : (w0.sessions sp).closeFlag = 1 := by rw [hw0]; exact hclosed
    obtain ⟨w2, w3, _, h3, hwf2, _, hframe2, htrace2, hw3⟩ :=
      Session.closeTask_spec w0 sp ht0.1 hclosed0
    rw [h] at h3
    cases h3
    have hq2 : World.Quiet w0 w2 := World.Quiet_of_frame hframe2 _ htrace2 (by
      intro e he m p
      obtain ⟨x, _, rfl⟩ := List.mem_map.mp he
      exact ⟨by simp [callbackEvent], by simp [callbackEvent]⟩)
    have hinv2 : World.ManagerInv w2 :=
      World.ManagerInv_of_quiet hinv (World.Quiet_trans hq0 hq2)
    have ht2 : World.TaskInv w2 := World.TaskInv_of_frame ht0 hwf2 hframe2
    rw [hw3]
    split
    · rename_i m _
      exact Manager.delSession_inv w2 m sp hinv2 ht2
        (by rw [hq2.1, hq0.1]; exact halloc)
    · exact ⟨hinv2, ht2⟩
  · rw [if_neg hmem] at h
    cases h

theorem Manager.NewSession_inv (w : World) (m : Nat) (codec : Codec) (sendChanSize : Int)
    (hinv : World.ManagerInv w) (ht : World.TaskInv w) (hwrap : w.globalSessionId + 1 < 2 ^ 64) :
    World.ManagerInv (Manager.NewSession w m codec sendChanSize).1 ∧
    World.TaskInv (Manager.NewSession w m codec sendChanSize).1 := by
  have hinv1 := newSession_managerInv w (some m) codec sendChanSize hinv hwrap
  have ht1 := newSession_taskInv w (some m) codec sendChanSize ht
  obtain ⟨_, _, f3, f4, _, _⟩ := newSession_frame w (some m) codec sendChanSize
  obtain ⟨s1, _⟩ := newSession_sessions w (some m) codec sendChanSize
  have a8 := hinv.2.2.2.2.2.2.2
  unfold Manager.NewSession
  simp only []
  generalize newSession w (some m) codec sendChanSize = r at hinv1 ht1 f3 f4 s1 ⊢
  apply Manager.putSession_inv r.1 m r.2 hinv1 ht1 (by rw [s1, f4]; omega)
  intro m1
  rw [f3, s1]
  exact ⟨fun h => absurd (a8 m1 _ (Or.inl h)) (lt_irrefl _),
    fun h => absurd (a8 m1 _ (Or.inr h)) (lt_irrefl _)⟩

theorem World.ManagerInv_init : World.ManagerInv World.init := by
  refine ⟨rfl, by decide, fun p hp => absurd hp (Nat.not_lt_zero p), fun m i e he => ?_,
    fun m i => List.nodup_nil, fun m => ?_, fun m p => ?_, fun m p h => ?_⟩
  · simp [World.init, NewManager] at he
  · have : Manager.total World.init m = 0 := by
      unfold Manager.total
      simp [World.init, NewManager]
    rw [this]
    rfl
  · simp [Manager.GetSession, Manager.registered, World.init, NewManager, mapGet]
  · simp [World.init] at h

theorem World.TaskInv_init : World.TaskInv World.init :=
  ⟨World.WF_init, fun sp h => by simp [World.init] at h⟩

theorem World.setSession_manager (w : World) (sp : Nat) (t : Session)
    (hinv : World.ManagerInv w) (ht : World.TaskInv w) (hid : t.id = (w.sessions sp).id)
    (hflag : t.closeFlag = (w.sessions sp).closeFlag) (hheap : t.cbHeap = (w.sessions sp).cbHeap)
    (hfirst : t.firstCloseCallback = (w.sessions sp).firstCloseCallback)
    (hlast : t.lastCloseCallback = (w.sessions sp).lastCloseCallback) (l : List Event)
    (hl : ∀ e ∈ l, ∀ m p, e ≠ Event.putSession m p ∧ e ≠ Event.delSession m p) :
    World.ManagerInv { w.setSession sp t with trace := w.trace ++ l } ∧
    World.TaskInv { w.setSession sp t with trace := w.trace ++ l } := by
  have hsess : ∀ x, x ≠ sp → (w.setSession sp t).sessions x = w.sessions x :=
    fun x hx => upd_of_ne _ _ hx
  have hself : (w.setSession sp t).sessions sp = t := upd_same _ _ _
  have hev : ∀ e, (∀ x ∈ l, x ≠ e) → (e ∈ w.trace ++ l ↔ e ∈ w.trace) := by
    intro e he
    rw [List.mem_append]
    exact ⟨fun h => h.elim id (fun h => absurd rfl (he e h)), Or.inl⟩
  constructor
  · apply World.ManagerInv_of_quiet hinv
    refine ⟨rfl, rfl, fun p => ?_, fun _ _ => rfl, fun _ => rfl,
      fun m p => hev _ (fun x hx => (hl x hx m p).1), fun m p => hev _ (fun x hx => (hl x hx m p).2)⟩
    by_cases hp : p = sp
    · subst hp
      show ((w.setSession p t).sessions p).id = _
      rw [hself]
      exact hid
    · exact congrArg Session.id (hsess p hp)
  · refine ⟨fun x => ?_, fun x hx => ?_⟩
    · by_cases hxs : x = sp
      · subst hxs
        show ((w.setSession x t).sessions x).wf = true ∧ ((w.setSession x t).sessions x).closeFlag ≤ 1
        rw [hself, Session.wf_congr hheap hfirst hlast, hflag]
        exact ht.1 x
      · show ((w.setSession sp t).sessions x).wf = true ∧ _
        rw [hsess x hxs]
        exact ht.1 x
    · have h := ht.2 x hx
      by_cases hxs : x = sp
      · subst hxs
        show ((w.setSession x t).sessions x).closeFlag = 1 ∧ _
        rw [hself, hflag]
        exact h
      · show ((w.setSession sp t).sessions x).closeFlag = 1 ∧ _
        rw [hsess x hxs]
        exact h

theorem Session.Send_shape (w : World) (sp : Nat) (msg : Msg) :
    ∃ (t : Session) (l : List Event),
      t.id = (w.sessions sp).id ∧ t.closeFlag = (w.sessions sp).closeFlag ∧
      t.cbHeap = (w.sessions sp).cbHeap ∧
      t.firstCloseCallback = (w.sessions sp).firstCloseCallback ∧
      t.lastCloseCallback = (w.sessions sp).lastCloseCallback ∧
      (∀ e ∈ l, ∀ m p, e ≠ Event.putSession m p ∧ e ≠ Event.delSession m p) ∧
      ((Session.Send w sp msg).1 = w ∨
        (Session.Send w sp msg).1 = { w.setSession sp t with trace := w.trace ++ l } ∨
        (Session.Send w sp msg).1 =
          (Session.Close { w.setSession sp t with trace := w.trace ++ l } sp).1 ∨
        (Session.Send w sp msg).1 = (Session.Close w sp).1) := by
  by_cases hc : Session.IsClosed w sp = true
  · refine ⟨w.sessions sp, [], rfl, rfl, rfl, rfl, rfl, by simp, Or.inl ?_⟩
    unfold Session.Send
    cases hch : (w.sessions sp).sendChan <;> simp [hc, hch]
  · cases hch : (w.sessions sp).sendChan with
    | none =>
      refine ⟨{ (w.sessions sp) with codec := { (w.sessions sp).codec with
          state := ((w.sessions sp).codec.sendFn (w.sessions sp).codec.state msg).1 } },
        [Event.codecSend sp msg], rfl, rfl, rfl, rfl, rfl, by simp, ?_⟩
      unfold Session.Send
      simp only [hch, hc, Bool.false_eq_true, if_false]
      cases ((w.sessions sp).codec.sendFn (w.sessions sp).codec.state msg).2 with
      | none => exact Or.inr (Or.inl rfl)
      | some err => exact Or.inr (Or.inr (Or.inl rfl))
    | some ch =>
      by_cases hroom : ch.buf.length < ch.cap
      · refine ⟨{ (w.sessions sp) with sendChan := some { ch with buf := ch.buf ++ [msg] } },
          [], rfl, rfl, rfl, rfl, rfl, by simp, Or.inr (Or.inl ?_)⟩
        unfold Session.Send
        simp [hch, hc, hroom, World.setSession]
      · refine ⟨w.sessions sp, [], rfl, rfl, rfl, rfl, rfl, by simp, Or.inr (Or.inr (Or.inr ?_))⟩
        unfold Session.Send
        simp [hch, hc, hroom]

theorem Session.Send_manager (w : World) (sp : Nat) (msg : Msg) (hinv : World.ManagerInv w)
    (ht : World.TaskInv w) (hsp : sp < w.nextSession) :
    World.ManagerInv (Session.Send w sp msg).1 ∧ World.TaskInv (Session.Send w sp msg).1 := by
  have hclose : ∀ v : World, World.ManagerInv v → World.TaskInv v → sp < v.nextSession →
      World.ManagerInv (Session.Close v sp).1 ∧ World.TaskInv (Session.Close v sp).1 :=
    fun v h1 h2 h3 => ⟨World.ManagerInv_of_quiet h1 (Session.Close_quiet v sp),
      Session.Close_taskInv v sp h2 h3⟩
  obtain ⟨t, l, h1, h2, h3, h4, h5, hl, hcases⟩ := Session.Send_shape w sp msg
  have hset := World.setSession_manager w sp t hinv ht h1 h2 h3 h4 h5 l hl
  rcases hcases with h | h | h | h
  · rw [h]; exact ⟨hinv, ht⟩
  · rw [h]; exact hset
  · rw [h]; exact hclose _ hset.1 hset.2 hsp
  · rw [h]; exact hclose w hinv ht hsp

/-- An operation that changes only registries and channel maps and logs no put and no
delete keeps the invariants of the manager and of the goroutines. -/
theorem World.manager_of_frame {w w1 : World} (hinv : World.ManagerInv w)
    (ht : World.TaskInv w) (hwf1 : World.WF w1) (hframe : World.Frame w w1) (l : List Event)
    (htrace : w1.trace = w.trace ++ l)
    (hl : ∀ e ∈ l, ∀ m p, e ≠ Event.putSession m p ∧ e ≠ Event.delSession m p) :
    World.ManagerInv w1 ∧ World.TaskInv w1 :=
  ⟨World.ManagerInv_of_quiet hinv (World.Quiet_of_frame hframe l htrace hl),
    World.TaskInv_of_frame ht hwf1 hframe⟩

theorem Reach.manager_inv {w : World} (h : Reach w) :
    World.ManagerInv w ∧ World.TaskInv w := by
  induction h with
  | start => exact ⟨World.ManagerInv_init, World.TaskInv_init⟩
  | newSession codec sendChanSize _ hwrap ih =>
    exact ⟨newSession_managerInv _ none codec sendChanSize ih.1 hwrap,
      newSession_taskInv _ none codec sendChanSize ih.2⟩
  | managerNewSession m codec sendChanSize _ hwrap ih =>
    exact Manager.NewSession_inv _ m codec sendChanSize ih.1 ih.2 hwrap
  | delSession m sp _ hsp ih => exact Manager.delSession_inv _ m sp ih.1 ih.2 hsp
  | dispose m _ ih =>
    obtain ⟨q, t, _⟩ := Manager.Dispose_facts _ m ih.1 ih.2
    exact ⟨World.ManagerInv_of_quiet ih.1 q, t⟩
  | sessionClose sp _ hsp ih =>
    exact ⟨World.ManagerInv_of_quiet ih.1 (Session.Close_quiet _ sp),
      Session.Close_taskInv _ sp ih.2 hsp⟩
  | closeTask sp _ ht ih => exact World.runCloseTask_manager sp ih.1 ih.2 ht
  | send sp msg _ hsp ih => exact Session.Send_manager _ sp msg ih.1 ih.2 hsp
  | addCloseCallback sp handler key callback _ hadd ih =>
    obtain ⟨w2, h2, hwf2, _, hframe2, htrace2, _⟩ :=
      Session.AddCloseCallback_view _ sp handler key callback ih.2.1
    rw [hadd] at h2
    cases h2
    exact World.manager_of_frame ih.1 ih.2 hwf2 hframe2 [] (by simpa using htrace2) (by simp)
  | removeCloseCallback sp handler key _ hrem ih =>
    obtain ⟨w2, h2, hwf2, _, hframe2, htrace2, _⟩ :=
      Session.RemoveCloseCallback_view _ sp handler key ih.2.1
    rw [hrem] at h2
    cases h2
    exact World.manager_of_frame ih.1 ih.2 hwf2 hframe2 [] (by simpa using htrace2) (by simp)
  | channelPut c key session _ hput ih =>
    obtain ⟨w2, h2, hwf2, _, hframe2, htrace2⟩ := Channel.Put_view _ c key session ih.2.1
    rw [hput] at h2
    cases h2
    exact World.manager_of_frame ih.1 ih.2 hwf2 hframe2 [] (by simpa using htrace2) (by simp)
  | channelRemove c key _ hrem ih =>
    obtain ⟨w2, b2, h2, hwf2, _, hframe2, htrace2, _⟩ := Channel.Remove_view _ c key ih.2.1
    rw [hrem] at h2
    cases h2
    exact World.manager_of_frame ih.1 ih.2 hwf2 hframe2 [] (by simpa using htrace2) (by simp)
  | channelFetchAndRemove c _ hf ih =>
    obtain ⟨w2, h2, hwf2, _, hframe2, htrace2⟩ := Channel.FetchAndRemove_view _ c ih.2.1
    rw [hf] at h2
    cases h2
    exact World.manager_of_frame ih.1 ih.2 hwf2 hframe2 _ htrace2 (by
      intro e he m p
      obtain ⟨x, _, rfl⟩ := List.mem_map.mp he
      exact ⟨by simp, by simp⟩)
  | channelClose c _ hc ih =>
    obtain ⟨w2, h2, hwf2, _, hframe2, htrace2⟩ := Channel.Close_chan_view _ c ih.2.1
    rw [hc] at h2
    cases h2
    exact World.manager_of_frame ih.1 ih.2 hwf2 hframe2 [] (by simpa using htrace2) (by simp)

/-! ## Consequences of the manager invariant -/

/-- In a state with the manager invariant, a shard entry is a registered session. -/
theorem Manager.registered_of_mem (w : World) (hinv : World.ManagerInv w) (m i : Nat)
    (e : Nat × Nat) (he : e ∈ ((w.managers m).sessionMaps i).sessions) :
    Manager.registered w m e.2 ∧ e.1 = e.2 + 1 ∧ i = (e.2 + 1) % sessionMapNum ∧
      (w.sessions e.2).id = e.2 + 1 := by
  obtain ⟨_, _, a3, a4, a5, _, a7, _⟩ := hinv
  obtain ⟨h1, h2, h3⟩ := a4 m i e he
  have hget : Manager.GetSession w m (e.2 + 1) = some e.2 := by
    rw [Manager.GetSession_of_shard, ← h2, ← h3]
    exact mapGet_of_mem_nodup _ e he (a5 m i)
  exact ⟨(a7 m e.2).mp hget, h2, by rw [← h2]; exact h3, a3 e.2 h1⟩

/-- In a state with the manager invariant, the id that `newSession` assigns next is the
key of no shard entry. -/
theorem Manager.next_id_fresh (w : World) (hinv : World.ManagerInv w) (m : Nat) :
    Manager.GetSession w m ((w.globalSessionId + 1) % 2 ^ 64) = none := by
  obtain ⟨a1, a2, _, a4, _⟩ := hinv
  rw [Manager.GetSession_of_shard, mapGet_eq_none_iff]
  intro e he hid
  obtain ⟨h1, h2, _⟩ := a4 m _ e he
  have hmod : (w.globalSessionId + 1) % 2 ^ 64 = w.globalSessionId + 1 ∨
      (w.globalSessionId + 1) % 2 ^ 64 = 0 := by
    by_cases hlt : w.globalSessionId + 1 < 2 ^ 64
    · exact Or.inl (Nat.mod_eq_of_lt hlt)
    · right
      have : w.globalSessionId + 1 = 2 ^ 64 := by omega
      rw [this]
      exact Nat.mod_self _
  rcases hmod with h | h <;> omega

theorem Session.invokeCloseCallbacks_empty (w : World) (sp : Nat)
    (h : (w.sessions sp).firstCloseCallback = 0) :
    Session.invokeCloseCallbacks w sp = some w := by
  unfold Session.invokeCloseCallbacks
  rw [h]
  exact Session.invokeLoop_nil sp _ w

/-! ## No Go channel of an open session is closed -/

theorem Session.openChans_of_core {s t : Session} (h : Session.sameCore s t)
    (hs : Session.openChans s) : Session.openChans t := by
  obtain ⟨_, _, _, h4, h5, h6⟩ := h
  intro ht
  rw [h4, h6]
  exact hs (h5 ▸ ht)

theorem World.OpenChans_of_frame {w w1 : World} (hf : World.Frame w w1)
    (h : World.OpenChans w) : World.OpenChans w1 :=
  fun sp => Session.openChans_of_core (hf.2.2.2.2.1 sp) (h sp)

theorem World.OpenChans_of_sessions {w w1 : World} (hs : w1.sessions = w.sessions)
    (h : World.OpenChans w) : World.OpenChans w1 := by
  intro sp
  rw [hs]
  exact h sp

theorem World.OpenChans_init : World.OpenChans World.init := by
  intro sp _
  exact ⟨rfl, fun ch hch => by simp [World.init, Session.blank] at hch⟩

theorem World.OpenChans_setSession (w : World) (sp : Nat) (t : Session) (l : List Event)
    (h : World.OpenChans w) (ht : Session.openChans t) :
    World.OpenChans { w.setSession sp t with trace := w.trace ++ l } := by
  intro x
  by_cases hx : x = sp
  · subst hx
    show Session.openChans ((w.setSession x t).sessions x)
    rw [show (w.setSession x t).sessions x = t from upd_same _ _ _]
    exact ht
  · show Session.openChans ((w.setSession sp t).sessions x)
    rw [show (w.setSession sp t).sessions x = w.sessions x from upd_of_ne _ _ hx]
    exact h x

theorem Session.Close_openChans (w : World) (sp : Nat) (h : World.OpenChans w) :
    World.OpenChans (Session.Close w sp).1 := by
  by_cases hopen : (w.sessions sp).closeFlag = 0
  · rw [Session.Close_open w sp hopen]
    intro x
    by_cases hx : x = sp
    · subst hx
      simp only [upd_same]
      intro h0
      rw [(Session.closedRecord_fields _).2.2.2.2.2] at h0
      exact absurd h0 (by decide)
    · simp only [upd_of_ne _ _ hx]
      exact h x
  · rw [Session.Close_of_closed w sp hopen]
    exact h

theorem Session.closeAll_openChans (es : List (Nat × Nat)) : ∀ (w : World),
    World.OpenChans w →
    World.OpenChans (es.foldl (fun acc e => (Session.Close acc e.2).1) w) := by
  induction es with
  | nil => intro w h; exact h
  | cons e es ih =>
    intro w h
    rw [List.foldl_cons]
    exact ih _ (Session.Close_openChans w e.2 h)

theorem Manager.disposeShard_openChans (m : Nat) (w : World) (i : Nat)
    (h : World.OpenChans w) : World.OpenChans (Manager.disposeShard m w i) :=
  Session.closeAll_openChans _ _
    (World.OpenChans_of_sessions (rfl : (Manager.markDisposed w m i).sessions = w.sessions) h)

theorem Manager.disposeShards_openChans (m : Nat) (l : List Nat) : ∀ (w : World),
    World.OpenChans w → World.OpenChans (l.foldl (Manager.disposeShard m) w) := by
  induction l with
  | nil => intro w h; exact h
  | cons i l ih =>
    intro w h
    rw [List.foldl_cons]
    exact ih _ (Manager.disposeShard_openChans m w i h)

theorem Manager.Dispose_openChans (w : World) (m : Nat) (h : World.OpenChans w) :
    World.OpenChans (Manager.Dispose w m) := by
  unfold Manager.Dispose
  split
  · exact h
  · exact Manager.disposeShards_openChans m _ _
      (World.OpenChans_of_sessions (rfl : (Manager.markOnce w m).sessions = w.sessions) h)

theorem Manager.delSession_sessions (w : World) (m sp : Nat) :
    (Manager.delSession w m sp).sessions = w.sessions := by
  unfold Manager.delSession
  simp only []
  split <;> rfl

theorem Manager.putSession_openChans (w : World) (m sp : Nat) (h : World.OpenChans w) :
    World.OpenChans (Manager.putSession w m sp) := by
  unfold Manager.putSession
  simp only []
  split
  · exact Session.Close_openChans w sp h
  · exact h

theorem newSession_openChans (w : World) (manager : Option Nat) (codec : Codec)
    (sendChanSize : Int) (h : World.OpenChans w) :
    World.OpenChans (newSession w manager codec sendChanSize).1 := by
  intro x
  by_cases hx : x = w.nextSession
  · subst hx
    by_cases hn : sendChanSize > 0
    · simp [newSession, hn, Session.openChans]
    · simp [newSession, hn, Session.openChans]
  · rw [(newSession_sessions w manager codec sendChanSize).2.1 x hx]
    exact h x

theorem Session.Send_openChans (w : World) (sp : Nat) (msg : Msg) (h : World.OpenChans w) :
    World.OpenChans (Session.Send w sp msg).1 := by
  by_cases hc : Session.IsClosed w sp = true
  · have : (Session.Send w sp msg).1 = w := by
      unfold Session.Send
      cases hch : (w.sessions sp).sendChan <;> simp [hc, hch]
    rw [this]
    exact h
  · cases hch : (w.sessions sp).sendChan with
    | none =>
      have ht : ∀ st : Nat, Session.openChans
          { (w.sessions sp) with codec := { (w.sessions sp).codec with state := st } } :=
        fun _ => h sp
      have hset := World.OpenChans_setSession w sp _ [Event.codecSend sp msg] h
        (ht ((w.sessions sp).codec.sendFn (w.sessions sp).codec.state msg).1)
      have hcases : (Session.Send w sp msg).1 = { w.setSession sp
            { (w.sessions sp) with codec := { (w.sessions sp).codec with
              state := ((w.sessions sp).codec.sendFn (w.sessions sp).codec.state msg).1 } } with
            trace := w.trace ++ [Event.codecSend sp msg] } ∨
          (Session.Send w sp msg).1 = (Session.Close { w.setSession sp
            { (w.sessions sp) with codec := { (w.sessions sp).codec with
              state := ((w.sessions sp).codec.sendFn (w.sessions sp).codec.state msg).1 } } with
            trace := w.trace ++ [Event.codecSend sp msg] } sp).1 := by
        unfold Session.Send
        simp only [hch, hc, Bool.false_eq_true, if_false]
        cases ((w.sessions sp).codec.sendFn (w.sessions sp).codec.state msg).2 with
        | none => exact Or.inl rfl
        | some err => exact Or.inr rfl
      rcases hcases with h1 | h1
      · rw [h1]
        exact hset
      · rw [h1]
        exact Session.Close_openChans _ sp hset
    | some ch =>
      by_cases hroom : ch.buf.length < ch.cap
      · have ht : Session.openChans
            { (w.sessions sp) with sendChan := some { ch with buf := ch.buf ++ [msg] } } := by
          intro h0
          obtain ⟨c1, c2⟩ := h sp h0
          refine ⟨c1, fun ch1 hch1 => ?_⟩
          cases hch1
          exact c2 ch hch
        have hset := World.OpenChans_setSession w sp _ [] h ht
        have : (Session.Send w sp msg).1 = { w.setSession sp
            { (w.sessions sp) with sendChan := some { ch with buf := ch.buf ++ [msg] } } with
            trace := w.trace ++ [] } := by
          unfold Session.Send
          simp [hch, hc, hroom, World.setSession]
        rw [this]
        exact hset
      · have : (Session.Send w sp msg).1 = (Session.Close w sp).1 := by
          unfold Session.Send
          simp [hch, hc, hroom]
        rw [this]
        exact Session.Close_openChans w sp h

theorem World.runCloseTask_openChans {w w1 : World} (sp : Nat) (ht : World.TaskInv w)
    (h : World.OpenChans w) (hrun : World.runCloseTask w sp = some w1) :
    World.OpenChans w1 := by
  unfold World.runCloseTask at hrun
  by_cases hmem : Task.closeTask sp ∈ w.tasks
  · rw [if_pos hmem] at hrun
    obtain ⟨hclosed, _⟩ := ht.2 sp hmem
    obtain ⟨w2, w3, _, h3, _, _, hframe2, _, hw3⟩ :=
      Session.closeTask_spec { w with tasks := w.tasks.erase (Task.closeTask sp) } sp
        ht.1 hclosed
    rw [hrun] at h3
    cases h3
    have h2 : World.OpenChans w2 := World.OpenChans_of_frame hframe2 h
    rw [hw3]
    split
    · exact World.OpenChans_of_sessions (Manager.delSession_sessions w2 _ sp) h2
    · exact h2
  · rw [if_neg hmem] at hrun
    cases hrun

/-- In every reachable state no session that is not closed has a closed `closeChan` or a
closed `sendChan`: `Session.Close` closes the two Go channels once, and `Session.Send`
never sends on a closed `sendChan`. -/
theorem Reach.open_chans {w : World} (h : Reach w) : World.OpenChans w := by
  induction h with
  | start => exact World.OpenChans_init
  | newSession codec sendChanSize _ _ ih => exact newSession_openChans _ none codec sendChanSize ih
  | managerNewSession m codec sendChanSize _ _ ih =>
    exact Manager.putSession_openChans _ m _ (newSession_openChans _ (some m) codec sendChanSize ih)
  | delSession m sp _ _ ih =>
    exact World.OpenChans_of_sessions (Manager.delSession_sessions _ m sp) ih
  | dispose m _ ih => exact Manager.Dispose_openChans _ m ih
  | sessionClose sp _ _ ih => exact Session.Close_openChans _ sp ih
  | closeTask sp hr ht ih => exact World.runCloseTask_openChans sp (Reach.manager_inv hr).2 ih ht
  | send sp msg _ _ ih => exact Session.Send_openChans _ sp msg ih
  | addCloseCallback sp handler key callback hr hadd ih =>
    obtain ⟨w2, h2, _, _, hframe2, _⟩ :=
      Session.AddCloseCallback_view _ sp handler key callback (Reach.manager_inv hr).2.1
    rw [hadd] at h2
    cases h2
    exact World.OpenChans_of_frame hframe2 ih
  | removeCloseCallback sp handler key hr hrem ih =>
    obtain ⟨w2, h2, _, _, hframe2, _⟩ :=
      Session.RemoveCloseCallback_view _ sp handler key (Reach.manager_inv hr).2.1
    rw [hrem] at h2
    cases h2
    exact World.OpenChans_of_frame hframe2 ih
  | channelPut c key session hr hput ih =>
    obtain ⟨w2, h2, _, _, hframe2, _⟩ := Channel.Put_view _ c key session (Reach.manager_inv hr).2.1
    rw [hput] at h2
    cases h2
    exact World.OpenChans_of_frame hframe2 ih
  | channelRemove c key hr hrem ih =>
    obtain ⟨w2, b2, h2, _, _, hframe2, _⟩ := Channel.Remove_view _ c key (Reach.manager_inv hr).2.1
    rw [hrem] at h2
    cases h2
    exact World.OpenChans_of_frame hframe2 ih
  | channelFetchAndRemove c hr hf ih =>
    obtain ⟨w2, h2, _, _, hframe2, _⟩ := Channel.FetchAndRemove_view _ c (Reach.manager_inv hr).2.1
    rw [hf] at h2
    cases h2
    exact World.OpenChans_of_frame hframe2 ih
  | channelClose c hr hc ih =>
    obtain ⟨w2, h2, _, _, hframe2, _⟩ := Channel.Close_chan_view _ c (Reach.manager_inv hr).2.1
    rw [hc] at h2
    cases h2
    exact World.OpenChans_of_frame hframe2 ih

/-! ## Close is idempotent -/

/-- C1: on a session that has not been closed (the `N` calls are all the calls of `Close`
it receives), `N >= 1` calls of `Close` invoke the codec's `Close` exactly once, the first
call returns what the codec's `Close` returned, every other call returns
`SessionClosedError`, and the state after the `N` calls is the state after the first
call: the later calls touch neither codec, queue nor `closeFlag`, which is 1. -/
theorem Session.Close_idempotent (w : World) (sp : Nat) (N : Nat) (hN : 1 ≤ N)
    (hopen : (w.sessions sp).closeFlag = 0) :
    (Session.closeTimes sp N w).2 =
        (Session.Close w sp).2 :: List.replicate (N - 1) (some SessionClosedError) ∧
    (Session.Close w sp).2 =
        ((Session.closeSendChan (w.sessions sp)).codec.closeFn
          (Session.closeSendChan (w.sessions sp)).codec.state).2 ∧
    ((Session.Close w sp).1.sessions sp).codec.state =
        ((Session.closeSendChan (w.sessions sp)).codec.closeFn
          (Session.closeSendChan (w.sessions sp)).codec.state).1 ∧
    (Session.closeTimes sp N w).1 = (Session.Close w sp).1 ∧
    (Session.closeTimes sp N w).1.trace.count (Event.codecClose sp) =
        w.trace.count (Event.codecClose sp) + 1 ∧
    Session.IsClosed (Session.closeTimes sp N w).1 sp = true ∧
    (∀ k, (Session.Close (Session.closeTimes sp k (Session.Close w sp).1).1 sp) =
        ((Session.Close w sp).1, some SessionClosedError)) := by
  obtain ⟨n, rfl⟩ : ∃ n, N = n + 1 := ⟨N - 1, by omega⟩
  have hc : ((Session.Close w sp).1.sessions sp).closeFlag ≠ 0 := by
    rw [Session.Close_closeFlag w sp hopen]; decide
  have hrun : Session.closeTimes sp (n + 1) w =
      ((Session.Close w sp).1,
        (Session.Close w sp).2 :: List.replicate n (some SessionClosedError)) := by
    simp only [Session.closeTimes, Session.closeTimes_of_closed sp n _ hc]
  refine ⟨by rw [hrun]; rfl, (Session.Close_result w sp hopen).1,
    (Session.Close_result w sp hopen).2, by rw [hrun], ?_, ?_, ?_⟩
  · rw [hrun]; exact Session.Close_trace w sp hopen
  · rw [hrun]
    simp [Session.IsClosed, Session.Close_closeFlag w sp hopen]
  · intro k
    rw [Session.closeTimes_of_closed sp k _ hc]
    exact Session.Close_of_closed _ sp hc

theorem Session.Close_idempotent_witness :
    (Session.closeTimes 0 3 (NewSession World.init Codec.plain 0).1).2 =
      (Session.Close (NewSession World.init Codec.plain 0).1 0).2 ::
        List.replicate (3 - 1) (some SessionClosedError) :=
  (Session.Close_idempotent (NewSession World.init Codec.plain 0).1 0 3 (by decide) rfl).1

/-! ## A full send queue closes the session -/

/-- C3: on an open session whose send queue has capacity `N >= 1`, is empty and is not
closed (the state `newSession` leaves), with nothing removed from the queue in between:
`N` calls of `Send` return nil and leave the `N` messages in the queue in the order of the
calls, the next `Send` returns `SessionBlockedError` and leaves `IsClosed` true, and every
later `Send` returns `SessionClosedError` and changes nothing. -/
theorem Session.Send_blocked (w : World) (sp : Nat) (N : Nat) (ch : SendChan) (_hN : 1 ≤ N)
    (hch : (w.sessions sp).sendChan = some ch) (hcap : ch.cap = N) (hbuf : ch.buf = [])
    (_hopen : ch.closed = false) (hflag : (w.sessions sp).closeFlag = 0)
    (msgs : List Msg) (hlen : msgs.length = N) (extra : Msg) (later : List Msg) :
    (Session.sendAll sp msgs w).2 = List.replicate N none ∧
    Session.queue (Session.sendAll sp msgs w).1 sp = some msgs ∧
    Session.IsClosed (Session.sendAll sp msgs w).1 sp = false ∧
    (Session.Send (Session.sendAll sp msgs w).1 sp extra).2 = some SessionBlockedError ∧
    Session.IsClosed (Session.Send (Session.sendAll sp msgs w).1 sp extra).1 sp = true ∧
    Session.sendAll sp later (Session.Send (Session.sendAll sp msgs w).1 sp extra).1 =
      ((Session.Send (Session.sendAll sp msgs w).1 sp extra).1,
        List.replicate later.length (some SessionClosedError)) := by
  have hrun := Session.sendAll_room sp msgs w ch hch hflag (by simp [hbuf, hlen, hcap])
  have hch1 : ((Session.sendAll sp msgs w).1.sessions sp).sendChan =
      some { ch with buf := ch.buf ++ msgs } := by
    rw [hrun]; simp [World.setSession]
  have hflag1 : ((Session.sendAll sp msgs w).1.sessions sp).closeFlag = 0 := by
    rw [hrun]; simp [World.setSession, hflag]
  have hfull := Session.Send_full (Session.sendAll sp msgs w).1 sp extra _ hch1 hflag1
    (by simp [hbuf, hlen, hcap])
  have hclosed := Session.Close_closeFlag (Session.sendAll sp msgs w).1 sp hflag1
  refine ⟨by rw [hrun, hlen], ?_, ?_, by rw [hfull], ?_, ?_⟩
  · simp [Session.queue, hch1, hbuf]
  · simp [Session.IsClosed, hflag1]
  · rw [hfull]; simp [Session.IsClosed, hclosed]
  · rw [hfull]; exact Session.sendAll_of_closed sp later _ hclosed

theorem Session.Send_blocked_witness :
    (Session.sendAll 0 [10, 11] (NewSession World.init Codec.plain 2).1).2 =
        List.replicate 2 none ∧
    Session.queue (Session.sendAll 0 [10, 11] (NewSession World.init Codec.plain 2).1).1 0 =
        some [10, 11] ∧
    (Session.Send (Session.sendAll 0 [10, 11] (NewSession World.init Codec.plain 2).1).1 0 12).2 =
        some SessionBlockedError :=
  have h := Session.Send_blocked (NewSession World.init Codec.plain 2).1 0 2
    { cap := 2, buf := [], closed := false } (by decide) rfl rfl rfl rfl rfl [10, 11] rfl 12 [13]
  ⟨h.1, h.2.1, h.2.2.2.1⟩

/-! ## The callbacks run by Close are the reference list -/

/-- C2: on an open session of a well-formed state, after any sequence of calls of
`AddCloseCallback` and `RemoveCloseCallback`, the registry is the reference list (each
add appends, each remove erases only the first entry with equal handler and key), and
`Close` followed by the goroutine it starts logs the close of the codec and then the
invocation of each entry of the reference list exactly once, in order of addition.
On a closed session `AddCloseCallback` and `RemoveCloseCallback` change nothing. -/
theorem Session.close_runs_reference_list (w : World) (sp : Nat) (ops : List RegOp)
    (hwf : World.WF w) (hopen : (w.sessions sp).closeFlag = 0) :
    (∃ w1 w2, RegOp.runAll sp ops w = some w1 ∧
      (w1.sessions sp).callbacks = refList (w.sessions sp).callbacks ops ∧
      World.runCloseTask (Session.Close w1 sp).1 sp = some w2 ∧
      w2.trace = w.trace ++ Session.closeEvents (w.sessions sp) sp ++
        (refList (w.sessions sp).callbacks ops).map (callbackEvent sp) ++
        Session.leaveEvents (w.sessions sp) sp ∧
      (Session.closeEvents (w.sessions sp) sp).getLast? = some (Event.codecClose sp)) ∧
    (∀ (v : World) (handler key : Val) (callback : Func), (v.sessions sp).closeFlag = 1 →
      Session.AddCloseCallback v sp handler key callback = some v ∧
      Session.RemoveCloseCallback v sp handler key = some v) := by
  refine ⟨?_, fun v handler key callback hc =>
    ⟨Session.AddCloseCallback_of_closed v sp handler key callback hc,
      Session.RemoveCloseCallback_of_closed v sp handler key hc⟩⟩
  obtain ⟨w1, h1, hwf1, hframe1, htrace1, hcbs1⟩ := RegOp.runAll_spec sp ops w hwf hopen
  obtain ⟨c1, c2, c3, c4, c5, c6⟩ := hframe1.2.2.2.2.1 sp
  have hopen1 : (w1.sessions sp).closeFlag = 0 := by rw [c5]; exact hopen
  -- the state after Close, with the goroutine taken from the pending tasks
  obtain ⟨w2, hw2⟩ : ∃ x : World, x = { (Session.Close w1 sp).1 with
      tasks := (Session.Close w1 sp).1.tasks.erase (Task.closeTask sp) } := ⟨_, rfl⟩
  have hmem : Task.closeTask sp ∈ (Session.Close w1 sp).1.tasks := by
    rw [Session.Close_open w1 sp hopen1]; simp
  have hwf2 : World.WF w2 := by rw [hw2]; exact (Session.Close_view w1 sp hwf1).1
  have hrec : w2.sessions sp = Session.closedRecord (w1.sessions sp) := by
    rw [hw2]
    show (Session.Close w1 sp).1.sessions sp = _
    rw [Session.Close_open w1 sp hopen1]; simp
  obtain ⟨f1, f2, f3, f4, f5, f6⟩ := Session.closedRecord_fields (w1.sessions sp)
  have hclosed2 : (w2.sessions sp).closeFlag = 1 := by rw [hrec]; exact f6
  have hcbs2 : (w2.sessions sp).callbacks = refList (w.sessions sp).callbacks ops := by
    rw [hrec, (Session.closedRecord_callbacks _).1, hcbs1]
  have htrace2 : w2.trace = w.trace ++ Session.closeEvents (w.sessions sp) sp := by
    rw [hw2]
    show (Session.Close w1 sp).1.trace = _
    rw [Session.Close_open w1 sp hopen1]
    simp only [htrace1, Session.closeEvents, c2, c4]
  obtain ⟨w3, w4, _, h4, _, _, _, htrace3, hw4⟩ := Session.closeTask_spec w2 sp hwf2 hclosed2
  refine ⟨w1, w4, h1, hcbs1, ?_, ?_, ?_⟩
  · unfold World.runCloseTask
    rw [if_pos hmem, ← hw2]
    exact h4
  · have hm : (w2.sessions sp).manager = (w.sessions sp).manager := by rw [hrec, f5, c3]
    rw [hw4, hm]
    unfold Session.leaveEvents
    cases (w.sessions sp).manager with
    | none => simp [htrace3, htrace2, hcbs2]
    | some m => simp [Manager.delSession_trace, htrace3, htrace2, hcbs2]
  · unfold Session.closeEvents
    split <;> rfl

theorem Session.close_runs_reference_list_witness :
    ∃ w1 w2, RegOp.runAll 0
        [RegOp.add (Val.data 1) (Val.data 2) (Func.user 5),
         RegOp.add (Val.data 1) (Val.data 2) (Func.user 6),
         RegOp.remove (Val.data 1) (Val.data 2)]
        (NewSession World.init Codec.plain 0).1 = some w1 ∧
      (w1.sessions 0).callbacks =
        refList ((NewSession World.init Codec.plain 0).1.sessions 0).callbacks
          [RegOp.add (Val.data 1) (Val.data 2) (Func.user 5),
           RegOp.add (Val.data 1) (Val.data 2) (Func.user 6),
           RegOp.remove (Val.data 1) (Val.data 2)] ∧
      World.runCloseTask (Session.Close w1 0).1 0 = some w2 ∧
      w2.trace = (NewSession World.init Codec.plain 0).1.trace ++
        Session.closeEvents ((NewSession World.init Codec.plain 0).1.sessions 0) 0 ++
        (refList ((NewSession World.init Codec.plain 0).1.sessions 0).callbacks
          [RegOp.add (Val.data 1) (Val.data 2) (Func.user 5),
           RegOp.add (Val.data 1) (Val.data 2) (Func.user 6),
           RegOp.remove (Val.data 1) (Val.data 2)]).map (callbackEvent 0) ++
        Session.leaveEvents ((NewSession World.init Codec.plain 0).1.sessions 0) 0 ∧
      (Session.closeEvents ((NewSession World.init Codec.plain 0).1.sessions 0) 0).getLast? =
        some (Event.codecClose 0) :=
  (Session.close_runs_reference_list (NewSession World.init Codec.plain 0).1 0
    [RegOp.add (Val.data 1) (Val.data 2) (Func.user 5),
     RegOp.add (Val.data 1) (Val.data 2) (Func.user 6),
     RegOp.remove (Val.data 1) (Val.data 2)]
    (newSession_WF World.init none Codec.plain 0 World.WF_init) rfl).1
/-! ## One close callback per entry of a channel -/

/-- C8, as the code has it: in every state reachable through `Channel.Put`, `Remove`,
`FetchAndRemove` and `Close` (and `Session.Close` with its goroutine), for every key that
is equal to itself (it is not a NaN): the channel holds at most one entry under the key,
and every session that is not closed has exactly one close callback with the channel as
handler and the key as key when (key, session) is an entry of the channel, and none
when it is not. In these states each of the four channel operations returns, for every
key of a comparable type (the values of `KEY`). -/
theorem Channel.one_callback_per_open_entry (w : World) (h : ChannelReach w) :
    (∀ c key sp, key ≠ Val.nan → Session.IsClosed w sp = false →
      (w.sessions sp).callbacks.countP (fun e => e.1 = Val.channel c ∧ e.2.1 = key) =
        if (key, sp) ∈ (w.channels c).sessions then 1 else 0) ∧
    (∀ c key, key ≠ Val.nan →
      ((w.channels c).sessions.filter (fun e => e.1 = key)).length ≤ 1) ∧
    (∀ c key sp, (Channel.Put w c key sp).isSome = true ∧
      (Channel.Remove w c key).isSome = true ∧
      (Channel.FetchAndRemove w c).isSome = true ∧ (Channel.Close w c).isSome = true) := by
  have hinv := ChannelReach.channel_inv h
  refine ⟨fun c key sp hkey hopen => ?_,
    fun c key hkey => keyFilter_length_le key hkey _ (hinv.2.1.2.2 c), fun c key sp => ?_⟩
  · have hk : Val.eq key key = true := (Val.eq_self key).mpr hkey
    have hcount := hinv.2.1.1 c key sp hopen
    have hsame : (w.sessions sp).callbacks.countP (fun e => e.1 = Val.channel c ∧ e.2.1 = key) =
        (w.sessions sp).callbacks.countP (Entry.tagged (Val.channel c) key) := by
      apply List.countP_congr
      intro e _
      rw [Entry.tagged_iff]
      simp only [decide_eq_true_eq]
      exact ⟨fun h1 => ⟨h1.1, h1.2, by simp, hkey⟩, fun h1 => ⟨h1.1, h1.2.1⟩⟩
    have hmem : (key, sp) ∈ (w.channels c).sessions ↔
        keyGet (w.channels c).sessions key = some sp :=
      ⟨fun h1 => keyGet_of_mem_pairwise _ (key, sp) h1 hk (hinv.2.1.2.2 c),
        fun h1 => (mem_of_keyGet h1).1⟩
    rw [hsame]
    by_cases hm : (key, sp) ∈ (w.channels c).sessions
    · rw [if_pos hm]
      exact hcount.trans (if_pos (hmem.mp hm))
    · rw [if_neg hm]
      exact hcount.trans (if_neg (fun h1 => hm (hmem.mpr h1)))
  · obtain ⟨_, h1, _⟩ := Channel.Put_view w c key sp hinv.1
    obtain ⟨_, _, h2, _⟩ := Channel.Remove_view w c key hinv.1
    obtain ⟨_, h3, _⟩ := Channel.FetchAndRemove_view w c hinv.1
    obtain ⟨_, h4, _⟩ := Channel.Close_chan_view w c hinv.1
    rw [h1, h2, h3, h4]
    exact ⟨rfl, rfl, rfl, rfl⟩

theorem Channel.one_callback_per_open_entry_witness :
    (onePutWorld.channels 7).sessions = [(Val.data 1, 0)] ∧
    (onePutWorld.sessions 0).callbacks.countP
      (fun e => e.1 = Val.channel 7 ∧ e.2.1 = Val.data 1) =
        (if (Val.data 1, 0) ∈ (onePutWorld.channels 7).sessions then 1 else 0) ∧
    (onePutWorld.sessions 1).callbacks.countP
      (fun e => e.1 = Val.channel 7 ∧ e.2.1 = Val.data 1) =
        (if (Val.data 1, 1) ∈ (onePutWorld.channels 7).sessions then 1 else 0) :=
  ⟨by decide,
    (Channel.one_callback_per_open_entry onePutWorld ChannelReach.onePut).1 7 (Val.data 1) 0
      (by decide) rfl,
    (Channel.one_callback_per_open_entry onePutWorld ChannelReach.onePut).1 7 (Val.data 1) 1
      (by decide) rfl⟩

/-- C8 as stated fails at two inputs. (1) A closed session: `Channel.Put` of the closed
session 0 under a key gives a reachable state in which the channel holds the entry and
the session has no callback with the channel as handler and the key as key. (2) A NaN
key: after `Channel.Put` of the open session 0 under a NaN key, twice, the state is
reachable, the channel holds two entries under the key, and the session has two
callbacks with the channel as handler and the key as key; `Remove` of the key finds no
entry and changes nothing. -/
theorem Channel.Put_of_closed_session_registers_nothing :
    (∃ w, Channel.Put closedSessionWorld 7 (Val.data 1) 0 = some w ∧ ChannelReach w ∧
      (Val.data 1, 0) ∈ (w.channels 7).sessions ∧
      (w.sessions 0).callbacks.countP (fun e => e.1 = Val.channel 7 ∧ e.2.1 = Val.data 1) = 0) ∧
    (ChannelReach nanPutWorld ∧ Session.IsClosed nanPutWorld 0 = false ∧
      (nanPutWorld.channels 7).sessions = [(Val.nan, 0), (Val.nan, 0)] ∧
      (nanPutWorld.sessions 0).callbacks.countP
        (fun e => e.1 = Val.channel 7 ∧ e.2.1 = Val.nan) = 2 ∧
      Channel.Remove nanPutWorld 7 Val.nan = some (nanPutWorld, false)) :=
  ⟨⟨_, rfl, ChannelReach.put 7 (Val.data 1) 0 ChannelReach.closedSession rfl, by decide,
      by decide⟩,
    ChannelReach.nanPut, by decide, by decide, by decide, rfl⟩
/-! ## A closed session leaves its channel -/

/-- C4, as the code has it: for a well-formed state, a channel, a key and a session that
is not closed when `Put` is called: after `Put(key, session)`, `Close` of the session and
the run of the goroutine `Close` started, `Get(key)` is nil; and when the key is equal to
itself (it is not a NaN), the channel has no entry under the key, `Len` is at most the
number of the other entries the channel had, and it is 0 when the channel was empty
before `Put`. -/
theorem Channel.closed_session_is_evicted (w : World) (c : Nat) (key : KEY) (sp : Nat)
    (hwf : World.WF w) (hopen : (w.sessions sp).closeFlag = 0) :
    ∃ w1 w2, Channel.Put w c key sp = some w1 ∧
      World.runCloseTask (Session.Close w1 sp).1 sp = some w2 ∧
      Channel.Get w2 c key = none ∧
      (key ≠ Val.nan →
        (∀ e ∈ (w2.channels c).sessions, e.1 ≠ key) ∧
        Channel.Len w2 c ≤ ((w.channels c).sessions.filter (fun e => e.1 ≠ key)).length ∧
        ((w.channels c).sessions = [] → Channel.Len w2 c = 0)) := by
  obtain ⟨w1, h1, hwf1, hview1, hframe1, _⟩ := Channel.Put_view w c key sp hwf
  have hopen1 : (w1.sessions sp).closeFlag = 0 := by
    rw [(hframe1.2.2.2.2.1 sp).2.2.2.2.1]; exact hopen
  obtain ⟨w2, h2, _, hview2, _⟩ := Session.close_then_task w1 sp hwf1 hopen1
  -- the registry of the session ends with the closure of this Put
  obtain ⟨p1, p2, p3, _⟩ := View.Put_fields w.view c key sp
  obtain ⟨r1, _, _, _⟩ := View.Remove_fields w.view c key
  obtain ⟨_, _, a3, _⟩ := View.addCb_fields (w.view.Remove c key) sp (Val.channel c) key
    (Func.channelRemove c key)
  have hv0 : w.view.closed sp = false := World.view_closed_false hopen
  have hcbs : (w1.sessions sp).callbacks =
      (w.view.Remove c key).cbs sp ++ [(Val.channel c, key, Func.channelRemove c key)] := by
    have : w1.view.cbs sp = (w.view.Put c key sp).cbs sp := by rw [hview1]
    rw [p2, a3, r1, hv0] at this
    simpa using this
  have hchans1 : (w1.view.sessionClose sp).chans c =
      keySet (keyDelete (w.view.chans c) key) key sp := by
    rw [← p3, ← hview1]
    unfold View.sessionClose
    split <;> rfl
  -- so the last call of the goroutine is Remove(key) on this channel
  obtain ⟨_, q2, _, q4⟩ := View.Remove_fields
    ((w1.view.sessionClose sp).runEntries ((w.view.Remove c key).cbs sp)) c key
  have hfinal : w2.view.chans c = keyDelete
      (((w1.view.sessionClose sp).runEntries ((w.view.Remove c key).cbs sp)).chans c) key := by
    rw [hview2, hcbs, View.runEntries_append]
    exact q2
  have hget : Channel.Get w2 c key = none := by
    show keyGet (w2.view.chans c) key = none
    rw [hfinal]
    exact keyGet_keyDelete_same _ _
  refine ⟨w1, w2, h1, h2, hget, fun hkey => ?_⟩
  have hk : Val.eq key key = true := (Val.eq_self key).mpr hkey
  have hfilter : keyDelete (w.view.chans c) key =
      (w.channels c).sessions.filter (fun e => e.1 ≠ key) := by
    unfold keyDelete
    apply List.filter_congr
    intro e _
    rw [Val.eq_of_self hk]
    simp
  have hsub : (w2.view.chans c).Sublist (keyDelete (w.view.chans c) key) := by
    rw [hfinal, ← keyDelete_keySet (w.view.chans c) key sp hk, ← hchans1]
    exact keyDelete_sublist key (View.runEntries_chans _ _ c)
  refine ⟨?_, ?_, ?_⟩
  · intro e he hek
    have he1 : e ∈ w2.view.chans c := he
    rw [hfinal] at he1
    have := (List.mem_filter.mp he1).2
    rw [hek, hk] at this
    simp at this
  · rw [← hfilter]
    exact hsub.length_le
  · intro hempty
    have hle := hsub.length_le
    have h0 : (keyDelete (w.view.chans c) key).length = 0 := by
      show (keyDelete (w.channels c).sessions key).length = 0
      rw [hempty]; rfl
    have : (w2.view.chans c).length = 0 := by omega
    exact this

theorem Channel.closed_session_is_evicted_witness :
    ∃ w1 w2, Channel.Put onePutWorld 7 (Val.data 2) 1 = some w1 ∧
      World.runCloseTask (Session.Close w1 1).1 1 = some w2 ∧
      Channel.Get w2 7 (Val.data 2) = none ∧
      (Val.data 2 ≠ Val.nan →
        (∀ e ∈ (w2.channels 7).sessions, e.1 ≠ Val.data 2) ∧
        Channel.Len w2 7 ≤
          ((onePutWorld.channels 7).sessions.filter (fun e => e.1 ≠ Val.data 2)).length ∧
        ((onePutWorld.channels 7).sessions = [] → Channel.Len w2 7 = 0)) :=
  Channel.closed_session_is_evicted onePutWorld 7 (Val.data 2) 1
    (ChannelReach.channel_inv ChannelReach.onePut).1 rfl

/-- C4 as stated fails at two inputs. (1) The session is closed when `Put` is called:
after `Put(key, session)`, `Close` (which returns `SessionClosedError`) and the run of the
pending goroutine of the first `Close`, `Get(key)` is still the session and `Len` is 1.
(2) The key is a NaN and the session is open: after `Put`, `Close` and the run of the
goroutine, the entry is still in the map of the channel, which held nothing else, and
`Len` is 1. -/
theorem Channel.closed_session_stays_in_channel :
    (∃ w1 w2, Channel.Put closedSessionWorld 7 (Val.data 1) 0 = some w1 ∧
      (Session.Close w1 0).2 = some SessionClosedError ∧
      World.runCloseTask (Session.Close w1 0).1 0 = some w2 ∧
      Channel.Get w2 7 (Val.data 1) = some 0 ∧ Channel.Len w2 7 = 1) ∧
    (∃ w1 w2, (twoSessionWorld.channels 7).sessions = [] ∧
      Session.IsClosed twoSessionWorld 0 = false ∧
      Channel.Put twoSessionWorld 7 Val.nan 0 = some w1 ∧
      (Session.Close w1 0).2 = none ∧
      World.runCloseTask (Session.Close w1 0).1 0 = some w2 ∧
      (w2.channels 7).sessions = [(Val.nan, 0)] ∧ Channel.Len w2 7 = 1) :=
  ⟨⟨_, _, rfl, rfl, rfl, by decide, by decide⟩,
    ⟨_, _, rfl, rfl, rfl, rfl, rfl, by decide, by decide⟩⟩
/-! ## Put under a key that is taken -/

/-- C5, as the code has it: in a state with the invariant of the reachable states, for a
key that is equal to itself (it is not a NaN) and two different sessions of which the
first is not closed: after `Put(key, s1)` and `Put(key, s2)`, `Get(key)` is `s2` and the
channel has a single entry under the key; after `Close` of `s1` and the run of its
goroutine `Get(key)` is still `s2`, and the channel is unchanged when it did not hold
`s1` under another key. -/
theorem Channel.Put_replaces_session (w : World) (c : Nat) (key : KEY) (s1 s2 : Nat)
    (hinv : World.ChannelInv w) (hkey : key ≠ Val.nan) (hne : s1 ≠ s2)
    (hopen : (w.sessions s1).closeFlag = 0) :
    ∃ w1 w2 w3, Channel.Put w c key s1 = some w1 ∧ Channel.Put w1 c key s2 = some w2 ∧
      Channel.Get w2 c key = some s2 ∧
      ((w2.channels c).sessions.filter (fun e => e.1 = key)).length = 1 ∧
      World.runCloseTask (Session.Close w2 s1).1 s1 = some w3 ∧
      Channel.Get w3 c key = some s2 ∧
      ((∀ k1, (k1, s1) ∈ (w.channels c).sessions → k1 = key) →
        w3.channels c = w2.channels c) := by
  obtain ⟨hwf, hvinv⟩ := hinv
  have hk : Val.eq key key = true := (Val.eq_self key).mpr hkey
  obtain ⟨w1, h1, hwf1, hview1, hframe1, _⟩ := Channel.Put_view w c key s1 hwf
  obtain ⟨w2, h2, hwf2, hview2, hframe2, _⟩ := Channel.Put_view w1 c key s2 hwf1
  have hinv1 : w1.view.Inv := hview1 ▸ View.Put_inv _ c key s1 hvinv
  have hinv2 : w2.view.Inv := hview2 ▸ View.Put_inv _ c key s2 hinv1
  have hopen2 : (w2.sessions s1).closeFlag = 0 := by
    rw [(hframe2.2.2.2.2.1 s1).2.2.2.2.1, (hframe1.2.2.2.2.1 s1).2.2.2.2.1]; exact hopen
  have hv2 : w2.view.closed s1 = false := World.view_closed_false hopen2
  obtain ⟨w3, h3, _, hview3, _⟩ := Session.close_then_task w2 s1 hwf2 hopen2
  -- the map of the channel after the two calls of Put
  obtain ⟨_, _, p3, _⟩ := View.Put_fields w.view c key s1
  obtain ⟨_, _, q3, _⟩ := View.Put_fields w1.view c key s2
  have hchans2 : w2.view.chans c = keySet (keyDelete (w.view.chans c) key) key s2 := by
    rw [hview2, q3, hview1, p3, keyDelete_keySet _ _ _ hk]
  have hget2 : keyGet (w2.view.chans c) key = some s2 := by
    rw [hchans2]; exact keyGet_keySet_same _ _ _ hk
  have hclosedchans : (w2.view.sessionClose s1).chans = w2.view.chans := by
    unfold View.sessionClose
    split <;> rfl
  -- the registry of s1 holds no closure for this key
  have hnone : ∀ e ∈ (w2.sessions s1).callbacks, e.2.2 ≠ Func.channelRemove c key :=
    View.no_closure_of_not_member w2.view hinv2 c key hkey s1 hv2
      (by rw [hget2]; exact fun h => hne (by injection h with h; exact h.symm))
  refine ⟨w1, w2, w3, h1, h2, hget2, ?_, h3, ?_, ?_⟩
  · show ((w2.view.chans c).filter (fun e => e.1 = key)).length = 1
    rw [hchans2]
    unfold keySet keyDelete
    rw [List.filter_cons_of_pos (by simp)]
    have hnil : ∀ l : List (KEY × Nat), List.filter (fun e : KEY × Nat => decide (e.1 = key))
        (List.filter (fun e => !Val.eq e.1 key) l) = [] := by
      intro l
      rw [List.filter_eq_nil_iff]
      intro e he
      have := (List.mem_filter.mp he).2
      rw [Val.eq_of_self hk] at this
      simpa using this
    exact congrArg (fun l : List (KEY × Nat) => ((key, s2) :: l).length) (hnil _)
  · show keyGet (w3.view.chans c) key = some s2
    rw [hview3, View.runEntries_keyGet _ _ c key hnone, hclosedchans]
    exact hget2
  · intro honly
    apply Channel.eq_of_sessions
    show w3.view.chans c = w2.view.chans c
    rw [hview3, View.runEntries_chans_same _ _ c, hclosedchans]
    intro e he k1 hk1
    apply View.no_closure_of_not_member w2.view hinv2 c k1 hk1 s1 hv2 _ e he
    by_cases hkk : k1 = key
    · subst hkk
      rw [hget2]; exact fun h => hne (by injection h with h; exact h.symm)
    · rw [hchans2, keyGet_keySet_other _ _ hkk, keyGet_keyDelete_other _ hkk]
      exact fun h => hkk (honly k1 (mem_of_keyGet h).1)

theorem Channel.Put_replaces_session_witness :
    ∃ w1 w2 w3, Channel.Put twoSessionWorld 7 (Val.data 1) 0 = some w1 ∧
      Channel.Put w1 7 (Val.data 1) 1 = some w2 ∧
      Channel.Get w2 7 (Val.data 1) = some 1 ∧
      ((w2.channels 7).sessions.filter (fun e => e.1 = Val.data 1)).length = 1 ∧
      World.runCloseTask (Session.Close w2 0).1 0 = some w3 ∧
      Channel.Get w3 7 (Val.data 1) = some 1 ∧
      ((∀ k1, (k1, 0) ∈ (twoSessionWorld.channels 7).sessions → k1 = Val.data 1) →
        w3.channels 7 = w2.channels 7) :=
  Channel.Put_replaces_session twoSessionWorld 7 (Val.data 1) 0 1
    ⟨(ChannelReach.channel_inv ChannelReach.twoSessions).1, (ChannelReach.channel_inv ChannelReach.twoSessions).2.1⟩
    (by decide) (by decide) rfl

/-- C5 as stated fails at four inputs. (1) The two sessions are one and the same: after
`Put(key, s)` twice, `Close` of `s` and the run of its goroutine, `Get(key)` is nil.
(2) The first session is closed, its goroutine pending and its registry still holding the
closure of an earlier `Put` under the key: `Put` cannot remove it, and the run of the
goroutine removes the entry of the second session. (3) The channel holds the first
session under a second key as well: closing it removes that entry, so the channel
changes, while `Get(key)` is still the second session. (4) The key is a NaN: after
`Put(key, s1)` and `Put(key, s2)` with two different open sessions the channel holds two
entries under the key and `Get(key)` is nil. -/
theorem Channel.Put_replacement_fails :
    (∃ w1 w2 w3, Channel.Put twoSessionWorld 7 (Val.data 1) 0 = some w1 ∧
      Channel.Put w1 7 (Val.data 1) 0 = some w2 ∧
      Channel.Get w2 7 (Val.data 1) = some 0 ∧
      World.runCloseTask (Session.Close w2 0).1 0 = some w3 ∧
      Channel.Get w3 7 (Val.data 1) = none) ∧
    (∃ w0 w1 w2 w3, Channel.Put twoSessionWorld 7 (Val.data 1) 0 = some w0 ∧
      Channel.Put (Session.Close w0 0).1 7 (Val.data 1) 0 = some w1 ∧
      Channel.Put w1 7 (Val.data 1) 1 = some w2 ∧
      Channel.Get w2 7 (Val.data 1) = some 1 ∧
      World.runCloseTask (Session.Close w2 0).1 0 = some w3 ∧
      Channel.Get w3 7 (Val.data 1) = none) ∧
    (∃ w0 w1 w2 w3, Channel.Put twoSessionWorld 7 (Val.data 2) 0 = some w0 ∧
      Channel.Put w0 7 (Val.data 1) 0 = some w1 ∧
      Channel.Put w1 7 (Val.data 1) 1 = some w2 ∧
      World.runCloseTask (Session.Close w2 0).1 0 = some w3 ∧
      Channel.Get w3 7 (Val.data 1) = some 1 ∧
      Channel.Len w2 7 = 2 ∧ Channel.Len w3 7 = 1) ∧
    (∃ w1 w2, Channel.Put twoSessionWorld 7 Val.nan 0 = some w1 ∧
      Channel.Put w1 7 Val.nan 1 = some w2 ∧
      Channel.Get w2 7 Val.nan = none ∧
      (w2.channels 7).sessions = [(Val.nan, 1), (Val.nan, 0)]) :=
  ⟨⟨_, _, _, rfl, rfl, by decide, rfl, by decide⟩,
    ⟨_, _, _, _, rfl, rfl, rfl, by decide, rfl, by decide⟩,
    ⟨_, _, _, _, rfl, rfl, rfl, rfl, by decide, by decide, by decide⟩,
    ⟨_, _, rfl, rfl, by decide, by decide⟩⟩

/-! ## NewSession on a disposed manager -/

/-- C6: in a reachable state in which the shard of the id that is assigned next is marked
disposed, `Manager.NewSession` returns a session that is closed, leaves every shard and
the wait counter of the manager as they were, `GetSession` of the id of the session is
nil, and this is still so after the goroutine of `Close` has run `delSession`. The
result of `NewSession` is the session alone: there is no error to return. -/
theorem Manager.NewSession_on_disposed_shard (w : World) (m : Nat) (codec : Codec)
    (sendChanSize : Int) (hreach : Reach w)
    (hdisp : ((w.managers m).sessionMaps
      (((w.globalSessionId + 1) % 2 ^ 64) % sessionMapNum)).disposed = true) :
    Session.IsClosed (Manager.NewSession w m codec sendChanSize).1
        (Manager.NewSession w m codec sendChanSize).2 = true ∧
    (Manager.NewSession w m codec sendChanSize).1.managers = w.managers ∧
    Manager.GetSession (Manager.NewSession w m codec sendChanSize).1 m
        (Session.ID (Manager.NewSession w m codec sendChanSize).1
          (Manager.NewSession w m codec sendChanSize).2) = none ∧
    ∃ w2, World.runCloseTask (Manager.NewSession w m codec sendChanSize).1
        (Manager.NewSession w m codec sendChanSize).2 = some w2 ∧
      w2.managers = w.managers ∧
      (w2.managers m).disposeWait = (w.managers m).disposeWait ∧
      Manager.GetSession w2 m (Session.ID (Manager.NewSession w m codec sendChanSize).1
          (Manager.NewSession w m codec sendChanSize).2) = none := by
  have hfresh := Manager.next_id_fresh w (Reach.manager_inv hreach).1 m
  obtain ⟨_, f2, _, _, _, f6⟩ := newSession_frame w (some m) codec sendChanSize
  obtain ⟨s1, _, s3, _, s5, _, s7, s8⟩ := newSession_sessions w (some m) codec sendChanSize
  have hstep : Manager.NewSession w m codec sendChanSize =
      ((Session.Close (newSession w (some m) codec sendChanSize).1 w.nextSession).1,
        w.nextSession) := by
    unfold Manager.NewSession
    simp only [s1]
    rw [Manager.putSession_disposed _ m _ (by rw [s7, f2]; exact hdisp)]
  rw [hstep]
  generalize (newSession w (some m) codec sendChanSize).1 = w1 at f2 f6 s3 s5 s7 s8 ⊢
  simp only []
  have hopen := Session.Close_open w1 w.nextSession s3
  obtain ⟨c1, c2, _, c4, c5, c6⟩ := Session.closedRecord_fields (w1.sessions w.nextSession)
  obtain ⟨w2, hw2⟩ : ∃ x : World, x = (Session.Close w1 w.nextSession).1 := ⟨_, rfl⟩
  rw [← hw2]
  rw [← hw2] at hopen
  have hsess : w2.sessions w.nextSession = Session.closedRecord (w1.sessions w.nextSession) := by
    rw [hopen]; simp
  have hmgr : w2.managers = w.managers := by rw [hopen]; exact f2
  have hidw : Session.ID w2 w.nextSession = (w.globalSessionId + 1) % 2 ^ 64 := by
    unfold Session.ID
    rw [hsess, c4, s7]
  have hget2 : Manager.GetSession w2 m (Session.ID w2 w.nextSession) = none := by
    rw [hidw, Manager.GetSession_of_shard, hmgr]
    exact hfresh
  refine ⟨by simp [Session.IsClosed, hsess, c6], hmgr, hget2, ?_⟩
  -- the goroutine: no callback to run, then delSession finds nothing
  obtain ⟨w3, hw3⟩ : ∃ x : World, x =
      { w2 with tasks := w2.tasks.erase (Task.closeTask w.nextSession) } := ⟨_, rfl⟩
  have hmem : Task.closeTask w.nextSession ∈ w2.tasks := by rw [hopen]; simp
  have hs3 : w3.sessions = w2.sessions := by rw [hw3]
  have hm3 : w3.managers = w2.managers := by rw [hw3]
  have hfirst : (w3.sessions w.nextSession).firstCloseCallback = 0 := by
    rw [hs3, hsess, c2, s5]
  have hman : (w3.sessions w.nextSession).manager = some m := by rw [hs3, hsess, c5, s8]
  have hid3 : (w3.sessions w.nextSession).id = (w.globalSessionId + 1) % 2 ^ 64 := by
    rw [hs3, hsess, c4, s7]
  have hdel : (Manager.delSession w3 m w.nextSession).managers = w3.managers := by
    apply Manager.delSession_absent
    rw [hid3, hm3, hmgr]
    exact hfresh
  have hrun : World.runCloseTask w2 w.nextSession =
      some (Manager.delSession w3 m w.nextSession) := by
    unfold World.runCloseTask
    rw [if_pos hmem, ← hw3]
    unfold Session.closeTask
    rw [Session.invokeCloseCallbacks_empty w3 _ hfirst, Option.map_some', hman]
  have hmfinal : (Manager.delSession w3 m w.nextSession).managers = w.managers := by
    rw [hdel, hm3, hmgr]
  refine ⟨_, hrun, hmfinal, by rw [hmfinal], ?_⟩
  rw [hidw, Manager.GetSession_of_shard, hmfinal]
  exact hfresh

theorem Manager.NewSession_on_disposed_shard_witness :
    Session.IsClosed (Manager.NewSession (Manager.Dispose World.init 0) 0 Codec.plain 0).1
        (Manager.NewSession (Manager.Dispose World.init 0) 0 Codec.plain 0).2 = true ∧
    (Manager.NewSession (Manager.Dispose World.init 0) 0 Codec.plain 0).1.managers =
      (Manager.Dispose World.init 0).managers :=
  have h := Manager.NewSession_on_disposed_shard (Manager.Dispose World.init 0) 0 Codec.plain 0
    (Reach.dispose 0 Reach.start) (by decide)
  ⟨h.1, h.2.1⟩

/-! ## Lookup of registered sessions -/

/-- C7: in every reachable state and for every manager, a session that `NewSession` has
registered and that has not been deleted is what `GetSession` of its id returns, it is
stored in the shard with index id mod 32 and in no other shard, and `GetSession` of an id
that no registered session has returns nil. `NewSession` on a manager whose target shard
is not disposed registers the session it returns. -/
theorem Manager.GetSession_of_registered (w : World) (m : Nat) (hreach : Reach w) :
    (∀ p, Manager.registered w m p →
      Manager.GetSession w m (Session.ID w p) = some p ∧
      (Session.ID w p, p) ∈
        ((w.managers m).sessionMaps (Session.ID w p % sessionMapNum)).sessions ∧
      ∀ i, i ≠ Session.ID w p % sessionMapNum →
        ∀ e ∈ ((w.managers m).sessionMaps i).sessions, e.2 ≠ p) ∧
    (∀ id, (∀ p, Manager.registered w m p → Session.ID w p ≠ id) →
      Manager.GetSession w m id = none) ∧
    (∀ (codec : Codec) (sendChanSize : Int), w.globalSessionId + 1 < 2 ^ 64 →
      ((w.managers m).sessionMaps
        (((w.globalSessionId + 1) % 2 ^ 64) % sessionMapNum)).disposed = false →
      Manager.registered (Manager.NewSession w m codec sendChanSize).1 m
        (Manager.NewSession w m codec sendChanSize).2 ∧
      Manager.GetSession (Manager.NewSession w m codec sendChanSize).1 m
        (Session.ID (Manager.NewSession w m codec sendChanSize).1
          (Manager.NewSession w m codec sendChanSize).2) =
        some (Manager.NewSession w m codec sendChanSize).2) := by
  have hinv := (Reach.manager_inv hreach).1
  obtain ⟨a1, a2, a3, a4, a5, a6, a7, a8⟩ := hinv
  have hID : ∀ p, Manager.registered w m p → Session.ID w p = p + 1 :=
    fun p hp => a3 p (a8 m p (Or.inl hp.1))
  refine ⟨fun p hp => ?_, fun id hid => ?_, fun codec sendChanSize hwrap hdisp => ?_⟩
  · have hget : Manager.GetSession w m (p + 1) = some p := (a7 m p).mpr hp
    rw [hID p hp]
    refine ⟨hget, mem_of_mapGet hget, fun i hi e he hep => ?_⟩
    obtain ⟨_, h2, h3⟩ := a4 m i e he
    rw [hep] at h2
    rw [h2] at h3
    exact hi h3
  · cases hget : Manager.GetSession w m id with
    | none => rfl
    | some q =>
      exfalso
      have hmem := mem_of_mapGet hget
      obtain ⟨hreg, h2, _, _⟩ := Manager.registered_of_mem w
        ⟨a1, a2, a3, a4, a5, a6, a7, a8⟩ m _ _ hmem
      exact hid q hreg ((hID q hreg).trans h2.symm)
  · have hreach1 := Reach.managerNewSession m codec sendChanSize hreach hwrap
    have hinv1 := (Reach.manager_inv hreach1).1
    obtain ⟨_, f2, f3, _, _, _⟩ := newSession_frame w (some m) codec sendChanSize
    obtain ⟨s1, _, _, _, _, _, s7, _⟩ := newSession_sessions w (some m) codec sendChanSize
    have hopen := Manager.putSession_open (newSession w (some m) codec sendChanSize).1 m
      w.nextSession (by rw [s7, f2]; exact hdisp)
    have hstep : Manager.NewSession w m codec sendChanSize =
        (Manager.putSession (newSession w (some m) codec sendChanSize).1 m w.nextSession,
          w.nextSession) := by
      unfold Manager.NewSession
      simp only [s1]
    rw [hstep] at hinv1 ⊢
    simp only []
    have hreg : Manager.registered
        (Manager.putSession (newSession w (some m) codec sendChanSize).1 m w.nextSession) m
        w.nextSession := by
      unfold Manager.registered
      rw [hopen.2.2.2.2.1, f3]
      refine ⟨by simp, ?_⟩
      simp only [List.mem_append, List.mem_singleton, reduceCtorEq, or_false]
      exact fun h => absurd (a8 m _ (Or.inr h)) (lt_irrefl _)
    refine ⟨hreg, ?_⟩
    have hidn : Session.ID
        (Manager.putSession (newSession w (some m) codec sendChanSize).1 m w.nextSession)
        w.nextSession = w.nextSession + 1 :=
      hinv1.2.2.1 _ (hinv1.2.2.2.2.2.2.2 m _ (Or.inl hreg.1))
    rw [hidn]
    exact (hinv1.2.2.2.2.2.2.1 m _).mpr hreg

theorem Manager.GetSession_of_registered_witness :
    Manager.registered (Manager.NewSession World.init 0 Codec.plain 0).1 0
        (Manager.NewSession World.init 0 Codec.plain 0).2 ∧
      Manager.GetSession (Manager.NewSession World.init 0 Codec.plain 0).1 0
        (Session.ID (Manager.NewSession World.init 0 Codec.plain 0).1
          (Manager.NewSession World.init 0 Codec.plain 0).2) =
        some (Manager.NewSession World.init 0 Codec.plain 0).2 :=
  (Manager.GetSession_of_registered World.init 0 Reach.start).2.2 Codec.plain 0
    (by decide) (by decide)

/-! ## The wait counter counts the stored sessions -/

/-- C10: in every reachable state and for every manager, the wait counter equals the
number of sessions stored in the 32 shards, so it is never negative, and it is zero,
which is what `Dispose` waits for, exactly when `delSession` has run for every session
that `putSession` has stored. -/
theorem Manager.wait_counter_counts_sessions (w : World) (m : Nat) (hreach : Reach w) :
    (w.managers m).disposeWait = (Manager.total w m : Int) ∧
    0 ≤ (w.managers m).disposeWait ∧
    (Manager.disposeReturns w m ↔
      ∀ p, Event.putSession m p ∈ w.trace → Event.delSession m p ∈ w.trace) := by
  have hinv := (Reach.manager_inv hreach).1
  have a6 := hinv.2.2.2.2.2.1 m
  have a7 := hinv.2.2.2.2.2.2.1 m
  refine ⟨a6, by rw [a6]; exact Int.natCast_nonneg _, ?_⟩
  unfold Manager.disposeReturns
  rw [a6]
  have hzero : ((Manager.total w m : Nat) : Int) = 0 ↔ Manager.total w m = 0 := by
    constructor
    · intro h; exact_mod_cast h
    · intro h; rw [h]; rfl
  rw [hzero]
  unfold Manager.total
  rw [sum_range_eq_zero]
  constructor
  · intro hempty p hput
    by_contra hdel
    have hget : Manager.GetSession w m (p + 1) = some p := (a7 p).mpr ⟨hput, hdel⟩
    have hmem := mem_of_mapGet hget
    have hlen := hempty ((p + 1) % sessionMapNum) (sessionMapNum_mod_lt _)
    rw [List.length_eq_zero] at hlen
    rw [hlen] at hmem
    simp at hmem
  · intro hall i _
    rw [List.length_eq_zero]
    cases hs : ((w.managers m).sessionMaps i).sessions with
    | nil => rfl
    | cons e es =>
      exfalso
      obtain ⟨hreg, _⟩ := Manager.registered_of_mem w hinv m i e (by rw [hs]; exact List.mem_cons_self _ _)
      exact hreg.2 (hall e.2 hreg.1)

theorem Manager.wait_counter_counts_sessions_witness :
    ((Manager.NewSession World.init 0 Codec.plain 0).1.managers 0).disposeWait =
      (Manager.total (Manager.NewSession World.init 0 Codec.plain 0).1 0 : Int) ∧
    0 ≤ ((Manager.NewSession World.init 0 Codec.plain 0).1.managers 0).disposeWait ∧
    (Manager.disposeReturns (Manager.NewSession World.init 0 Codec.plain 0).1 0 ↔
      ∀ p, Event.putSession 0 p ∈ (Manager.NewSession World.init 0 Codec.plain 0).1.trace →
        Event.delSession 0 p ∈ (Manager.NewSession World.init 0 Codec.plain 0).1.trace) :=
  Manager.wait_counter_counts_sessions (Manager.NewSession World.init 0 Codec.plain 0).1 0
    (Reach.managerNewSession 0 Codec.plain 0 Reach.start (by decide))

/-! ## The accept loop -/

theorem wrapInt64_of_bounds (x : Int) (h1 : -(2 ^ 63) ≤ x) (h2 : x < 2 ^ 63) : wrapInt64 x = x := by
  unfold wrapInt64
  norm_num at h1 h2 ⊢
  omega

theorem nextDelay_pos (d : Int) (h0 : 0 < d) (h1 : d ≤ Second) :
    nextDelay d = min (d * 2) Second := by
  unfold nextDelay
  have hne : d ≠ 0 := by omega
  unfold Second at h1 ⊢
  rw [if_neg hne, wrapInt64_of_bounds (d * 2) (by norm_num; omega) (by norm_num; omega)]
  simp only []
  split <;> omega


theorem delayAfter_succ (i : Nat) :
    delayAfter (i + 1) = min (5 * Millisecond * 2 ^ i) Second := by
  induction i with
  | zero => decide
  | succ i ih =>
    have hpos : (0 : Int) < 5 * Millisecond * 2 ^ i := by
      unfold Millisecond; positivity
    have h0 : 0 < delayAfter (i + 1) := by
      rw [ih]; unfold Second; exact lt_min hpos (by norm_num)
    have h1 : delayAfter (i + 1) ≤ Second := by rw [ih]; exact min_le_right _ _
    have hstep : delayAfter (i + 1 + 1) = nextDelay (delayAfter (i + 1)) := by
      unfold delayAfter; exact Function.iterate_succ_apply' nextDelay (i + 1) 0
    have hmul : (5 : Int) * Millisecond * 2 ^ (i + 1) = (5 * Millisecond * 2 ^ i) * 2 := by ring
    rw [hstep, nextDelay_pos _ h0 h1, ih, hmul]
    generalize 5 * Millisecond * 2 ^ i = a at hpos
    unfold Second
    omega


theorem delaysFrom_getElem? (n : Nat) : ∀ (d : Int) (i : Nat), i < n →
    (delaysFrom d n ++ l)[i]? = some (nextDelay^[i + 1] d) := by
  induction n with
  | zero => intro d i h; omega
  | succ n ih =>
    intro d i h
    cases i with
    | zero => simp [delaysFrom]
    | succ i =>
      simp only [delaysFrom, List.cons_append, List.getElem?_cons_succ]
      rw [ih (nextDelay d) i (by omega)]
      rfl

theorem acceptLoop_error (d : Int) (e : GoError) (rest : List (Except GoError Nat)) :
    acceptLoop d (Except.error e :: rest) =
      if e.Temporary then
        (nextDelay d :: (acceptLoop (nextDelay d) rest).1, (acceptLoop (nextDelay d) rest).2)
      else if stringsContains e.Error.data "use of closed network connection".data then
        ([], some (Except.error GoError.EOF))
      else ([], some (Except.error e)) := by
  rw [acceptLoop]

theorem acceptLoop_temporary (errs : List GoError) (htemp : ∀ e ∈ errs, e.Temporary = true) :
    ∀ (d : Int) (rest : List (Except GoError Nat)),
      acceptLoop d (errs.map Except.error ++ rest) =
        (delaysFrom d errs.length ++ (acceptLoop (nextDelay^[errs.length] d) rest).1,
          (acceptLoop (nextDelay^[errs.length] d) rest).2) := by
  induction errs with
  | nil => intro d rest; simp [delaysFrom]
  | cons e errs ih =>
    intro d rest
    have he : e.Temporary = true := htemp e (List.mem_cons_self _ _)
    have ht : ∀ x ∈ errs, x.Temporary = true := fun x hx => htemp x (List.mem_cons_of_mem _ hx)
    rw [List.map_cons, List.cons_append, acceptLoop_error, he, if_pos rfl, ih ht]
    simp only [delaysFrom, List.length_cons, Function.iterate_succ_apply, List.cons_append]

theorem acceptLoop_permanent (d : Int) (e : GoError) (h : e.Temporary = false)
    (rest : List (Except GoError Nat)) :
    acceptLoop d (Except.error e :: rest) =
      ([], some (Except.error
        (if stringsContains e.Error.data "use of closed network connection".data then GoError.EOF
         else e))) := by
  rw [acceptLoop_error, h]
  simp only [Bool.false_eq_true, if_false]
  split <;> rfl

theorem delaysFrom_length (n : Nat) : ∀ (d : Int), (delaysFrom d n).length = n := by
  induction n with
  | zero => intro d; rfl
  | succ n ih => intro d; simp [delaysFrom, ih]

theorem stringsContains_iff (s sub : List Char) :
    stringsContains s sub = true ↔ ∃ pre post, s = pre ++ sub ++ post := by
  unfold stringsContains
  rw [List.any_eq_true]
  constructor
  · rintro ⟨t, ht, hp⟩
    obtain ⟨pre, hpre⟩ := (List.mem_tails _ _).mp ht
    obtain ⟨post, hpost⟩ := List.isPrefixOf_iff_prefix.mp hp
    exact ⟨pre, post, by rw [← hpre, ← hpost, List.append_assoc]⟩
  · rintro ⟨pre, post, h⟩
    refine ⟨sub ++ post, (List.mem_tails _ _).mpr ⟨pre, ?_⟩, ?_⟩
    · rw [h, List.append_assoc]
    · exact List.isPrefixOf_iff_prefix.mpr ⟨post, rfl⟩

/-- C9: when the listener gives temporary errors in a row, `n >= 1` of them or more, the
delay slept after the `n`-th of them is `min (5 ms * 2 ^ (n - 1)) (1 s)`: the first is
5 ms, no delay exceeds 1 s, and a delay of 1 s is followed by a delay of 1 s; the 64-bit
duration does not overflow. A non-temporary error, whether it comes first or after
temporary errors, ends the loop without a further delay: `Accept` returns `io.EOF` when
"use of closed network connection" occurs in its text, and the error itself when it
does not. -/
theorem Accept_backoff (errs : List GoError) (htemp : ∀ e ∈ errs, e.Temporary = true)
    (rest : List (Except GoError Nat)) :
    (∀ n, 1 ≤ n → n ≤ errs.length →
      (Accept (errs.map Except.error ++ rest)).1[n - 1]? =
        some (min (5 * Millisecond * 2 ^ (n - 1)) Second)) ∧
    (1 ≤ errs.length → (Accept (errs.map Except.error ++ rest)).1[0]? = some (5 * Millisecond)) ∧
    (∀ i d, i < errs.length → (Accept (errs.map Except.error ++ rest)).1[i]? = some d →
      0 < d ∧ d ≤ Second) ∧
    (∀ i, i + 1 < errs.length → (Accept (errs.map Except.error ++ rest)).1[i]? = some Second →
      (Accept (errs.map Except.error ++ rest)).1[i + 1]? = some Second) ∧
    (∀ e, e.Temporary = false →
      (Accept (errs.map Except.error ++ Except.error e :: rest)).1.length = errs.length ∧
      ((∃ pre post, e.Error.data = pre ++ "use of closed network connection".data ++ post) →
        (Accept (errs.map Except.error ++ Except.error e :: rest)).2 =
          some (Except.error GoError.EOF)) ∧
      ((¬ ∃ pre post, e.Error.data = pre ++ "use of closed network connection".data ++ post) →
        (Accept (errs.map Except.error ++ Except.error e :: rest)).2 =
          some (Except.error e))) := by
  have key : ∀ i, i < errs.length → (Accept (errs.map Except.error ++ rest)).1[i]? =
      some (min (5 * Millisecond * 2 ^ i) Second) := by
    intro i hi
    unfold Accept
    rw [acceptLoop_temporary errs htemp]
    simp only []
    rw [delaysFrom_getElem? errs.length 0 i hi]
    exact congrArg some (delayAfter_succ i)
  refine ⟨?_, ?_, ?_, ?_, ?_⟩
  · intro n h1 h2
    exact key (n - 1) (by omega)
  · intro h
    rw [key 0 (by omega)]
    decide
  · intro i d hi hd
    rw [key i hi] at hd
    cases hd
    have hpos : (0 : Int) < 5 * Millisecond * 2 ^ i := by unfold Millisecond; positivity
    exact ⟨lt_min hpos (by decide), min_le_right _ _⟩
  · intro i hi hd
    rw [key i (by omega)] at hd
    rw [key (i + 1) hi]
    have h1 : min (5 * Millisecond * 2 ^ i) Second = Second := by simpa using hd
    have hpos : (0 : Int) < 5 * Millisecond * 2 ^ i := by unfold Millisecond; positivity
    have hmul : (5 : Int) * Millisecond * 2 ^ (i + 1) = (5 * Millisecond * 2 ^ i) * 2 := by ring
    rw [hmul]
    generalize 5 * Millisecond * 2 ^ i = a at hpos h1
    congr 1
    omega
  · intro e he
    have hrun : Accept (errs.map Except.error ++ Except.error e :: rest) =
        (delaysFrom 0 errs.length ++ [], some (Except.error
          (if stringsContains e.Error.data "use of closed network connection".data
           then GoError.EOF else e))) := by
      unfold Accept
      rw [acceptLoop_temporary errs htemp, acceptLoop_permanent _ e he]
    rw [hrun]
    refine ⟨by simp [delaysFrom_length], fun h => ?_, fun h => ?_⟩
    · rw [if_pos ((stringsContains_iff _ _).mpr h)]
    · rw [if_neg (fun hc => h ((stringsContains_iff _ _).mp hc))]

theorem Accept_backoff_witness :
    ((Accept ([GoError.other true "a", GoError.other true "b"].map Except.error ++ [])).1[2 - 1]? =
        some (min (5 * Millisecond * 2 ^ (2 - 1)) Second)) ∧
    ((Accept ([].map Except.error ++ [Except.error
        (GoError.other false "accept tcp [::]:80: use of closed network connection")])).2 =
      some (Except.error GoError.EOF)) ∧
    ((Accept ([GoError.other true "a"].map Except.error ++ [Except.error
        (GoError.other false "connection reset")])).2 =
      some (Except.error (GoError.other false "connection reset"))) :=
  ⟨(Accept_backoff [GoError.other true "a", GoError.other true "b"] (by decide) []).1 2
      (by decide) (by decide),
    ((Accept_backoff [] (by simp) []).2.2.2.2
      (GoError.other false "accept tcp [::]:80: use of closed network connection") rfl).2.1
      ⟨"accept tcp [::]:80: ".data, [], by decide⟩,
    ((Accept_backoff [GoError.other true "a"] (by decide) []).2.2.2.2
      (GoError.other false "connection reset") rfl).2.2
      (by
        rw [← stringsContains_iff]
        decide)⟩

end Link
